import Mathlib

/-!
# Aecs: entity registry, sparse-set component pools and views

A shallow embedding of the C++ headers `Entity.h`, `PagedVector.h`,
`SparseSet.h`, `TupleUtility.h`, `BasicView.h` and `Registry.h`.

Conventions of the embedding

* `size_t` values are natural numbers; `SIZE_MAX` is `2 ^ 64 - 1`.  Counters
  the code increments or decrements (`entities_`, an identity slot's
  `version`) wrap modulo `2 ^ 64`.  Container sizes are plain lengths.
* `std::vector<X>` is `List X`; `std::unique_ptr<X>` is `Option X`
  (`none` is the null pointer).
* An operation whose C++ execution would dereference a null pointer or index
  a container out of bounds returns `none`.
* A component type is named by its `FamilyGenerator` index; component values
  of all pools of one registry are drawn from one value type `V`.
* The lifecycle hooks of `Component` are the default empty ones.
-/

set_option autoImplicit false

namespace aecs

/-! ## Entity.h -/

/-- The largest `size_t` value. -/
def SIZE_MAX : Nat := 2 ^ 64 - 1

/-- The macro `PAGE_SIZE` of `SparseSet.h`. -/
def PAGE_SIZE : Nat := 128

structure Entity where
  index : Nat
  version : Nat
deriving DecidableEq, Repr

namespace Entity

/-- The constant `Entity::max`. -/
def max : Nat := SIZE_MAX

/-- The constant `Entity::null`. -/
def null : Entity := ⟨max, max⟩

/-- The method `Entity::isValid`. -/
def isValid (e : Entity) : Bool := e.index != max && e.version != max

end Entity

/-- The call `std::vector::resize n` on a vector of owning pointers: new
slots are null. -/
def vresize {α : Type} (xs : List (Option α)) (n : Nat) : List (Option α) :=
  xs.take n ++ List.replicate (n - xs.length) none

/-! ## PagedVector.h -/

structure PagedVector (T : Type) where
  storage_ : List (Option (List T))
  size_ : Nat
deriving DecidableEq, Repr

namespace PagedVector

variable {T : Type}

/-- The constructor `PagedVector()`. -/
def new : PagedVector T := ⟨[], 0⟩

/-- The method `push_back`. -/
def push_back (pageSize : Nat) (pv : PagedVector T) (elem : T) : Option (PagedVector T) :=
  let pageIdx := pv.size_ / pageSize
  let st :=
    if pageIdx ≥ pv.storage_.length then
      (vresize pv.storage_ (pageIdx + 1)).set pageIdx (some [])
    else pv.storage_
  match st[pageIdx]? with
  | some (some page) => some ⟨st.set pageIdx (some (page ++ [elem])), pv.size_ + 1⟩
  | _ => none

/-- The method `operator[]`, read. -/
def get (pageSize : Nat) (pv : PagedVector T) (n : Nat) : Option T :=
  match pv.storage_[n / pageSize]? with
  | some (some page) => page[n % pageSize]?
  | _ => none

/-- The method `operator[]`, assignment through the returned reference. -/
def set (pageSize : Nat) (pv : PagedVector T) (n : Nat) (v : T) : Option (PagedVector T) :=
  match pv.storage_[n / pageSize]? with
  | some (some page) =>
    if n % pageSize < page.length then
      some ⟨pv.storage_.set (n / pageSize) (some (page.set (n % pageSize) v)), pv.size_⟩
    else none
  | _ => none

/-- The method `size`. -/
def size (pv : PagedVector T) : Nat := pv.size_

end PagedVector

/-! ## SparseSet.h -/

structure SparseSet (T : Type) where
  destroyed_ : Nat
  entities_ : Nat
  denseComponents_ : PagedVector T
  denseEntities_ : List Entity
  sparse_ : List (Option (List Nat))
deriving DecidableEq, Repr

namespace SparseSet

variable {T : Type}

/-- The constructor `SparseSet(reg)`. -/
def new : SparseSet T :=
  { destroyed_ := SIZE_MAX, entities_ := 0, denseComponents_ := PagedVector.new,
    denseEntities_ := [], sparse_ := vresize [] 8 }

/-- The expression `sparse_[n / PAGE_SIZE]->operator[](n % PAGE_SIZE)`, read
from a sparse page array. -/
def sparse_read (sp : List (Option (List Nat))) (n : Nat) : Option Nat :=
  match sp[n / PAGE_SIZE]? with
  | some (some page) => page[n % PAGE_SIZE]?
  | _ => none

/-- The method `sparse_at`, read. -/
def sparse_at (s : SparseSet T) (n : Nat) : Option Nat := sparse_read s.sparse_ n

/-- The method `sparse_at`, assignment through the returned reference. -/
def sparse_put (sp : List (Option (List Nat))) (n v : Nat) : Option (List (Option (List Nat))) :=
  match sp[n / PAGE_SIZE]? with
  | some (some page) =>
    if n % PAGE_SIZE < page.length then
      some (sp.set (n / PAGE_SIZE) (some (page.set (n % PAGE_SIZE) v)))
    else none
  | _ => none

/-- The method `contains`. -/
def contains (s : SparseSet T) (ent : Entity) : Bool :=
  let pageNo := ent.index / PAGE_SIZE
  if pageNo ≥ s.sparse_.length then false
  else
    match s.sparse_[pageNo]? with
    | some (some page) =>
      match page[ent.index % PAGE_SIZE]? with
      | some index =>
        if index ≥ s.denseEntities_.length then false
        else decide (s.denseEntities_[index]? = some ent)
      | none => false
    | _ => false

/-- The method `get`. -/
def get (s : SparseSet T) (ent : Entity) : Option T :=
  match s.sparse_at ent.index with
  | some index => s.denseComponents_.get PAGE_SIZE index
  | none => none

/-- The method `try_get`; `none` is the null pointer. -/
def try_get (s : SparseSet T) (ent : Entity) : Option T :=
  if s.contains ent then s.get ent else none

/-- The sparse page array of `insert` after the page for `pageNo` has been
made to exist. -/
def ensure_page (sp : List (Option (List Nat))) (pageNo : Nat) : List (Option (List Nat)) :=
  let sp1 := if pageNo ≥ sp.length then vresize sp (pageNo + 1) else sp
  match sp1[pageNo]? with
  | some none => sp1.set pageNo (some (List.replicate PAGE_SIZE SIZE_MAX))
  | _ => sp1

/-- The method `insert`: the new pool and the value the returned reference
designates. -/
def insert (s : SparseSet T) (elem : T) (ent : Entity) : Option (SparseSet T × T) :=
  if s.contains ent then
    match s.sparse_at ent.index with
    | some i =>
      match s.denseComponents_.get PAGE_SIZE i with
      | some v => some (s, v)
      | none => none
    | none => none
  else
    let pageNo := ent.index / PAGE_SIZE
    let sp := ensure_page s.sparse_ pageNo
    if s.destroyed_ = SIZE_MAX then
      let index := s.denseComponents_.size
      let de := s.denseEntities_ ++ [ent]
      match s.denseComponents_.push_back PAGE_SIZE elem with
      | none => none
      | some dc =>
        match sparse_put sp ent.index index with
        | none => none
        | some sp' =>
          match dc.get PAGE_SIZE index with
          | none => none
          | some v =>
            some ({ destroyed_ := s.destroyed_, entities_ := (s.entities_ + 1) % 2 ^ 64,
                    denseComponents_ := dc, denseEntities_ := de, sparse_ := sp' }, v)
    else
      let index := s.destroyed_
      match s.denseEntities_[index]? with
      | none => none
      | some hole =>
        match s.denseComponents_.set PAGE_SIZE index elem with
        | none => none
        | some dc =>
          match sparse_put sp ent.index index with
          | none => none
          | some sp' =>
            match dc.get PAGE_SIZE index with
            | none => none
            | some v =>
              some ({ destroyed_ := hole.index, entities_ := (s.entities_ + 1) % 2 ^ 64,
                      denseComponents_ := dc, denseEntities_ := s.denseEntities_.set index ent,
                      sparse_ := sp' }, v)

/-- The method `remove`. -/
def remove (s : SparseSet T) (ent : Entity) : Option (SparseSet T) :=
  if !s.contains ent then some s
  else
    match s.sparse_at ent.index with
    | none => none
    | some dIndex =>
      if dIndex < s.denseEntities_.length then
        match sparse_put s.sparse_ ent.index SIZE_MAX with
        | none => none
        | some sp' =>
          some { destroyed_ := dIndex, entities_ := (s.entities_ + (2 ^ 64 - 1)) % 2 ^ 64,
                 denseComponents_ := s.denseComponents_,
                 denseEntities_ := s.denseEntities_.set dIndex ⟨s.destroyed_, Entity.max⟩,
                 sparse_ := sp' }
      else none

/-- The method `get_entities`. -/
def get_entities (s : SparseSet T) : List Entity := s.denseEntities_

/-- The method `entities_count`. -/
def entities_count (s : SparseSet T) : Nat := s.entities_

end SparseSet

/-! ## BasicView.h: `SingleView` -/

namespace SingleView

/-- The test `entities_[idx].isValid()` at a position inside the array. -/
def validAt (ents : List Entity) (idx : Nat) : Bool :=
  match ents[idx]? with
  | some e => e.isValid
  | none => false

/-- The loop of `find_begin_idx`, entered at `idx` with `fuel` iterations
allowed. -/
def find_begin_loop (ents : List Entity) : Nat → Nat → Nat
  | 0, idx => idx
  | fuel + 1, idx =>
    if idx < ents.length then
      if validAt ents idx then idx else find_begin_loop ents fuel (idx + 1)
    else idx

/-- The method `find_begin_idx`. -/
def find_begin_idx (ents : List Entity) : Nat := find_begin_loop ents ents.length 0

/-- The do-while loop of `iterator::operator++`, with `fuel` repetitions
allowed after the first. -/
def inc_loop (ents : List Entity) : Nat → Nat → Nat
  | 0, idx => idx + 1
  | fuel + 1, idx =>
    if idx + 1 < ents.length && !validAt ents (idx + 1) then inc_loop ents fuel (idx + 1)
    else idx + 1

/-- The method `iterator::operator++`. -/
def inc (ents : List Entity) (idx : Nat) : Nat := inc_loop ents ents.length idx

/-- The positions an iterator takes in the loop
`for (it = first; it != end(); ++it)`, with `fuel` rounds allowed. -/
def positions_from (ents : List Entity) : Nat → Nat → List Nat
  | 0, _ => []
  | fuel + 1, idx =>
    if idx ≠ ents.length then idx :: positions_from ents fuel (inc ents idx) else []

/-- The positions visited by a range-for over the view, from `begin()`. -/
def positions (ents : List Entity) : List Nat :=
  positions_from ents (ents.length + 1) (find_begin_idx ents)

/-- The entities a range-for over the view yields: `*it` at each position. -/
def iterate (ents : List Entity) : Option (List Entity) :=
  (positions ents).mapM fun idx => ents[idx]?

/-- The method `size`. -/
def size (ents : List Entity) : Nat := ents.length

end SingleView

/-! ## TupleUtility.h -/

namespace tplu

/-- The function `index_apply<I>`: the tuple elements `tpl[k + I]`, for `k`
in the index sequence, in the order the lambda is applied to them. The
positions are inside the tuple at every call site (`std::get` is checked at
compile time). -/
def index_apply {α : Type} (I : Nat) (tpl : List α) (idxs : List Nat) : List α :=
  idxs.filterMap fun k => tpl[k + I]?

/-- The function `apply_without<I>` with a compile-time index: the elements
the lambda is applied to, in order. -/
def apply_without_static {α : Type} (I : Nat) (tpl : List α) : List α :=
  let head := List.range I
  let tail := List.range (tpl.length - I - 1)
  index_apply 0 tpl head ++ index_apply (I + 1) tpl tail

/-- The recursion `apply_without_runtime_impl<I>::apply`. -/
def apply_without_runtime_impl {α : Type} : Nat → Nat → List α → List α
  | 0, _, tpl => apply_without_static 0 tpl
  | I + 1, i, tpl =>
    if I + 1 = i then apply_without_static (I + 1) tpl
    else apply_without_runtime_impl I i tpl

/-- The function `apply_without` with a runtime index: the elements the
lambda is applied to, in order. -/
def apply_without {α : Type} (i : Nat) (tpl : List α) : List α :=
  apply_without_runtime_impl (tpl.length - 1) i tpl

end tplu

/-! ## Registry.h -/

structure Registry (V : Type) where
  destroyed_ : Nat
  entities_ : List Entity
  pools_ : List (Option (SparseSet V))
deriving DecidableEq, Repr

namespace Registry

variable {V : Type}

/-- The constructor `Registry()`. -/
def new : Registry V := { destroyed_ := SIZE_MAX, entities_ := [], pools_ := [] }

/-- The method `get_pool<Component>`, for the component with family index
`index`: the registry after the call. The pointer it returns is
`get_pool_at index` of this registry. -/
def get_pool (r : Registry V) (index : Nat) : Registry V :=
  let pools1 := if index ≥ r.pools_.length then vresize r.pools_ (index + 1) else r.pools_
  let pools2 :=
    match pools1[index]? with
    | some none => pools1.set index (some SparseSet.new)
    | _ => pools1
  { destroyed_ := r.destroyed_, entities_ := r.entities_, pools_ := pools2 }

/-- The method `get_pool_at<Component>`: the pool `pools_[index]` points to. -/
def get_pool_at (r : Registry V) (index : Nat) : Option (SparseSet V) :=
  match r.pools_[index]? with
  | some (some p) => some p
  | _ => none

/-- The pool the pointer returned by `get_pool<Component>()` designates. -/
def pool_of (r : Registry V) (index : Nat) : SparseSet V :=
  match (r.get_pool index).get_pool_at index with
  | some p => p
  | none => SparseSet.new

/-- The registry with the pool at `index` replaced: a write through the
pointer `get_pool` returned. -/
def put_pool (r : Registry V) (index : Nat) (p : SparseSet V) : Registry V :=
  { destroyed_ := r.destroyed_, entities_ := r.entities_, pools_ := r.pools_.set index (some p) }

/-- The method `add<Component>`: the new registry and the value the returned
reference designates. -/
def add (r : Registry V) (index : Nat) (ent : Entity) (c : V) : Option (Registry V × V) :=
  let r1 := r.get_pool index
  match r1.get_pool_at index with
  | none => none
  | some pool =>
    match pool.insert c ent with
    | none => none
    | some (pool', x) => some (r1.put_pool index pool', x)

/-- The method `get<Component>`. -/
def get (r : Registry V) (index : Nat) (ent : Entity) : Option V :=
  match r.get_pool_at index with
  | none => none
  | some pool => pool.get ent

/-- The method `try_get<Component>`: the registry after the call and the
pointer returned (`none` is null). -/
def try_get (r : Registry V) (index : Nat) (ent : Entity) : Option (Registry V × Option V) :=
  let r1 := r.get_pool index
  match r1.get_pool_at index with
  | none => none
  | some pool => some (r1, pool.try_get ent)

/-- The method `has<Component...>`: the fold of `&&` over the listed
components, left to right, stopping at the first pool without the entity. -/
def has : Registry V → List Nat → Entity → Option (Registry V × Bool)
  | r, [], _ => some (r, true)
  | r, index :: rest, ent =>
    let r1 := r.get_pool index
    match r1.get_pool_at index with
    | none => none
    | some pool => if pool.contains ent then has r1 rest ent else some (r1, false)

/-- The method `remove<Component>(ent)`. -/
def remove_component (r : Registry V) (index : Nat) (ent : Entity) : Option (Registry V) :=
  let r1 := r.get_pool index
  match r1.get_pool_at index with
  | none => none
  | some pool =>
    match pool.remove ent with
    | none => none
    | some pool' => some (r1.put_pool index pool')

/-- The loop `for (const auto& pool : pools_) pool->remove(ent)`. -/
def remove_from_pools (ent : Entity) :
    List (Option (SparseSet V)) → Option (List (Option (SparseSet V)))
  | [] => some []
  | none :: _ => none
  | some pool :: rest =>
    match pool.remove ent with
    | none => none
    | some pool' =>
      match remove_from_pools ent rest with
      | none => none
      | some rest' => some (some pool' :: rest')

/-- The method `remove(ent)` that removes a whole entity. -/
def remove (r : Registry V) (ent : Entity) : Option (Registry V) :=
  match remove_from_pools ent r.pools_ with
  | none => none
  | some pools' =>
    if ent.index < r.entities_.length then
      match r.entities_[ent.index]? with
      | none => none
      | some slot =>
        some { destroyed_ := ent.index,
               entities_ := r.entities_.set ent.index ⟨r.destroyed_, (slot.version + 1) % 2 ^ 64⟩,
               pools_ := pools' }
    else some { destroyed_ := r.destroyed_, entities_ := r.entities_, pools_ := pools' }

/-- The method `create`. -/
def create (r : Registry V) : Option (Registry V × Entity) :=
  if r.destroyed_ = SIZE_MAX then
    let new_ent : Entity := ⟨r.entities_.length, 0⟩
    some ({ destroyed_ := r.destroyed_, entities_ := r.entities_ ++ [new_ent],
            pools_ := r.pools_ }, new_ent)
  else
    let free_index := r.destroyed_
    match r.entities_[free_index]? with
    | none => none
    | some slot =>
      let ent : Entity := ⟨free_index, slot.version⟩
      some ({ destroyed_ := slot.index, entities_ := r.entities_.set free_index ent,
              pools_ := r.pools_ }, ent)

/-- The method `view<Component>`: the registry after the call and the dense
entity array the `SingleView` is bound to. -/
def view_single (r : Registry V) (index : Nat) : Option (Registry V × List Entity) :=
  let r1 := r.get_pool index
  match r1.get_pool_at index with
  | none => none
  | some pool => some (r1, pool.get_entities)

/-- The fold of the lambda `set_smallest` over the tuple of pools. -/
def set_smallest {T : Type} :
    List (SparseSet T) → List Entity → Nat → Nat → List Entity × Nat
  | [], smallest, smallest_index, _ => (smallest, smallest_index)
  | poolptr :: rest, smallest, smallest_index, i =>
    if poolptr.entities_count < smallest.length then
      set_smallest rest poolptr.get_entities i (i + 1)
    else set_smallest rest smallest smallest_index (i + 1)

/-- The method `view<Comps...>` for two or more components: the registry
after the call and the entity list the `MultiView` owns. The pools are
resolved one after the other; which order is taken does not change the pool
a family index designates. An empty component list, which the template
rejects, yields `none`. -/
def view (r : Registry V) (idxs : List Nat) : Option (Registry V × List Entity) :=
  let r1 := idxs.foldl get_pool r
  match idxs.mapM r1.get_pool_at with
  | none => none
  | some pools =>
    match pools.head? with
    | none => none
    | some first =>
      let (smallest, smallest_index) := set_smallest pools first.get_entities 0 0
      let entities := smallest.filter fun entity =>
        entity.isValid &&
          (tplu.apply_without smallest_index pools).all fun poolptr => poolptr.contains entity
      some (r1, entities)

/-- No container size has reached `SIZE_MAX`. -/
def sizesOk (r : Registry V) : Bool :=
  decide (r.entities_.length ≤ SIZE_MAX) &&
    r.pools_.all fun o =>
      match o with
      | some p => decide (p.denseEntities_.length ≤ SIZE_MAX)
      | none => true

/-- No version counter of the identity table is at the sentinel. -/
def versionsOk (r : Registry V) : Bool :=
  r.entities_.all fun slot => decide (slot.version ≠ SIZE_MAX)

/-- The identity table has a representable size and none of its version
counters is at the sentinel. -/
def noSentinel (r : Registry V) : Bool :=
  decide (r.entities_.length ≤ SIZE_MAX) && r.versionsOk

end Registry

/-! ## BasicView.h: `MultiView` -/

namespace MultiView

/-- The method `size`. -/
def size (entities_ : List Entity) : Nat := entities_.length

/-- The entities a range-for over the view yields. -/
def iterate (entities_ : List Entity) : List Entity := entities_

end MultiView

/-! ## Traces of registry calls -/

/-- A call on a registry; a component type is named by its family index. -/
inductive Op (V : Type) where
  | create
  | add (index : Nat) (ent : Entity) (c : V)
  | remove_component (index : Nat) (ent : Entity)
  | remove (ent : Entity)
deriving DecidableEq, Repr

/-- A registry together with the handles that are live (returned by `create`
and not since removed) and all handles `create` has returned, newest first. -/
structure World (V : Type) where
  reg : Registry V
  live : List Entity
  created : List Entity

namespace World

variable {V : Type}

/-- A fresh registry. -/
def new : World V := { reg := Registry.new, live := [], created := [] }

/-- One call. A call with a handle that is not live is not a step. -/
def step (w : World V) : Op V → Option (World V)
  | .create =>
    match w.reg.create with
    | none => none
    | some (r, e) => some { reg := r, live := e :: w.live, created := e :: w.created }
  | .add index ent c =>
    if ent ∈ w.live then
      match w.reg.add index ent c with
      | none => none
      | some (r, _) => some { reg := r, live := w.live, created := w.created }
    else none
  | .remove_component index ent =>
    if ent ∈ w.live then
      match w.reg.remove_component index ent with
      | none => none
      | some r => some { reg := r, live := w.live, created := w.created }
    else none
  | .remove ent =>
    if ent ∈ w.live then
      match w.reg.remove ent with
      | none => none
      | some r =>
        some { reg := r, live := w.live.filter (fun e => decide (e ≠ ent)),
               created := w.created }
    else none

/-- A sequence of calls from the state `w`. -/
def runFrom : World V → List (Op V) → Option (World V)
  | w, [] => some w
  | w, op :: ops =>
    match w.step op with
    | none => none
    | some w' => runFrom w' ops

/-- A sequence of calls on a fresh registry. -/
def run (ops : List (Op V)) : Option (World V) := runFrom World.new ops

/-- The check `g` holds in the state `w` and in every state the calls `ops`
lead through from it. -/
def alongRun (g : Registry V → Bool) : World V → List (Op V) → Bool
  | w, [] => g w.reg
  | w, op :: ops =>
    g w.reg &&
      match w.step op with
      | none => true
      | some w' => alongRun g w' ops

end World

/-! ## Well-formedness predicates and traces -/

/-- Well-formedness of a `PagedVector` with pages of `PAGE_SIZE` elements:
every page pointer is non-null, every page but the last is full, and the
number of pages is the least that holds `size_` elements. -/
def PVInv {T : Type} (pv : PagedVector T) : Prop :=
  (∀ p, p < pv.storage_.length →
    ∃ page : List T, pv.storage_[p]? = some (some page) ∧
      page.length = min PAGE_SIZE (pv.size_ - p * PAGE_SIZE)) ∧
  pv.storage_.length = (pv.size_ + (PAGE_SIZE - 1)) / PAGE_SIZE

/-- The dense free list: `FreeChain dense h l` says that following the
`index` field of the holes from head `h` visits exactly the slots `l`, in
this order, and then reaches `SIZE_MAX`. -/
def FreeChain (dense : List Entity) : Nat → List Nat → Prop
  | h, [] => h = SIZE_MAX
  | h, d :: ds =>
    h = d ∧ d ≠ SIZE_MAX ∧
      ∃ e : Entity, dense[d]? = some e ∧ e.version = Entity.max ∧ FreeChain dense e.index ds

/-- The representation invariant of a pool whose free list visits `chain`. -/
def PoolInvWith {T : Type} (s : SparseSet T) (chain : List Nat) : Prop :=
  PVInv s.denseComponents_ ∧
  s.denseComponents_.size_ = s.denseEntities_.length ∧
  (∀ (p : Nat) (page : List Nat), s.sparse_[p]? = some (some page) → page.length = PAGE_SIZE) ∧
  s.denseEntities_.length ≤ SIZE_MAX ∧
  FreeChain s.denseEntities_ s.destroyed_ chain ∧ chain.Nodup ∧
  (∀ (y d : Nat), s.sparse_at y = some d →
    d = SIZE_MAX ∨
      (d ∉ chain ∧ ∃ e : Entity, s.denseEntities_[d]? = some e ∧ e.index = y)) ∧
  s.entities_ + chain.length = s.denseEntities_.length

/-- The representation invariant of a pool. -/
def PoolInv {T : Type} (s : SparseSet T) : Prop := ∃ chain, PoolInvWith s chain

/-- A call on a pool. -/
inductive PoolOp (T : Type) where
  | insert (elem : T) (ent : Entity)
  | remove (ent : Entity)
deriving DecidableEq, Repr

/-- The pool after one call. -/
def PoolOp.apply {T : Type} (s : SparseSet T) : PoolOp T → Option (SparseSet T)
  | .insert elem ent =>
    match s.insert elem ent with
    | some (s', _) => some s'
    | none => none
  | .remove ent => s.remove ent

/-- The pool after a sequence of calls on a pool in state `s`. -/
def runPoolFrom {T : Type} : SparseSet T → List (PoolOp T) → Option (SparseSet T)
  | s, [] => some s
  | s, op :: ops =>
    match op.apply s with
    | some s' => runPoolFrom s' ops
    | none => none

/-- The pool after a sequence of calls on a freshly constructed pool. -/
def runPool {T : Type} (ops : List (PoolOp T)) : Option (SparseSet T) :=
  runPoolFrom SparseSet.new ops

/-- Every valid entity in the dense array is indexed by the sparse array: no
dense slot holds a valid entity that the pool does not contain. -/
def Tight {T : Type} (s : SparseSet T) : Prop :=
  ∀ (d : Nat) (e : Entity), s.denseEntities_[d]? = some e → e.isValid = true →
    s.sparse_at e.index = some d

/-- A pool after `insert 10 (0,0); insert 11 (1,0); remove (0,0)`: one member,
one hole at dense slot 0. -/
def demoPoolOps : List (PoolOp Nat) :=
  [.insert 10 ⟨0, 0⟩, .insert 11 ⟨1, 0⟩, .remove ⟨0, 0⟩]

/-- The pool `demoPoolOps` produces. -/
def demoPool : SparseSet Nat := (runPool demoPoolOps).getD SparseSet.new

/-- The identity free list: `IdChain tbl h l` says that following the `index`
field of the dead slots from head `h` visits exactly the slots `l`, in this
order, and then reaches `SIZE_MAX`. -/
def IdChain (tbl : List Entity) : Nat → List Nat → Prop
  | h, [] => h = SIZE_MAX
  | h, d :: ds =>
    h = d ∧ d ≠ SIZE_MAX ∧ ∃ slot : Entity, tbl[d]? = some slot ∧ IdChain tbl slot.index ds

/-- The invariant of the identity table, with free list `fl`. -/
def IdInvWith {V : Type} (w : World V) (fl : List Nat) : Prop :=
  w.reg.entities_.length ≤ SIZE_MAX ∧
  IdChain w.reg.entities_ w.reg.destroyed_ fl ∧ fl.Nodup ∧
  (∀ i ∈ fl, ∀ e ∈ w.live, e.index ≠ i) ∧
  (∀ e ∈ w.live, w.reg.entities_[e.index]? = some e) ∧
  (∀ slot ∈ w.reg.entities_, slot.version < 2 ^ 64)

/-- The invariant of the identity table. -/
def IdInv {V : Type} (w : World V) : Prop := ∃ fl, IdInvWith w fl

/-- Every handle `create` has returned is live or strictly older than the
version its slot now carries, and no handle was returned twice. -/
def HistInv {V : Type} (w : World V) : Prop :=
  w.created.Nodup ∧
  ∀ e ∈ w.created, e ∈ w.live ∨
    ∃ slot : Entity, w.reg.entities_[e.index]? = some slot ∧ e.version < slot.version

/-- A pool of a registry with live handles `live`: it satisfies the pool
invariant, holds no valid entity it does not contain, and contains live
entities only. -/
def PoolGood {V : Type} (p : SparseSet V) (live : List Entity) : Prop :=
  PoolInv p ∧ Tight p ∧ ∀ e, p.contains e = true → e ∈ live

/-- The invariant of the pools of a registry. -/
def PoolsInv {V : Type} (w : World V) : Prop :=
  ∀ (index : Nat) (p : SparseSet V), w.reg.get_pool_at index = some p → PoolGood p w.live

/-- A run that creates two entities, removes the first and creates again:
the slot of the first is recycled. -/
def demoIdOps : List (Op Nat) :=
  [.create, .create, .remove ⟨0, 0⟩, .create]

/-- The state `demoIdOps` leads to. -/
def demoIdWorld : World Nat := (World.run demoIdOps).getD World.new

/-- The registry after `create(); remove(e); remove(e)` for the handle `e`
that `create` returned: the second `remove` is given a handle that is no longer
live. -/
def doubleRemoved : Option (Registry Nat) :=
  match (Registry.new : Registry Nat).create with
  | none => none
  | some (r1, e) =>
    match r1.remove e with
    | none => none
    | some r2 => r2.remove e

/-- The registry after `create(); remove(e)`. -/
def onceRemoved : Option (Registry Nat) :=
  match (Registry.new : Registry Nat).create with
  | none => none
  | some (r1, e) => r1.remove e

/-- The handles two successive `create` calls return, from the registry `r`. -/
def createTwice {V : Type} (r : Registry V) : Option (Entity × Entity) :=
  match r.create with
  | none => none
  | some (r1, a) =>
    match r1.create with
    | none => none
    | some (_, b) => some (a, b)

/-- Scenario A: three entities; component 0 (Position) on `e0`, `e1`;
component 1 (Health) on `e1`, `e2`. -/
def scenarioAOps : List (Op Nat) :=
  [.create, .create, .create, .add 0 ⟨0, 0⟩ 10, .add 0 ⟨1, 0⟩ 11, .add 1 ⟨1, 0⟩ 21,
    .add 1 ⟨2, 0⟩ 22]

/-- The state Scenario A leads to. -/
def scenarioA : World Nat := (World.run scenarioAOps).getD World.new

/-! ## Second part: further definitions -/

/-- The value of `smallest_index` in `view<Comps...>` when the scan of the
driver pool starts. -/
def Registry.view_driver {V : Type} (r : Registry V) (idxs : List Nat) : Option Nat :=
  let r1 := idxs.foldl Registry.get_pool r
  match idxs.mapM r1.get_pool_at with
  | none => none
  | some pools =>
    match pools.head? with
    | none => none
    | some first => some (Registry.set_smallest pools first.get_entities 0 0).2

/-- A registry in which the component with family index 1 is the first one
used: `pools_[0]` is a null pointer below the pool at `pools_[1]`. -/
def nullSlotOps : List (Op Nat) := [.create, .add 1 ⟨0, 0⟩ 5]

/-- The state `nullSlotOps` leads to. -/
def nullSlotWorld : World Nat := (World.run nullSlotOps).getD World.new

/-- Five entities; component 0 is added to all five and removed from the first
two (three live components, two holes); component 1 is added to the last
four (four live components, no hole). -/
def holesOps : List (Op Nat) :=
  [.create, .create, .create, .create, .create,
    .add 0 ⟨0, 0⟩ 0, .add 0 ⟨1, 0⟩ 1, .add 0 ⟨2, 0⟩ 2, .add 0 ⟨3, 0⟩ 3, .add 0 ⟨4, 0⟩ 4,
    .remove_component 0 ⟨0, 0⟩, .remove_component 0 ⟨1, 0⟩,
    .add 1 ⟨1, 0⟩ 11, .add 1 ⟨2, 0⟩ 12, .add 1 ⟨3, 0⟩ 13, .add 1 ⟨4, 0⟩ 14]

/-- The state `holesOps` leads to. -/
def holesWorld : World Nat := (World.run holesOps).getD World.new

/-! ## Lifecycle hooks (`Component.h`, and the `if constexpr` blocks of
`SparseSet.h`) -/

/-- A call of a lifecycle hook: `self.onAdd(*registry_, ent)` or
`self.onRemove(*registry_, ent)`, where `self` is the stored component the
hook is called on. -/
inductive HookCall (T : Type) where
  | onAdd (self : T) (ent : Entity)
  | onRemove (self : T) (ent : Entity)
deriving DecidableEq, Repr

/-- A hook call without the component it is called on. -/
def HookCall.erase {T : Type} : HookCall T → HookCall Unit
  | .onAdd _ ent => .onAdd () ent
  | .onRemove _ ent => .onRemove () ent

namespace SparseSet

variable {T : Type}

/-- The method `insert` for a component type derived from `Component`
(`std::is_base_of_v<Component, T>` holds): the result of `insert` and the hook
calls made, each with the pool state in which it is made. The hook bodies are
taken not to modify the pool. -/
def insert_hooked (s : SparseSet T) (elem : T) (ent : Entity) :
    Option ((SparseSet T × T) × List (HookCall T × SparseSet T)) :=
  if s.contains ent then
    match s.sparse_at ent.index with
    | some i =>
      match s.denseComponents_.get PAGE_SIZE i with
      | some v => some ((s, v), [])
      | none => none
    | none => none
  else
    let pageNo := ent.index / PAGE_SIZE
    let sp := ensure_page s.sparse_ pageNo
    if s.destroyed_ = SIZE_MAX then
      let index := s.denseComponents_.size
      let de := s.denseEntities_ ++ [ent]
      match s.denseComponents_.push_back PAGE_SIZE elem with
      | none => none
      | some dc =>
        match sparse_put sp ent.index index with
        | none => none
        | some sp' =>
          match dc.get PAGE_SIZE index with
          | none => none
          | some self =>
            let atHook : SparseSet T :=
              { destroyed_ := s.destroyed_, entities_ := s.entities_,
                denseComponents_ := dc, denseEntities_ := de, sparse_ := sp' }
            some (({ destroyed_ := s.destroyed_, entities_ := (s.entities_ + 1) % 2 ^ 64,
                     denseComponents_ := dc, denseEntities_ := de, sparse_ := sp' }, self),
                  [(.onAdd self ent, atHook)])
    else
      let index := s.destroyed_
      match s.denseEntities_[index]? with
      | none => none
      | some hole =>
        match s.denseComponents_.set PAGE_SIZE index elem with
        | none => none
        | some dc =>
          match sparse_put sp ent.index index with
          | none => none
          | some sp' =>
            match dc.get PAGE_SIZE index with
            | none => none
            | some self =>
              let atHook : SparseSet T :=
                { destroyed_ := hole.index, entities_ := s.entities_,
                  denseComponents_ := dc, denseEntities_ := s.denseEntities_.set index ent,
                  sparse_ := sp' }
              some (({ destroyed_ := hole.index, entities_ := (s.entities_ + 1) % 2 ^ 64,
                       denseComponents_ := dc,
                       denseEntities_ := s.denseEntities_.set index ent,
                       sparse_ := sp' }, self),
                    [(.onAdd self ent, atHook)])

/-- The method `remove` for a component type derived from `Component`: the
result of `remove` and the hook calls made, each with the pool state in which
it is made. -/
def remove_hooked (s : SparseSet T) (ent : Entity) :
    Option (SparseSet T × List (HookCall T × SparseSet T)) :=
  if !s.contains ent then some (s, [])
  else
    match s.sparse_at ent.index with
    | none => none
    | some dIndex =>
      match s.denseComponents_.get PAGE_SIZE dIndex with
      | none => none
      | some self =>
        if dIndex < s.denseEntities_.length then
          match sparse_put s.sparse_ ent.index SIZE_MAX with
          | none => none
          | some sp' =>
            some ({ destroyed_ := dIndex, entities_ := (s.entities_ + (2 ^ 64 - 1)) % 2 ^ 64,
                    denseComponents_ := s.denseComponents_,
                    denseEntities_ := s.denseEntities_.set dIndex ⟨s.destroyed_, Entity.max⟩,
                    sparse_ := sp' },
                  [(.onRemove self ent, s)])
        else none

end SparseSet

/-- The pool after one call on a pool of a component type derived from
`Component`, and the hook calls made. -/
def PoolOp.apply_hooked {T : Type} (s : SparseSet T) :
    PoolOp T → Option (SparseSet T × List (HookCall T × SparseSet T))
  | .insert elem ent =>
    match s.insert_hooked elem ent with
    | some ((s', _), calls) => some (s', calls)
    | none => none
  | .remove ent => s.remove_hooked ent

/-- The pool after a sequence of calls, and all hook calls made, in order. -/
def runPoolHookedFrom {T : Type} :
    SparseSet T → List (PoolOp T) → Option (SparseSet T × List (HookCall T × SparseSet T))
  | s, [] => some (s, [])
  | s, op :: ops =>
    match op.apply_hooked s with
    | none => none
    | some (s', calls) =>
      match runPoolHookedFrom s' ops with
      | none => none
      | some (s'', calls') => some (s'', calls ++ calls')

/-- The hook calls the contract asks of one call in the pool state `s`: one
`onAdd` for an insert that adds a new member, one `onRemove` for a remove of a
member, none otherwise. -/
def expected_hooks_step {T : Type} (s : SparseSet T) : PoolOp T → List (HookCall Unit)
  | .insert _ ent => if s.contains ent then [] else [.onAdd () ent]
  | .remove ent => if s.contains ent then [.onRemove () ent] else []

/-- The hook calls the contract asks of a sequence of calls from the pool
state `s`. -/
def expected_hooks {T : Type} : SparseSet T → List (PoolOp T) → List (HookCall Unit)
  | _, [] => []
  | s, op :: ops =>
    expected_hooks_step s op ++
      match op.apply s with
      | some s' => expected_hooks s' ops
      | none => []

/-- The state in which a hook is called: the entity is a member and the
component the hook is called on is the one stored for it. -/
def HookCall.madeIn {T : Type} : HookCall T → SparseSet T → Prop
  | .onAdd self ent, s => s.contains ent = true ∧ s.get ent = some self
  | .onRemove self ent, s => s.contains ent = true ∧ s.get ent = some self

/-! ## Disciplined pool runs -/

/-- The pool contains an entity other than `ent` that has the index of
`ent`. -/
def SparseSet.index_taken {T : Type} (s : SparseSet T) (ent : Entity) : Bool :=
  match s.sparse_at ent.index with
  | some d =>
    match s.denseEntities_[d]? with
    | some e' => decide (e'.index = ent.index ∧ e' ≠ ent)
    | none => false
  | none => false

/-- The call inserts a valid entity, or is a `remove`. -/
def PoolOp.validEntity {T : Type} (_ : SparseSet T) : PoolOp T → Bool
  | .insert _ ent => ent.isValid
  | .remove _ => true

/-- The call inserts a valid entity whose index no other member of the pool
has, or is a `remove`. -/
def PoolOp.disciplined {T : Type} (s : SparseSet T) : PoolOp T → Bool
  | .insert _ ent => ent.isValid && !s.index_taken ent
  | .remove _ => true

/-- Every call of the sequence `ops`, made from the pool state `s`, passes the
check `G` in the state in which it is made. -/
def alongPool {T : Type} (G : SparseSet T → PoolOp T → Bool) :
    SparseSet T → List (PoolOp T) → Bool
  | _, [] => true
  | s, op :: ops =>
    G s op &&
      match op.apply s with
      | some s' => alongPool G s' ops
      | none => true

/-- Every dense slot that is not on the free list holds a valid entity. -/
def ValidDense {T : Type} (s : SparseSet T) (chain : List Nat) : Prop :=
  ∀ (d : Nat) (e : Entity), s.denseEntities_[d]? = some e → d ∉ chain → e.isValid = true

/-- A pool run that inserts a second version of index 0 while the first is a
member. -/
def orphanOps : List (PoolOp Nat) := [.insert 1 ⟨0, 0⟩, .insert 2 ⟨0, 1⟩]

/-- The pool `orphanOps` produces. -/
def orphanPool : SparseSet Nat := (runPool orphanOps).getD SparseSet.new

/-! ## `SingleView::each`, runs of `push_back` -/

/-- The method `get_components`. -/
def SparseSet.get_components {T : Type} (s : SparseSet T) : PagedVector T := s.denseComponents_

/-- The method `SingleView<C>::each(lambda)` of the view of the component with
family index `index`: the registry after the call and the components
`lambda` is called with, one per call, in the order of the calls. The loop
runs `i` from `0` to `ents.size()` and calls `lambda(comps[i])` when
`ents[i].isValid()`. -/
def SingleView.each {V : Type} (r : Registry V) (index : Nat) : Option (Registry V × List V) :=
  let r1 := r.get_pool index
  match r1.get_pool_at index with
  | none => none
  | some p =>
    let comps := p.get_components
    let ents := p.get_entities
    match ((List.range ents.length).filter fun i => SingleView.validAt ents i).mapM
        (fun i => comps.get PAGE_SIZE i) with
    | none => none
    | some args => some (r1, args)

/-- What `each` is said to do: make the view, walk it with its iterator and
pass `get<Component>(e)` for every entity `e` the iterator yields. -/
def SingleView.each_by_iteration {V : Type} (r : Registry V) (index : Nat) :
    Option (Registry V × List V) :=
  match r.view_single index with
  | none => none
  | some (r1, ents) =>
    match SingleView.iterate ents with
    | none => none
    | some es =>
      match es.mapM (fun e => r1.get index e) with
      | none => none
      | some args => some (r1, args)

/-- A sequence of `push_back` calls, one per element of the list, in order. -/
def PagedVector.push_all {T : Type} (pageSize : Nat) :
    PagedVector T → List T → Option (PagedVector T)
  | pv, [] => some pv
  | pv, x :: xs =>
    match pv.push_back pageSize x with
    | none => none
    | some pv' => PagedVector.push_all pageSize pv' xs

/-- The number of pages a paged vector has allocated. -/
def PagedVector.pages {T : Type} (pv : PagedVector T) : Nat := pv.storage_.length

/-- A pool run that inserts two entities. -/
def pairPoolOps : List (PoolOp Nat) := [.insert 10 ⟨0, 0⟩, .insert 11 ⟨1, 0⟩]

/-- The pool `pairPoolOps` produces: two members, no hole. -/
def pairPool : SparseSet Nat := (runPool pairPoolOps).getD SparseSet.new

/-- The paged vector `pv`, with page size `P`, stores the sequence `data`:
its size is the length of `data`, and page `p` exists exactly when
`p * P` is below that length and then holds the elements `p * P`,
`p * P + 1`, ... of `data`, at most `P` of them. -/
def PagedVector.Stores {T : Type} (P : Nat) (pv : PagedVector T) (data : List T) : Prop :=
  pv.size_ = data.length ∧
    ∀ p : Nat, pv.storage_[p]? =
      if p * P < data.length then some (some ((data.drop (p * P)).take P)) else none

/-! ## Traces of registry calls with arbitrary handles -/

/-- One call on a registry, made with whatever handle the caller passes:
the registry after the call, `none` when the call does not return. -/
def Registry.call {V : Type} (r : Registry V) : Op V → Option (Registry V)
  | .create =>
    match r.create with
    | none => none
    | some (r', _) => some r'
  | .add index ent c =>
    match r.add index ent c with
    | none => none
    | some (r', _) => some r'
  | .remove_component index ent => r.remove_component index ent
  | .remove ent => r.remove ent

/-- A sequence of calls, with arbitrary handles, from the registry `r`. -/
def Registry.callsFrom {V : Type} : Registry V → List (Op V) → Option (Registry V)
  | r, [] => some r
  | r, op :: ops =>
    match r.call op with
    | none => none
    | some r' => Registry.callsFrom r' ops

/-- A sequence of calls, with arbitrary handles, on a fresh registry. -/
def Registry.calls {V : Type} (ops : List (Op V)) : Option (Registry V) :=
  Registry.callsFrom Registry.new ops

/-- The check `g` holds in the registry `r` and in every state the calls
`ops` lead through from it. -/
def Registry.alongCalls {V : Type} (g : Registry V → Bool) :
    Registry V → List (Op V) → Bool
  | r, [] => g r
  | r, op :: ops =>
    g r &&
      match r.call op with
      | none => true
      | some r' => Registry.alongCalls g r' ops

/-- Every pool of the registry satisfies the representation invariant of a
pool. -/
def PoolsOk {V : Type} (r : Registry V) : Prop :=
  ∀ (index : Nat) (p : SparseSet V), r.get_pool_at index = some p → PoolInv p

/-- The free-list head and the `index` field of every slot of the identity
table are the sentinel or a position inside the table. -/
def IdRange {V : Type} (r : Registry V) : Prop :=
  (r.destroyed_ = SIZE_MAX ∨ r.destroyed_ < r.entities_.length) ∧
    ∀ (i : Nat) (slot : Entity), r.entities_[i]? = some slot →
      slot.index = SIZE_MAX ∨ slot.index < r.entities_.length

/-- Scenario A followed by `remove(e1)` and an `add<0>` with the handle
`e1`, which is stale by then. -/
def staleAddOps : List (Op Nat) :=
  scenarioAOps ++ [.remove ⟨1, 0⟩, .add 0 ⟨1, 0⟩ 99]

/-- The registry `staleAddOps` leads to. -/
def staleAddReg : Registry Nat := (Registry.calls staleAddOps).getD Registry.new

/-- An entity is created and removed twice with the same handle. -/
def twiceRemovedOps : List (Op Nat) := [.create, .remove ⟨0, 0⟩, .remove ⟨0, 0⟩]

/-- The registry `twiceRemovedOps` leads to. -/
def twiceRemovedReg : Registry Nat := (Registry.calls twiceRemovedOps).getD Registry.new

/-- Component 0 is added with the stale handle `(0, 0)` between two adds with
the live handle `(0, 1)` of the same index; component 1 is added to three live
entities. -/
def dupOps : List (Op Nat) :=
  [.create, .add 0 ⟨0, 0⟩ 10, .remove ⟨0, 0⟩, .create, .add 0 ⟨0, 1⟩ 11, .add 0 ⟨0, 0⟩ 12,
    .add 0 ⟨0, 1⟩ 13, .create, .create, .add 1 ⟨0, 1⟩ 21, .add 1 ⟨1, 0⟩ 22, .add 1 ⟨2, 0⟩ 23]

/-- The registry `dupOps` leads to. -/
def dupReg : Registry Nat := (Registry.calls dupOps).getD Registry.new

/-- A pool run that inserts an entity whose version is the sentinel. -/
def invalidMemberOps : List (PoolOp Nat) := [.insert 1 ⟨5, SIZE_MAX⟩]

/-- The pool `invalidMemberOps` produces. -/
def invalidMemberPool : SparseSet Nat := (runPool invalidMemberOps).getD SparseSet.new

/-! ## Theorems: `SingleView` iteration -/

namespace SingleView

theorem find_begin_loop_spec (ents : List Entity) :
    ∀ (fuel idx : Nat), idx ≤ ents.length → ents.length ≤ idx + fuel →
      idx ≤ find_begin_loop ents fuel idx ∧ find_begin_loop ents fuel idx ≤ ents.length ∧
      (∀ k, idx ≤ k → k < find_begin_loop ents fuel idx → validAt ents k = false) ∧
      (find_begin_loop ents fuel idx < ents.length →
        validAt ents (find_begin_loop ents fuel idx) = true) := by
  intro fuel
  induction fuel with
  | zero =>
    intro idx h1 h2
    simp only [find_begin_loop]
    refine ⟨by omega, by omega, ?_, by omega⟩
    intro k hk1 hk2; omega
  | succ fuel ih =>
    intro idx h1 h2
    unfold find_begin_loop
    by_cases hlt : idx < ents.length
    · rw [if_pos hlt]
      by_cases hv : validAt ents idx = true
      · rw [if_pos hv]
        refine ⟨by omega, by omega, ?_, fun _ => hv⟩
        intro k hk1 hk2; omega
      · rw [if_neg hv]
        obtain ⟨a, b, c, d⟩ := ih (idx + 1) (by omega) (by omega)
        refine ⟨by omega, b, ?_, d⟩
        intro k hk1 hk2
        by_cases hk : k = idx
        · subst hk; simpa using hv
        · exact c k (by omega) hk2
    · rw [if_neg hlt]
      refine ⟨by omega, by omega, ?_, by omega⟩
      intro k hk1 hk2; omega

theorem inc_loop_spec (ents : List Entity) :
    ∀ (fuel idx : Nat), idx < ents.length → ents.length ≤ idx + 1 + fuel →
      idx < inc_loop ents fuel idx ∧ inc_loop ents fuel idx ≤ ents.length ∧
      (∀ k, idx < k → k < inc_loop ents fuel idx → validAt ents k = false) ∧
      (inc_loop ents fuel idx < ents.length →
        validAt ents (inc_loop ents fuel idx) = true) := by
  intro fuel
  induction fuel with
  | zero =>
    intro idx h1 h2
    have : idx + 1 = ents.length := by omega
    simp only [inc_loop]
    refine ⟨by omega, by omega, ?_, by omega⟩
    intro k hk1 hk2; omega
  | succ fuel ih =>
    intro idx h1 h2
    unfold inc_loop
    by_cases hc : (decide (idx + 1 < ents.length) && !validAt ents (idx + 1)) = true
    · rw [if_pos hc]
      simp only [Bool.and_eq_true, decide_eq_true_eq, Bool.not_eq_true'] at hc
      obtain ⟨a, b, c, d⟩ := ih (idx + 1) hc.1 (by omega)
      refine ⟨by omega, b, ?_, d⟩
      intro k hk1 hk2
      by_cases hk : k = idx + 1
      · subst hk; exact hc.2
      · exact c k (by omega) hk2
    · rw [if_neg hc]
      simp only [Bool.and_eq_true, decide_eq_true_eq, Bool.not_eq_true', not_and,
        Bool.not_eq_false] at hc
      refine ⟨by omega, by omega, ?_, ?_⟩
      · intro k hk1 hk2; omega
      · intro h; exact hc h

theorem filter_range'_skip (p : Nat → Bool) :
    ∀ (m a r : Nat), (∀ k, a ≤ k → k < a + m → p k = false) →
      (List.range' a (m + r)).filter p = (List.range' (a + m) r).filter p := by
  intro m
  induction m with
  | zero => intro a r _; simp
  | succ m ih =>
    intro a r h
    have h0 : p a = false := h a (by omega) (by omega)
    have : m + 1 + r = (m + r) + 1 := by omega
    rw [this, List.range'_succ, List.filter_cons_of_neg (by simp [h0])]
    rw [ih (a + 1) r (fun k hk1 hk2 => h k (by omega) (by omega))]
    congr 2; omega

theorem positions_from_spec (ents : List Entity) :
    ∀ (fuel idx : Nat), idx ≤ ents.length → ents.length - idx < fuel →
      (idx < ents.length → validAt ents idx = true) →
      positions_from ents fuel idx
        = (List.range' idx (ents.length - idx)).filter (validAt ents) := by
  intro fuel
  induction fuel with
  | zero => intro idx _ h; omega
  | succ fuel ih =>
    intro idx h1 h2 h3
    unfold positions_from
    by_cases he : idx = ents.length
    · simp [he]
    · have hlt : idx < ents.length := by omega
      rw [if_pos he]
      obtain ⟨a, b, c, d⟩ := inc_loop_spec ents ents.length idx hlt (by omega)
      rw [inc, ih (inc_loop ents ents.length idx) b (by omega) d]
      have e1 : ents.length - idx = (ents.length - idx - 1) + 1 := by omega
      rw [e1, List.range'_succ, List.filter_cons_of_pos (by simpa using h3 hlt)]
      congr 1
      have e2 : ents.length - idx - 1
          = (inc_loop ents ents.length idx - (idx + 1))
            + (ents.length - inc_loop ents ents.length idx) := by omega
      rw [e2, filter_range'_skip (validAt ents) _ (idx + 1) _
        (fun k hk1 hk2 => c k (by omega) (by omega))]
      congr 2; omega

theorem positions_eq (ents : List Entity) :
    positions ents = (List.range ents.length).filter (validAt ents) := by
  obtain ⟨_, b, c, d⟩ := find_begin_loop_spec ents ents.length 0 (by omega) (by omega)
  rw [positions, find_begin_idx, positions_from_spec ents _ _ b (by omega) d,
    List.range_eq_range']
  have e : ents.length = find_begin_loop ents ents.length 0
      + (ents.length - find_begin_loop ents ents.length 0) := by omega
  conv_rhs => rw [e]
  rw [filter_range'_skip (validAt ents) _ 0 _ (fun k hk1 hk2 => c k (by omega) (by omega))]
  simp

theorem mapM_getElem?_of_lt (ents : List Entity) :
    ∀ (l : List Nat), (∀ i ∈ l, i < ents.length) →
      l.mapM (fun idx => ents[idx]?) = some (l.map fun idx => ents.getD idx Entity.null) := by
  intro l
  induction l with
  | nil => intro _; rfl
  | cons a l ih =>
    intro h
    have ha : a < ents.length := h a (by simp)
    rw [List.mapM_cons, ih (fun i hi => h i (by simp [hi]))]
    simp [List.getD, List.getElem?_eq_getElem ha]

theorem filter_valid_eq (ents : List Entity) :
    ((List.range ents.length).filter (validAt ents)).map (fun idx => ents.getD idx Entity.null)
      = ents.filter Entity.isValid := by
  have h1 : ents = (List.range ents.length).map (fun idx => ents.getD idx Entity.null) := by
    apply List.ext_getElem
    · simp
    · intro i h1 h2
      simp [List.getD, List.getElem?_eq_getElem h1]
  conv_rhs => rw [h1]
  rw [List.filter_map]
  congr 1
  apply List.filter_congr
  intro i hi
  have hi' : i < ents.length := by simpa using hi
  simp [validAt, List.getD, List.getElem?_eq_getElem hi']

end SingleView

/-- C2: a range-for over `view<T>()` visits exactly the dense positions that
hold a valid entity, in ascending order and each once, and so yields exactly
the valid entries of the dense array in their order; holes are never
yielded, wherever they lie. -/
theorem C2_single_view_iteration (ents : List Entity) :
    SingleView.positions ents
        = (List.range ents.length).filter (fun i => SingleView.validAt ents i) ∧
      SingleView.iterate ents = some (ents.filter Entity.isValid) ∧
      (∀ e ∈ ents.filter Entity.isValid, e.isValid = true) ∧
      ((List.range ents.length).filter (fun i => SingleView.validAt ents i)).Pairwise
        (fun i j => i < j) := by
  refine ⟨SingleView.positions_eq ents, ?_, ?_, ?_⟩
  · rw [SingleView.iterate, SingleView.positions_eq,
      SingleView.mapM_getElem?_of_lt ents _ (by intro i hi; simpa using (List.mem_filter.mp hi).1),
      SingleView.filter_valid_eq]
  · intro e he; exact (List.mem_filter.mp he).2
  · exact List.Pairwise.filter _ (List.pairwise_lt_range _)

/-! ## Theorems: `PagedVector` -/

theorem getElem?_vresize {α : Type} (xs : List (Option α)) (n i : Nat) (h : xs.length ≤ n) :
    (vresize xs n)[i]? = if i < xs.length then xs[i]? else if i < n then some none else none := by
  unfold vresize
  rw [List.take_of_length_le h, List.getElem?_append]
  by_cases h1 : i < xs.length
  · simp [h1]
  · simp only [h1, if_false]
    by_cases h2 : i < n
    · rw [if_pos h2, List.getElem?_replicate]
      rw [if_pos (by omega)]
    · rw [if_neg h2, List.getElem?_replicate]
      rw [if_neg (by omega)]

theorem length_vresize {α : Type} (xs : List (Option α)) (n : Nat) (h : xs.length ≤ n) :
    (vresize xs n).length = n := by
  unfold vresize
  rw [List.take_of_length_le h]
  simp
  omega

namespace PagedVector

variable {T : Type}

theorem PVInv_new : PVInv (PagedVector.new : PagedVector T) := by
  refine ⟨?_, ?_⟩
  · intro p hp; simp [PagedVector.new] at hp
  · simp [PagedVector.new, PAGE_SIZE]

theorem get_some_of_lt (pv : PagedVector T) (h : PVInv pv) (n : Nat) (hn : n < pv.size_) :
    ∃ v, pv.get PAGE_SIZE n = some v := by
  obtain ⟨h1, h2⟩ := h
  simp only [PAGE_SIZE] at h1 h2 ⊢
  obtain ⟨page, hp, hl⟩ := h1 (n / 128) (by omega)
  have : n % 128 < page.length := by omega
  exact ⟨page[n % 128], by simp [PagedVector.get, hp, List.getElem?_eq_getElem this]⟩

theorem set_spec (pv : PagedVector T) (h : PVInv pv) (n : Nat) (hn : n < pv.size_) (v : T) :
    ∃ pv', pv.set PAGE_SIZE n v = some pv' ∧ PVInv pv' ∧ pv'.size_ = pv.size_ ∧
      pv'.get PAGE_SIZE n = some v ∧
      ∀ m, m ≠ n → pv'.get PAGE_SIZE m = pv.get PAGE_SIZE m := by
  obtain ⟨h1, h2⟩ := h
  simp only [PAGE_SIZE] at h1 h2 ⊢
  obtain ⟨page, hp, hl⟩ := h1 (n / 128) (by omega)
  have hlt : n % 128 < page.length := by omega
  have hpl : n / 128 < pv.storage_.length := by omega
  refine ⟨⟨pv.storage_.set (n / 128) (some (page.set (n % 128) v)), pv.size_⟩, ?_, ?_, rfl, ?_, ?_⟩
  · simp [PagedVector.set, hp, hlt]
  · refine ⟨?_, ?_⟩
    · intro p hp'
      simp only [List.length_set, PAGE_SIZE] at hp' ⊢
      by_cases hpe : n / 128 = p
      · subst hpe
        exact ⟨page.set (n % 128) v, by simp [hpl], by simpa using hl⟩
      · obtain ⟨pg, a, b⟩ := h1 p hp'
        exact ⟨pg, by rw [List.getElem?_set_ne hpe]; exact a, b⟩
    · simpa [PAGE_SIZE] using h2
  · simp [PagedVector.get, hpl, hlt]
  · intro m hm
    simp only [PagedVector.get]
    by_cases hpe : n / 128 = m / 128
    · have hne : n % 128 ≠ m % 128 := by omega
      rw [← hpe]
      simp [hpl, hp, List.getElem?_set_ne hne]
    · rw [List.getElem?_set_ne hpe]

theorem push_back_spec (pv : PagedVector T) (h : PVInv pv) (v : T) :
    ∃ pv', pv.push_back PAGE_SIZE v = some pv' ∧ PVInv pv' ∧ pv'.size_ = pv.size_ + 1 ∧
      pv'.get PAGE_SIZE pv.size_ = some v ∧
      ∀ m, m ≠ pv.size_ → pv'.get PAGE_SIZE m = pv.get PAGE_SIZE m := by
  obtain ⟨h1, h2⟩ := h
  simp only [PAGE_SIZE] at h1 h2 ⊢
  by_cases hfull : pv.size_ / 128 ≥ pv.storage_.length
  · -- a fresh page is allocated
    have hq : pv.storage_.length = pv.size_ / 128 := by omega
    have hr : pv.size_ % 128 = 0 := by omega
    have hst : (vresize pv.storage_ (pv.size_ / 128 + 1)).length = pv.size_ / 128 + 1 :=
      length_vresize _ _ (by omega)
    refine ⟨⟨((vresize pv.storage_ (pv.size_ / 128 + 1)).set (pv.size_ / 128) (some [])).set
      (pv.size_ / 128) (some ([] ++ [v])), pv.size_ + 1⟩, ?_, ?_, rfl, ?_, ?_⟩
    · simp [PagedVector.push_back, hfull, hst]
    · refine ⟨?_, ?_⟩
      · intro p hp'
        simp only [List.length_set, hst, PAGE_SIZE] at hp' ⊢
        by_cases hpe : pv.size_ / 128 = p
        · subst hpe
          refine ⟨[v], by simp [hst], ?_⟩
          simp; omega
        · obtain ⟨pg, a, b⟩ := h1 p (by omega)
          refine ⟨pg, ?_, by omega⟩
          rw [List.getElem?_set_ne hpe, List.getElem?_set_ne hpe,
            getElem?_vresize _ _ _ (by omega), if_pos (by omega)]
          exact a
      · simp only [List.length_set, hst, PAGE_SIZE]; omega
    · simp [PagedVector.get, hst, hr]
    · intro m hm
      simp only [PagedVector.get]
      by_cases hpe : pv.size_ / 128 = m / 128
      · have hlt : ¬ m / 128 < pv.storage_.length := by omega
        rw [← hpe]
        have hnone : pv.storage_[pv.size_ / 128]? = none := by
          rw [List.getElem?_eq_none]; omega
        have : m % 128 ≠ 0 := by omega
        simp [hst, hnone]
        omega
      · rw [List.getElem?_set_ne hpe, List.getElem?_set_ne hpe,
          getElem?_vresize _ _ _ (by omega)]
        by_cases hlt : m / 128 < pv.storage_.length
        · rw [if_pos hlt]
        · rw [if_neg hlt]
          have hnone : pv.storage_[m / 128]? = none := by
            rw [List.getElem?_eq_none]; omega
          rw [hnone]
          by_cases h3 : m / 128 < pv.size_ / 128 + 1 <;> simp [h3]
  · -- the last page has room
    have hpl : pv.size_ / 128 < pv.storage_.length := by omega
    obtain ⟨page, hp, hl⟩ := h1 (pv.size_ / 128) hpl
    have hlen : page.length = pv.size_ % 128 := by omega
    refine ⟨⟨pv.storage_.set (pv.size_ / 128) (some (page ++ [v])), pv.size_ + 1⟩,
      ?_, ?_, rfl, ?_, ?_⟩
    · simp [PagedVector.push_back, hfull, hp]
    · refine ⟨?_, ?_⟩
      · intro p hp'
        simp only [List.length_set, PAGE_SIZE] at hp' ⊢
        by_cases hpe : pv.size_ / 128 = p
        · subst hpe
          refine ⟨page ++ [v], by simp [hpl], ?_⟩
          simp; omega
        · obtain ⟨pg, a, b⟩ := h1 p hp'
          refine ⟨pg, by rw [List.getElem?_set_ne hpe]; exact a, by omega⟩
      · simp only [List.length_set, PAGE_SIZE]; omega
    · simp [PagedVector.get, hpl, hlen]
    · intro m hm
      simp only [PagedVector.get]
      by_cases hpe : pv.size_ / 128 = m / 128
      · have hne : m % 128 ≠ page.length := by omega
        rw [← hpe]
        simp only [hpl, List.getElem?_set_self, hp]
        rw [List.getElem?_append]
        by_cases hlt : m % 128 < page.length
        · simp [hlt]
        · have h4 : page.length ≤ m % 128 := by omega
          have h5 : 1 ≤ m % 128 - page.length := by omega
          simp [hlt, List.getElem?_eq_none h4, h5]
      · rw [List.getElem?_set_ne hpe]

end PagedVector

/-! ## Theorems: the sparse page array -/

namespace SparseSet

variable {T : Type}

/-- Every allocated sparse page is a `std::array` of `PAGE_SIZE` slots. -/
theorem pagesOk_vresize (n : Nat) :
    ∀ (p : Nat) (page : List Nat), (vresize ([] : List (Option (List Nat))) n)[p]? = some (some page) →
      page.length = PAGE_SIZE := by
  intro p page h
  rw [getElem?_vresize _ _ _ (by simp)] at h
  by_cases h1 : p < n <;> simp [h1] at h

theorem sparse_put_spec (sp : List (Option (List Nat)))
    (hok : ∀ (p : Nat) (page : List Nat), sp[p]? = some (some page) → page.length = PAGE_SIZE)
    (n v : Nat) (page : List Nat) (hp : sp[n / PAGE_SIZE]? = some (some page)) :
    ∃ sp', sparse_put sp n v = some sp' ∧
      (∀ (p : Nat) (page : List Nat), sp'[p]? = some (some page) → page.length = PAGE_SIZE) ∧
      sparse_read sp' n = some v ∧ sp'.length = sp.length ∧
      ∀ m, m ≠ n → sparse_read sp' m = sparse_read sp m := by
  have hl := hok _ _ hp
  simp only [PAGE_SIZE] at hok hp hl ⊢
  have hlt : n % 128 < page.length := by omega
  have hpl : n / 128 < sp.length := by
    by_contra hcon
    rw [List.getElem?_eq_none (by omega)] at hp
    exact absurd hp (by simp)
  refine ⟨sp.set (n / 128) (some (page.set (n % 128) v)), ?_, ?_, ?_, by simp, ?_⟩
  · simp [sparse_put, PAGE_SIZE, hp, hlt]
  · intro p pg hpg
    by_cases hpe : n / 128 = p
    · subst hpe
      rw [List.getElem?_set_self hpl] at hpg
      simp only [Option.some.injEq] at hpg
      subst hpg
      simpa using hl
    · rw [List.getElem?_set_ne hpe] at hpg
      exact hok p pg hpg
  · simp [sparse_read, PAGE_SIZE, hpl, hlt]
  · intro m hm
    simp only [sparse_read, PAGE_SIZE]
    by_cases hpe : n / 128 = m / 128
    · have hne : n % 128 ≠ m % 128 := by omega
      rw [← hpe]
      simp [hpl, hp, List.getElem?_set_ne hne]
    · rw [List.getElem?_set_ne hpe]

theorem ensure_page_spec (sp : List (Option (List Nat)))
    (hok : ∀ (p : Nat) (page : List Nat), sp[p]? = some (some page) → page.length = PAGE_SIZE)
    (pn : Nat) :
    (∀ (p : Nat) (page : List Nat), (ensure_page sp pn)[p]? = some (some page) →
        page.length = PAGE_SIZE) ∧
      (∃ page, (ensure_page sp pn)[pn]? = some (some page)) ∧
      ∀ m, sparse_read (ensure_page sp pn) m =
        match sparse_read sp m with
        | some d => some d
        | none => if m / PAGE_SIZE = pn then some SIZE_MAX else none := by
  -- the array after the optional `resize`
  have key : ∃ sp1 : List (Option (List Nat)),
      (if pn ≥ sp.length then vresize sp (pn + 1) else sp) = sp1 ∧ pn < sp1.length ∧
      (∀ i, sp1[i]? = if i < sp.length then sp[i]? else if i < sp1.length then some none else none) := by
    by_cases h : pn ≥ sp.length
    · refine ⟨vresize sp (pn + 1), by rw [if_pos h], ?_, ?_⟩
      · rw [length_vresize _ _ (by omega)]; omega
      · intro i
        rw [getElem?_vresize _ _ _ (by omega), length_vresize _ _ (by omega)]
    · refine ⟨sp, by rw [if_neg h], by omega, ?_⟩
      intro i
      by_cases hi : i < sp.length
      · rw [if_pos hi]
      · rw [if_neg hi, if_neg hi, List.getElem?_eq_none (by omega)]
  obtain ⟨sp1, hsp1, hlen, hget⟩ := key
  have hok1 : ∀ (p : Nat) (page : List Nat), sp1[p]? = some (some page) →
      page.length = PAGE_SIZE := by
    intro p page hp
    rw [hget] at hp
    by_cases h1 : p < sp.length
    · rw [if_pos h1] at hp; exact hok p page hp
    · rw [if_neg h1] at hp
      by_cases h2 : p < sp1.length <;> simp [h2] at hp
  have hread1 : ∀ m, sparse_read sp1 m = sparse_read sp m := by
    intro m
    simp only [sparse_read]
    rw [hget]
    by_cases h1 : m / PAGE_SIZE < sp.length
    · rw [if_pos h1]
    · rw [if_neg h1, List.getElem?_eq_none (by omega)]
      by_cases h2 : m / PAGE_SIZE < sp1.length <;> simp [h2]
  unfold ensure_page
  simp only [hsp1]
  cases hcase : sp1[pn]? with
  | none =>
    rw [List.getElem?_eq_none_iff] at hcase
    omega
  | some o =>
    cases o with
    | some page =>
      simp only
      refine ⟨hok1, ⟨page, hcase⟩, ?_⟩
      intro m
      rw [hread1]
      cases hr : sparse_read sp m with
      | some d => rfl
      | none =>
        simp only
        by_cases hm : m / PAGE_SIZE = pn
        · exfalso
          rw [← hread1] at hr
          simp only [sparse_read, hm, hcase] at hr
          have := hok1 _ _ hcase
          rw [List.getElem?_eq_none_iff] at hr
          have : m % PAGE_SIZE < PAGE_SIZE := Nat.mod_lt _ (by simp [PAGE_SIZE])
          omega
        · rw [if_neg hm]
    | none =>
      simp only
      refine ⟨?_, ⟨List.replicate PAGE_SIZE SIZE_MAX, by rw [List.getElem?_set_self hlen]⟩, ?_⟩
      · intro p pg hpg
        by_cases hpe : pn = p
        · subst hpe
          rw [List.getElem?_set_self hlen] at hpg
          simp only [Option.some.injEq] at hpg
          subst hpg
          simp
        · rw [List.getElem?_set_ne hpe] at hpg
          exact hok1 p pg hpg
      · intro m
        by_cases hm : m / PAGE_SIZE = pn
        · have hnone : sparse_read sp m = none := by
            rw [← hread1]; simp [sparse_read, hm, hcase]
          rw [hnone]
          simp only [hm, if_true]
          have : m % PAGE_SIZE < PAGE_SIZE := Nat.mod_lt _ (by simp [PAGE_SIZE])
          simp [sparse_read, hm, hlen, List.getElem?_replicate, this]
        · have : sparse_read (sp1.set pn (some (List.replicate PAGE_SIZE SIZE_MAX))) m
              = sparse_read sp1 m := by
            simp only [sparse_read]
            rw [List.getElem?_set_ne (fun h => hm h.symm)]
          rw [this, hread1]
          cases hr : sparse_read sp m with
          | some d => rfl
          | none => simp [hm]

theorem contains_iff (s : SparseSet T) (e : Entity) :
    s.contains e = true ↔
      ∃ d, s.sparse_at e.index = some d ∧ s.denseEntities_[d]? = some e := by
  unfold contains sparse_at sparse_read
  simp only
  by_cases h1 : e.index / PAGE_SIZE ≥ s.sparse_.length
  · rw [if_pos h1, List.getElem?_eq_none (by omega)]
    simp
  · rw [if_neg h1]
    cases hp : s.sparse_[e.index / PAGE_SIZE]? with
    | none => simp
    | some o =>
      cases o with
      | none => simp
      | some page =>
        simp only
        cases hi : page[e.index % PAGE_SIZE]? with
        | none => simp
        | some index =>
          simp only
          by_cases h2 : index ≥ s.denseEntities_.length
          · rw [if_pos h2]
            simp [List.getElem?_eq_none h2]
          · rw [if_neg h2]
            simp

theorem contains_false_iff (s : SparseSet T) (e : Entity) :
    s.contains e = false ↔
      ∀ d, s.sparse_at e.index = some d → s.denseEntities_[d]? ≠ some e := by
  rw [← Bool.not_eq_true, contains_iff]
  push_neg
  rfl

end SparseSet

/-! ## Theorems: the dense free list -/

theorem FreeChain_lt (dense : List Entity) :
    ∀ (l : List Nat) (h : Nat), FreeChain dense h l → ∀ d ∈ l, d < dense.length := by
  intro l
  induction l with
  | nil => intro h _ d hd; simp at hd
  | cons a l ih =>
    intro h hc d hd
    obtain ⟨_, _, e, he, _, hrest⟩ := hc
    rcases List.mem_cons.mp hd with rfl | hd'
    · by_contra hcon
      rw [List.getElem?_eq_none (by omega)] at he
      exact absurd he (by simp)
    · exact ih _ hrest d hd'

theorem FreeChain_set (dense : List Entity) (d0 : Nat) (x : Entity) :
    ∀ (l : List Nat) (h : Nat), FreeChain dense h l → d0 ∉ l →
      FreeChain (dense.set d0 x) h l := by
  intro l
  induction l with
  | nil => intro h hc _; exact hc
  | cons a l ih =>
    intro h hc hd
    obtain ⟨h1, h2, e, he, hv, hrest⟩ := hc
    have hne : d0 ≠ a := fun hcon => hd (by simp [hcon])
    refine ⟨h1, h2, e, ?_, hv, ih _ hrest (fun hcon => hd (List.mem_cons_of_mem _ hcon))⟩
    rw [List.getElem?_set_ne hne]; exact he

theorem FreeChain_append (dense : List Entity) (x : Entity) :
    ∀ (l : List Nat) (h : Nat), FreeChain dense h l → FreeChain (dense ++ [x]) h l := by
  intro l
  induction l with
  | nil => intro h hc; exact hc
  | cons a l ih =>
    intro h hc
    obtain ⟨h1, h2, e, he, hv, hrest⟩ := hc
    refine ⟨h1, h2, e, ?_, hv, ih _ hrest⟩
    have hlt : a < dense.length := by
      by_contra hcon
      rw [List.getElem?_eq_none (by omega)] at he
      exact absurd he (by simp)
    rw [List.getElem?_append_left hlt]; exact he

theorem FreeChain_unique (dense : List Entity) :
    ∀ (l1 l2 : List Nat) (h : Nat), FreeChain dense h l1 → FreeChain dense h l2 → l1 = l2 := by
  intro l1
  induction l1 with
  | nil =>
    intro l2 h h1 h2
    cases l2 with
    | nil => rfl
    | cons b l2 =>
      obtain ⟨hb, hb', _⟩ := h2
      exact absurd (hb.symm.trans h1) hb'
  | cons a l1 ih =>
    intro l2 h h1 h2
    obtain ⟨ha, ha', e, he, _, hrest⟩ := h1
    cases l2 with
    | nil => exact absurd (ha.symm.trans h2) ha'
    | cons b l2 =>
      obtain ⟨hb, _, e', he', _, hrest'⟩ := h2
      have hab : a = b := ha.symm.trans hb
      subst hab
      rw [he] at he'
      simp only [Option.some.injEq] at he'
      subst he'
      rw [ih l2 _ hrest hrest']

theorem nodup_length_lt (l : List Nat) (n d0 : Nat) (hnd : l.Nodup)
    (hlt : ∀ d ∈ l, d < n) (h0 : d0 < n) (hni : d0 ∉ l) : l.length < n := by
  have hnd' : (d0 :: l).Nodup := List.nodup_cons.mpr ⟨hni, hnd⟩
  have hsub : (d0 :: l) ⊆ List.range n := by
    intro d hd
    rcases List.mem_cons.mp hd with rfl | hd'
    · simpa using h0
    · simpa using hlt d hd'
  have := (List.subperm_of_subset hnd' hsub).length_le
  simp at this
  omega

/-! ## Theorems: `SparseSet::insert` and `SparseSet::remove` -/

namespace SparseSet

variable {T : Type}

theorem PoolInvWith_new : PoolInvWith (SparseSet.new : SparseSet T) [] := by
  refine ⟨PagedVector.PVInv_new, rfl, pagesOk_vresize 8, by simp [SparseSet.new], rfl,
    List.nodup_nil, ?_, rfl⟩
  intro y d h
  exfalso
  simp only [sparse_at, sparse_read, SparseSet.new] at h
  rw [getElem?_vresize _ _ _ (by simp)] at h
  by_cases h1 : y / PAGE_SIZE < 8 <;> simp [h1] at h

/-- What `insert` does for an entity the pool does not contain. -/
theorem insert_fresh_spec (s : SparseSet T) (chain : List Nat) (hinv : PoolInvWith s chain)
    (v : T) (e : Entity) (hc : s.contains e = false) :
    ∃ s' chain' idx, s.insert v e = some (s', v) ∧
      (s'.denseEntities_.length ≤ SIZE_MAX →
        PoolInvWith s' chain' ∧ s'.entities_ = s.entities_ + 1) ∧
      s'.sparse_at e.index = some idx ∧ s'.denseEntities_[idx]? = some e ∧
      s'.denseComponents_.get PAGE_SIZE idx = some v ∧
      (∀ d, d ≠ idx → s'.denseEntities_[d]? = s.denseEntities_[d]?) ∧
      (∀ m, m ≠ idx → s'.denseComponents_.get PAGE_SIZE m = s.denseComponents_.get PAGE_SIZE m) ∧
      (∀ y, y ≠ e.index → s'.sparse_at y =
        match s.sparse_at y with
        | some d => some d
        | none => if y / PAGE_SIZE = e.index / PAGE_SIZE then some SIZE_MAX else none) ∧
      ((s.destroyed_ = SIZE_MAX ∧ chain = [] ∧ chain' = [] ∧ idx = s.denseEntities_.length ∧
          s'.denseEntities_ = s.denseEntities_ ++ [e]) ∨
        (s.destroyed_ ≠ SIZE_MAX ∧ idx = s.destroyed_ ∧ chain = idx :: chain' ∧
          s'.denseEntities_ = s.denseEntities_.set idx e)) := by
  obtain ⟨hpv, hsz, hpages, hlen, hchain, hnd, htarget, hcount⟩ := hinv
  obtain ⟨hok', ⟨page, hpg⟩, hread⟩ := ensure_page_spec s.sparse_ hpages (e.index / PAGE_SIZE)
  by_cases hd : s.destroyed_ = SIZE_MAX
  · -- append a dense slot
    have hch : chain = [] := by
      cases chain with
      | nil => rfl
      | cons a l =>
        obtain ⟨h1, h2, _⟩ := hchain
        exact absurd (h1.symm.trans hd) h2
    subst hch
    obtain ⟨dc, hpush, hdcinv, hdcsz, hdcget, hdcframe⟩ :=
      PagedVector.push_back_spec s.denseComponents_ hpv v
    obtain ⟨sp', hput, hok'', hrd, _, hrdframe⟩ :=
      sparse_put_spec _ hok' e.index s.denseComponents_.size_ page hpg
    refine ⟨{ destroyed_ := s.destroyed_, entities_ := (s.entities_ + 1) % 2 ^ 64,
              denseComponents_ := dc, denseEntities_ := s.denseEntities_ ++ [e], sparse_ := sp' },
      [], s.denseEntities_.length, ?_, ?_, ?_, ?_, ?_, ?_, ?_, ?_, ?_⟩
    · unfold insert
      simp only [hc, Bool.false_eq_true, if_false, hd, if_true, hpush, PagedVector.size, hput,
        hdcget]
    · intro hle
      have hroom' : s.denseEntities_.length < SIZE_MAX := by
        simp only [List.length_append, List.length_singleton] at hle; omega
      refine ⟨⟨hdcinv, ?_, hok'', ?_, hd, List.nodup_nil, ?_, ?_⟩, ?_⟩
      · simp [hdcsz, hsz]
      · simp only [List.length_append, List.length_singleton]; omega
      · intro y d hyd
        simp only [sparse_at] at hyd
        by_cases hy : y = e.index
        · subst hy
          rw [hrd] at hyd
          simp only [Option.some.injEq] at hyd
          right
          refine ⟨by simp, e, ?_, rfl⟩
          rw [← hyd, hsz]; simp
        · rw [hrdframe y hy, hread] at hyd
          cases hold : sparse_read s.sparse_ y with
          | none =>
            rw [hold] at hyd
            by_cases h3 : y / PAGE_SIZE = e.index / PAGE_SIZE
            · simp [h3] at hyd; left; exact hyd.symm
            · simp [h3] at hyd
          | some d0 =>
            rw [hold] at hyd
            simp only [Option.some.injEq] at hyd
            subst hyd
            rcases htarget y d0 hold with h | ⟨_, e', he', hi⟩
            · left; exact h
            · right
              refine ⟨by simp, e', ?_, hi⟩
              have hlt : d0 < s.denseEntities_.length := by
                by_contra hcon
                rw [List.getElem?_eq_none (by omega)] at he'
                exact absurd he' (by simp)
              rw [List.getElem?_append_left hlt]; exact he'
      · simp only [List.length_nil, List.length_append, List.length_singleton] at hcount ⊢
        simp only [SIZE_MAX] at hroom'
        omega
      · simp only [List.length_nil] at hcount
        simp only [SIZE_MAX] at hroom'
        simp only
        omega
    · simp only [sparse_at]; rw [hrd, hsz]
    · simp
    · simp only; rw [← hsz]; exact hdcget
    · intro d hdne
      simp only
      by_cases hlt : d < s.denseEntities_.length
      · rw [List.getElem?_append_left hlt]
      · rw [List.getElem?_eq_none (by simp; omega), List.getElem?_eq_none (by omega)]
    · intro m hm
      exact hdcframe m (by omega)
    · intro y hy
      simp only [sparse_at]
      rw [hrdframe y hy, hread]
    · left; exact ⟨hd, rfl, rfl, rfl, rfl⟩
  · -- reuse the head of the free list
    cases chain with
    | nil => exact absurd hchain hd
    | cons d0 rest =>
      obtain ⟨h1, h2, hole, hhole, hver, hrest⟩ := hchain
      subst h1
      have hd0 : s.destroyed_ < s.denseEntities_.length := by
        by_contra hcon
        rw [List.getElem?_eq_none (by omega)] at hhole
        exact absurd hhole (by simp)
      obtain ⟨dc, hset, hdcinv, hdcsz, hdcget, hdcframe⟩ :=
        PagedVector.set_spec s.denseComponents_ hpv s.destroyed_ (by omega) v
      obtain ⟨sp', hput, hok'', hrd, _, hrdframe⟩ :=
        sparse_put_spec _ hok' e.index s.destroyed_ page hpg
      have hnd' := List.nodup_cons.mp hnd
      refine ⟨{ destroyed_ := hole.index, entities_ := (s.entities_ + 1) % 2 ^ 64,
                denseComponents_ := dc, denseEntities_ := s.denseEntities_.set s.destroyed_ e,
                sparse_ := sp' },
        rest, s.destroyed_, ?_, ?_, ?_, ?_, ?_, ?_, ?_, ?_, ?_⟩
      · unfold insert
        simp only [hc, Bool.false_eq_true, if_false, hd, hhole, hset, hput, hdcget]
      · intro _
        refine ⟨⟨hdcinv, ?_, hok'', ?_, ?_, hnd'.2, ?_, ?_⟩, ?_⟩
        · simp [hdcsz, hsz]
        · simpa using hlen
        · exact FreeChain_set _ _ _ _ _ hrest hnd'.1
        · intro y d hyd
          simp only [sparse_at] at hyd
          by_cases hy : y = e.index
          · subst hy
            rw [hrd] at hyd
            simp only [Option.some.injEq] at hyd
            right
            subst hyd
            refine ⟨hnd'.1, e, ?_, rfl⟩
            simp only
            rw [List.getElem?_set_self (by omega)]
          · rw [hrdframe y hy, hread] at hyd
            cases hold : sparse_read s.sparse_ y with
            | none =>
              rw [hold] at hyd
              by_cases h3 : y / PAGE_SIZE = e.index / PAGE_SIZE
              · simp [h3] at hyd; left; exact hyd.symm
              · simp [h3] at hyd
            | some d1 =>
              rw [hold] at hyd
              simp only [Option.some.injEq] at hyd
              subst hyd
              rcases htarget y d1 hold with h | ⟨hni, e', he', hi⟩
              · left; exact h
              · right
                have hne : s.destroyed_ ≠ d1 := by
                  intro hcon; apply hni; rw [← hcon]; simp
                refine ⟨fun hcon => hni (List.mem_cons_of_mem _ hcon), e', ?_, hi⟩
                simp only
                rw [List.getElem?_set_ne hne]; exact he'
        · simp only [List.length_cons, List.length_set] at hcount ⊢
          simp only [SIZE_MAX] at hlen
          omega
        · simp only [List.length_cons] at hcount
          simp only [SIZE_MAX] at hlen
          simp only
          omega
      · simp only [sparse_at]; exact hrd
      · simp only; rw [List.getElem?_set_self (by omega)]
      · exact hdcget
      · intro d hdne
        simp only
        rw [List.getElem?_set_ne (fun h => hdne h.symm)]
      · intro m hm
        exact hdcframe m hm
      · intro y hy
        simp only [sparse_at]
        rw [hrdframe y hy, hread]
      · right; exact ⟨hd, rfl, rfl, rfl⟩

/-- What `insert` does for an entity the pool contains. -/
theorem insert_contained_spec (s : SparseSet T) (chain : List Nat) (hinv : PoolInvWith s chain)
    (v : T) (e : Entity) (hc : s.contains e = true) :
    ∃ x, s.insert v e = some (s, x) ∧ s.get e = some x ∧ s.try_get e = some x := by
  obtain ⟨hpv, hsz, _⟩ := hinv
  obtain ⟨d, hd, he⟩ := (contains_iff s e).mp hc
  have hlt : d < s.denseEntities_.length := by
    by_contra hcon
    rw [List.getElem?_eq_none (by omega)] at he
    exact absurd he (by simp)
  obtain ⟨x, hx⟩ := PagedVector.get_some_of_lt s.denseComponents_ hpv d (by omega)
  refine ⟨x, ?_, ?_, ?_⟩
  · unfold insert
    simp only [hc, if_true, hd, hx]
  · simp only [get, hd, hx]
  · simp only [try_get, hc, if_true, get, hd, hx]

/-- What `remove` does for an entity the pool contains. -/
theorem remove_contained_spec (s : SparseSet T) (chain : List Nat) (hinv : PoolInvWith s chain)
    (e : Entity) (hc : s.contains e = true) :
    ∃ s' d, s.remove e = some s' ∧ PoolInvWith s' (d :: chain) ∧
      s.sparse_at e.index = some d ∧ s.denseEntities_[d]? = some e ∧
      s'.contains e = false ∧ s'.entities_ + 1 = s.entities_ ∧
      s'.denseEntities_ = s.denseEntities_.set d ⟨s.destroyed_, Entity.max⟩ ∧
      s'.denseComponents_ = s.denseComponents_ ∧ s'.destroyed_ = d ∧
      s'.sparse_at e.index = some SIZE_MAX ∧
      ∀ y, y ≠ e.index → s'.sparse_at y = s.sparse_at y := by
  obtain ⟨hpv, hsz, hpages, hlen, hchain, hnd, htarget, hcount⟩ := hinv
  obtain ⟨d, hd, he⟩ := (contains_iff s e).mp hc
  have hlt : d < s.denseEntities_.length := by
    by_contra hcon
    rw [List.getElem?_eq_none (by omega)] at he
    exact absurd he (by simp)
  have hdmax : d ≠ SIZE_MAX := by omega
  have hni : d ∉ chain := by
    rcases htarget _ _ hd with h | ⟨h, _⟩
    · exact absurd h hdmax
    · exact h
  -- the sparse page of `e` exists
  have hpage : ∃ page, s.sparse_[e.index / PAGE_SIZE]? = some (some page) := by
    simp only [sparse_at, sparse_read] at hd
    cases hp : s.sparse_[e.index / PAGE_SIZE]? with
    | none => rw [hp] at hd; simp at hd
    | some o =>
      cases o with
      | none => rw [hp] at hd; simp at hd
      | some page => exact ⟨page, rfl⟩
  obtain ⟨page, hpg⟩ := hpage
  obtain ⟨sp', hput, hok', hrd, _, hrdframe⟩ :=
    sparse_put_spec s.sparse_ hpages e.index SIZE_MAX page hpg
  have hclen : chain.length < s.denseEntities_.length :=
    nodup_length_lt chain _ d hnd (FreeChain_lt _ _ _ hchain) hlt hni
  refine ⟨{ destroyed_ := d, entities_ := (s.entities_ + (2 ^ 64 - 1)) % 2 ^ 64,
            denseComponents_ := s.denseComponents_,
            denseEntities_ := s.denseEntities_.set d ⟨s.destroyed_, Entity.max⟩,
            sparse_ := sp' }, d, ?_, ?_, hd, he, ?_, ?_, rfl, rfl, rfl, ?_, ?_⟩
  · unfold remove
    simp only [hc, Bool.not_true, Bool.false_eq_true, if_false, hd, hlt, if_true, hput]
  · refine ⟨hpv, ?_, hok', ?_, ?_, List.nodup_cons.mpr ⟨hni, hnd⟩, ?_, ?_⟩
    · simpa using hsz
    · simpa using hlen
    · refine ⟨rfl, hdmax, ⟨s.destroyed_, Entity.max⟩, ?_, rfl, ?_⟩
      · simp only; rw [List.getElem?_set_self hlt]
      · exact FreeChain_set _ _ _ _ _ hchain hni
    · intro y d1 hyd
      simp only [sparse_at] at hyd
      by_cases hy : y = e.index
      · subst hy
        rw [hrd] at hyd
        simp only [Option.some.injEq] at hyd
        left; exact hyd.symm
      · rw [hrdframe y hy] at hyd
        rcases htarget y d1 hyd with h | ⟨hni1, e', he', hi⟩
        · left; exact h
        · right
          have hne : d ≠ d1 := by
            intro hcon
            subst hcon
            rw [he] at he'
            simp only [Option.some.injEq] at he'
            subst he'
            exact hy hi.symm
          refine ⟨?_, e', ?_, hi⟩
          · intro hcon
            rcases List.mem_cons.mp hcon with h | h
            · exact hne h.symm
            · exact hni1 h
          · simp only
            rw [List.getElem?_set_ne hne]; exact he'
    · simp only [List.length_cons, List.length_set]
      simp only [SIZE_MAX] at hlen
      omega
  · rw [contains_false_iff]
    intro d1 hd1
    simp only [sparse_at] at hd1
    rw [hrd] at hd1
    simp only [Option.some.injEq] at hd1
    subst hd1
    simp only
    rw [List.getElem?_eq_none (by simpa using hlen)]
    simp
  · simp only [SIZE_MAX] at hlen
    simp only
    omega
  · simp only [sparse_at]; exact hrd
  · intro y hy
    simp only [sparse_at]
    exact hrdframe y hy

/-- The method `insert` does not shorten the dense array, in any pool state. -/
theorem insert_length_le (s : SparseSet T) (v : T) (e : Entity) (r : SparseSet T × T)
    (hi : s.insert v e = some r) : s.denseEntities_.length ≤ r.1.denseEntities_.length := by
  unfold insert at hi
  by_cases hc : s.contains e = true
  · rw [if_pos hc] at hi
    cases h1 : s.sparse_at e.index with
    | none => rw [h1] at hi; simp at hi
    | some i =>
      rw [h1] at hi
      try simp only at hi
      cases h2 : s.denseComponents_.get PAGE_SIZE i with
      | none => rw [h2] at hi; simp at hi
      | some x =>
        rw [h2] at hi
        try simp only at hi
        simp only [Option.some.injEq] at hi
        subst hi
        exact Nat.le_refl _
  · rw [if_neg hc] at hi
    simp only at hi
    by_cases hd : s.destroyed_ = SIZE_MAX
    · rw [if_pos hd] at hi
      cases h1 : s.denseComponents_.push_back PAGE_SIZE v with
      | none => rw [h1] at hi; simp at hi
      | some dc =>
        rw [h1] at hi
        try simp only at hi
        cases h2 : sparse_put (ensure_page s.sparse_ (e.index / PAGE_SIZE)) e.index
            s.denseComponents_.size with
        | none => rw [h2] at hi; simp at hi
        | some sp' =>
          rw [h2] at hi
          try simp only at hi
          cases h3 : dc.get PAGE_SIZE s.denseComponents_.size with
          | none => rw [h3] at hi; simp at hi
          | some x =>
            rw [h3] at hi
            try simp only at hi
            simp only [Option.some.injEq] at hi
            subst hi
            simp
    · rw [if_neg hd] at hi
      cases h0 : s.denseEntities_[s.destroyed_]? with
      | none => rw [h0] at hi; simp at hi
      | some hole =>
        rw [h0] at hi
        try simp only at hi
        cases h1 : s.denseComponents_.set PAGE_SIZE s.destroyed_ v with
        | none => rw [h1] at hi; simp at hi
        | some dc =>
          rw [h1] at hi
          try simp only at hi
          cases h2 : sparse_put (ensure_page s.sparse_ (e.index / PAGE_SIZE)) e.index
              s.destroyed_ with
          | none => rw [h2] at hi; simp at hi
          | some sp' =>
            rw [h2] at hi
            try simp only at hi
            cases h3 : dc.get PAGE_SIZE s.destroyed_ with
            | none => rw [h3] at hi; simp at hi
            | some x =>
              rw [h3] at hi
              try simp only at hi
              simp only [Option.some.injEq] at hi
              subst hi
              simp

/-- The method `remove` does not shorten the dense array, in any pool state. -/
theorem remove_length_le (s s' : SparseSet T) (e : Entity)
    (h : s.remove e = some s') : s.denseEntities_.length ≤ s'.denseEntities_.length := by
  unfold remove at h
  by_cases hc : s.contains e = true
  · simp only [hc, Bool.not_true, Bool.false_eq_true, if_false] at h
    cases h1 : s.sparse_at e.index with
    | none => rw [h1] at h; simp at h
    | some d =>
      rw [h1] at h
      simp only at h
      by_cases hlt : d < s.denseEntities_.length
      · rw [if_pos hlt] at h
        cases h2 : sparse_put s.sparse_ e.index SIZE_MAX with
        | none => rw [h2] at h; simp at h
        | some sp' =>
          rw [h2] at h
          simp only [Option.some.injEq] at h
          subst h
          simp
      · rw [if_neg hlt] at h; simp at h
  · simp only [hc, Bool.not_false, if_true, Option.some.injEq] at h
    subst h
    exact Nat.le_refl _

/-- A pool call does not shorten the dense array, in any pool state. -/
theorem apply_length_le (s s' : SparseSet T) (op : PoolOp T) (h : op.apply s = some s') :
    s.denseEntities_.length ≤ s'.denseEntities_.length := by
  cases op with
  | insert v e =>
    simp only [PoolOp.apply] at h
    cases hi : s.insert v e with
    | none => rw [hi] at h; simp at h
    | some r =>
      rw [hi] at h
      simp only [Option.some.injEq] at h
      subst h
      exact insert_length_le s v e r hi
  | remove e => exact remove_length_le s s' e h

/-- A pool call keeps the representation invariant, as long as the dense
array stays representable. -/
theorem apply_inv (s s' : SparseSet T) (hinv : PoolInv s)
    (op : PoolOp T) (h : op.apply s = some s') (hle : s'.denseEntities_.length ≤ SIZE_MAX) :
    PoolInv s' := by
  obtain ⟨chain, hinv⟩ := hinv
  cases op with
  | insert v e =>
    simp only [PoolOp.apply] at h
    by_cases hc : s.contains e = true
    · obtain ⟨x, hx, _⟩ := insert_contained_spec s chain hinv v e hc
      rw [hx] at h
      simp only [Option.some.injEq] at h
      subst h
      exact ⟨chain, hinv⟩
    · obtain ⟨s1, chain', idx, hx, hi, _⟩ :=
        insert_fresh_spec s chain hinv v e (by simpa using hc)
      rw [hx] at h
      simp only [Option.some.injEq] at h
      subst h
      exact ⟨chain', (hi hle).1⟩
  | remove e =>
    simp only [PoolOp.apply] at h
    by_cases hc : s.contains e = true
    · obtain ⟨s1, d, hx, hi, _⟩ := remove_contained_spec s chain hinv e hc
      rw [hx] at h
      simp only [Option.some.injEq] at h
      subst h
      exact ⟨_, hi⟩
    · unfold remove at h
      simp only [hc, Bool.not_false, if_true, Option.some.injEq] at h
      subst h
      exact ⟨chain, hinv⟩

/-- Every pool state a sequence of calls produces satisfies the invariant,
provided its dense array is representable. -/
theorem runPoolFrom_inv (ops : List (PoolOp T)) :
    ∀ (s s' : SparseSet T), (s.denseEntities_.length ≤ SIZE_MAX → PoolInv s) →
      runPoolFrom s ops = some s' → s'.denseEntities_.length ≤ SIZE_MAX → PoolInv s' := by
  induction ops with
  | nil =>
    intro s s' hs h hle
    simp only [runPoolFrom, Option.some.injEq] at h
    subst h
    exact hs hle
  | cons op ops ih =>
    intro s s' hs h hle
    simp only [runPoolFrom] at h
    cases hop : op.apply s with
    | none => rw [hop] at h; simp at h
    | some s1 =>
      rw [hop] at h
      simp only at h
      refine ih s1 s' ?_ h hle
      intro hle1
      -- the dense array of `s` is no longer than that of `s1`
      have hmono := apply_length_le s s1 op hop
      exact apply_inv s s1 (hs (by omega)) op hop hle1

theorem runPool_inv (ops : List (PoolOp T)) (s : SparseSet T) (h : runPool ops = some s)
    (hle : s.denseEntities_.length ≤ SIZE_MAX) : PoolInv s :=
  runPoolFrom_inv ops _ s (fun _ => ⟨[], PoolInvWith_new⟩) h hle

/-- Membership after `insert` of an entity the pool did not contain. -/
theorem insert_fresh_contains (s : SparseSet T) (chain : List Nat) (hinv : PoolInvWith s chain)
    (v : T) (e : Entity) (hc : s.contains e = false) (s' : SparseSet T) (x : T)
    (hi : s.insert v e = some (s', x)) (hle : s'.denseEntities_.length ≤ SIZE_MAX)
    (e' : Entity) :
    s'.contains e' = true ↔ e' = e ∨ (e'.index ≠ e.index ∧ s.contains e' = true) := by
  obtain ⟨s1, chain', idx, hx, _, hsp, hde, _, hdframe, _, hspframe, hcase⟩ :=
    insert_fresh_spec s chain hinv v e hc
  rw [hx] at hi
  simp only [Option.some.injEq, Prod.mk.injEq] at hi
  obtain ⟨rfl, _⟩ := hi
  obtain ⟨_, _, _, hlen, hchain, _, htarget, _⟩ := hinv
  constructor
  · intro hc'
    obtain ⟨d, hd, he'⟩ := (contains_iff _ _).mp hc'
    have hdlt : d < s1.denseEntities_.length := by
      by_contra hcon
      rw [List.getElem?_eq_none (by omega)] at he'
      exact absurd he' (by simp)
    by_cases hy : e'.index = e.index
    · left
      rw [hy, hsp] at hd
      simp only [Option.some.injEq] at hd
      subst hd
      rw [hde] at he'
      simp only [Option.some.injEq] at he'
      exact he'.symm
    · right
      refine ⟨hy, ?_⟩
      have hdne : d ≠ idx := by
        intro hcon
        subst hcon
        rw [hde] at he'
        simp only [Option.some.injEq] at he'
        exact hy (by rw [he'])
      rw [hspframe _ hy] at hd
      cases hold : s.sparse_at e'.index with
      | none =>
        rw [hold] at hd
        by_cases h3 : e'.index / PAGE_SIZE = e.index / PAGE_SIZE
        · simp [h3] at hd; omega
        · simp [h3] at hd
      | some d0 =>
        rw [hold] at hd
        simp only [Option.some.injEq] at hd
        subst hd
        rw [contains_iff]
        exact ⟨d0, hold, by rw [← hdframe d0 hdne]; exact he'⟩
  · rintro (rfl | ⟨hy, hc'⟩)
    · rw [contains_iff]; exact ⟨idx, hsp, hde⟩
    · obtain ⟨d, hd, he'⟩ := (contains_iff _ _).mp hc'
      have hdlt : d < s.denseEntities_.length := by
        by_contra hcon
        rw [List.getElem?_eq_none (by omega)] at he'
        exact absurd he' (by simp)
      have hdne : d ≠ idx := by
        rcases hcase with ⟨_, _, _, hidx, _⟩ | ⟨hne, hidx, hch, _⟩
        · omega
        · intro hcon
          rcases htarget _ _ hd with h | ⟨hni, _⟩
          · omega
          · apply hni; rw [hch, hcon]; simp
      rw [contains_iff]
      refine ⟨d, ?_, by rw [hdframe d hdne]; exact he'⟩
      rw [hspframe _ hy, hd]

/-- The method `insert` keeps `Tight` when no member shares the index of the
inserted entity. -/
theorem insert_fresh_tight (s : SparseSet T) (chain : List Nat) (hinv : PoolInvWith s chain)
    (v : T) (e : Entity) (hc : s.contains e = false) (s' : SparseSet T) (x : T)
    (hi : s.insert v e = some (s', x)) (ht : Tight s)
    (hidx : ∀ e', s.contains e' = true → e'.index ≠ e.index) : Tight s' := by
  obtain ⟨s1, chain', idx, hx, _, hsp, hde, _, hdframe, _, hspframe, hcase⟩ :=
    insert_fresh_spec s chain hinv v e hc
  rw [hx] at hi
  simp only [Option.some.injEq, Prod.mk.injEq] at hi
  obtain ⟨rfl, _⟩ := hi
  intro d e2 he2 hv2
  by_cases hd : d = idx
  · subst hd
    rw [hde] at he2
    simp only [Option.some.injEq] at he2
    subst he2
    exact hsp
  · rw [hdframe d hd] at he2
    have h1 := ht d e2 he2 hv2
    have hc2 : s.contains e2 = true := (contains_iff _ _).mpr ⟨d, h1, he2⟩
    rw [hspframe _ (hidx e2 hc2), h1]

/-- Membership after `remove` of a member. -/
theorem remove_contained_contains (s : SparseSet T) (chain : List Nat)
    (hinv : PoolInvWith s chain) (e : Entity) (hc : s.contains e = true) (s' : SparseSet T)
    (hr : s.remove e = some s') (e' : Entity) :
    s'.contains e' = true ↔ e' ≠ e ∧ s.contains e' = true := by
  obtain ⟨s1, d, hx, hinv', hsd, hsde, hnc, _, hde, _, _, hsp, hspframe⟩ :=
    remove_contained_spec s chain hinv e hc
  rw [hx] at hr
  simp only [Option.some.injEq] at hr
  subst hr
  obtain ⟨_, _, _, hlen, hchain, _, htarget, _⟩ := hinv
  have hdlt : d < s.denseEntities_.length := by
    by_contra hcon
    rw [List.getElem?_eq_none (by omega)] at hsde
    exact absurd hsde (by simp)
  constructor
  · intro hc'
    have hne : e' ≠ e := by
      intro hcon; subst hcon; rw [hnc] at hc'; exact absurd hc' (by simp)
    refine ⟨hne, ?_⟩
    obtain ⟨d1, hd1, he'⟩ := (contains_iff _ _).mp hc'
    have hd1lt : d1 < s.denseEntities_.length := by
      by_contra hcon
      rw [List.getElem?_eq_none (by rw [hde]; simp; omega)] at he'
      exact absurd he' (by simp)
    have hy : e'.index ≠ e.index := by
      intro hcon
      rw [hcon, hsp] at hd1
      simp only [Option.some.injEq] at hd1
      omega
    rw [hspframe _ hy] at hd1
    have hdne : d ≠ d1 := by
      intro hcon
      subst hcon
      rcases htarget _ _ hd1 with h | ⟨_, e2, he2, hi2⟩
      · omega
      · rw [hsde] at he2
        simp only [Option.some.injEq] at he2
        subst he2
        exact hy hi2.symm
    rw [hde, List.getElem?_set_ne hdne] at he'
    exact (contains_iff _ _).mpr ⟨d1, hd1, he'⟩
  · rintro ⟨hne, hc'⟩
    obtain ⟨d1, hd1, he'⟩ := (contains_iff _ _).mp hc'
    have hy : e'.index ≠ e.index := by
      intro hcon
      rw [hcon, hsd] at hd1
      simp only [Option.some.injEq] at hd1
      subst hd1
      rw [hsde] at he'
      simp only [Option.some.injEq] at he'
      exact hne he'.symm
    have hdne : d ≠ d1 := by
      intro hcon
      subst hcon
      rw [hsde] at he'
      simp only [Option.some.injEq] at he'
      exact hne he'.symm
    rw [contains_iff]
    refine ⟨d1, by rw [hspframe _ hy]; exact hd1, ?_⟩
    rw [hde, List.getElem?_set_ne hdne]; exact he'

/-- The method `remove` keeps `Tight`. -/
theorem remove_contained_tight (s : SparseSet T) (chain : List Nat)
    (hinv : PoolInvWith s chain) (e : Entity) (hc : s.contains e = true) (s' : SparseSet T)
    (hr : s.remove e = some s') (ht : Tight s) : Tight s' := by
  obtain ⟨s1, d, hx, _, hsd, hsde, _, _, hde, _, _, _, hspframe⟩ :=
    remove_contained_spec s chain hinv e hc
  rw [hx] at hr
  simp only [Option.some.injEq] at hr
  subst hr
  have hdlt : d < s.denseEntities_.length := by
    by_contra hcon
    rw [List.getElem?_eq_none (by omega)] at hsde
    exact absurd hsde (by simp)
  intro d1 e2 he2 hv2
  rw [hde] at he2
  by_cases hd : d = d1
  · subst hd
    rw [List.getElem?_set_self hdlt] at he2
    simp only [Option.some.injEq] at he2
    subst he2
    simp [Entity.isValid] at hv2
  · rw [List.getElem?_set_ne hd] at he2
    have h1 := ht d1 e2 he2 hv2
    have hy : e2.index ≠ e.index := by
      intro hcon
      rw [hcon, hsd] at h1
      simp only [Option.some.injEq] at h1
      exact hd h1
    rw [hspframe _ hy]; exact h1

theorem remove_not_contained (s : SparseSet T) (e : Entity) (hc : s.contains e = false) :
    s.remove e = some s := by
  unfold remove
  simp [hc]

end SparseSet

/-! ## Theorems: the pool contract -/

/-- C7: in every pool state reached from a fresh pool whose dense array can
still grow, `insert(v, e)` of an entity the pool does not contain succeeds,
returns a reference to the value `v`, and afterwards `contains(e)` holds,
`get(e)` and `try_get(e)` yield `v`, and `entities_count()` has grown by
exactly one; the dense slot is appended when the free list is empty and is the
free-list head otherwise. -/
theorem C7_insert_adds_member {T : Type} (ops : List (PoolOp T)) (s : SparseSet T)
    (hreach : runPool ops = some s) (hroom : s.denseEntities_.length < SIZE_MAX)
    (v : T) (e : Entity) (hc : s.contains e = false) :
    ∃ s', s.insert v e = some (s', v) ∧ s'.contains e = true ∧ s'.get e = some v ∧
      s'.try_get e = some v ∧ s'.entities_count = s.entities_count + 1 ∧
      (s.destroyed_ = SIZE_MAX → s'.denseEntities_ = s.denseEntities_ ++ [e]) ∧
      (s.destroyed_ ≠ SIZE_MAX →
        s'.denseEntities_ = s.denseEntities_.set s.destroyed_ e) := by
  obtain ⟨chain, hinv⟩ := SparseSet.runPool_inv ops s hreach (by omega)
  obtain ⟨s', chain', idx, hx, hi, hsp, hde, hget, _, _, _, hcase⟩ :=
    SparseSet.insert_fresh_spec s chain hinv v e hc
  have hle : s'.denseEntities_.length ≤ SIZE_MAX := by
    rcases hcase with ⟨_, _, _, _, h⟩ | ⟨_, _, _, h⟩
    · rw [h]; simp; omega
    · rw [h]; simp; omega
  have hcont : s'.contains e = true := (SparseSet.contains_iff _ _).mpr ⟨idx, hsp, hde⟩
  refine ⟨s', hx, hcont, ?_, ?_, (hi hle).2, ?_, ?_⟩
  · simp only [SparseSet.get, hsp, hget]
  · simp only [SparseSet.try_get, hcont, if_true, SparseSet.get, hsp, hget]
  · intro hd
    rcases hcase with ⟨_, _, _, _, h⟩ | ⟨hne, _⟩
    · exact h
    · exact absurd hd hne
  · intro hd
    rcases hcase with ⟨h, _⟩ | ⟨_, hidx, _, h⟩
    · exact absurd h hd
    · rw [h, hidx]

/-- C8: in every pool state reached from a fresh pool whose dense array can
still grow, after `insert(v1, e)` a second `insert(v2, e)` returns the value
stored for `e` (the one the first call returned, which is `v1` when `e` was
new) and leaves the whole pool state unchanged. -/
theorem C8_insert_idempotent {T : Type} (ops : List (PoolOp T)) (s : SparseSet T)
    (hreach : runPool ops = some s) (hroom : s.denseEntities_.length < SIZE_MAX)
    (e : Entity) (v1 v2 : T) :
    ∃ s1 x, s.insert v1 e = some (s1, x) ∧ s1.insert v2 e = some (s1, x) ∧
      s1.get e = some x ∧ (s.contains e = false → x = v1) := by
  obtain ⟨chain, hinv⟩ := SparseSet.runPool_inv ops s hreach (by omega)
  by_cases hc : s.contains e = true
  · obtain ⟨x, hx, hg, _⟩ := SparseSet.insert_contained_spec s chain hinv v1 e hc
    obtain ⟨y, hy, hg', _⟩ := SparseSet.insert_contained_spec s chain hinv v2 e hc
    have hxy : x = y := by rw [hg] at hg'; exact Option.some.inj hg'
    subst hxy
    exact ⟨s, x, hx, hy, hg, fun h => by rw [hc] at h; exact absurd h (by simp)⟩
  · obtain ⟨s', chain', idx, hx, hi, hsp, hde, hget, _, _, _, hcase⟩ :=
      SparseSet.insert_fresh_spec s chain hinv v1 e (by simpa using hc)
    have hle : s'.denseEntities_.length ≤ SIZE_MAX := by
      rcases hcase with ⟨_, _, _, _, h⟩ | ⟨_, _, _, h⟩
      · rw [h]; simp; omega
      · rw [h]; simp; omega
    have hcont : s'.contains e = true := (SparseSet.contains_iff _ _).mpr ⟨idx, hsp, hde⟩
    obtain ⟨y, hy, hg', _⟩ := SparseSet.insert_contained_spec s' chain' (hi hle).1 v2 e hcont
    have hg : s'.get e = some v1 := by simp only [SparseSet.get, hsp, hget]
    have hxy : y = v1 := by rw [hg] at hg'; exact (Option.some.inj hg').symm
    subst hxy
    exact ⟨s', y, hx, hy, hg, fun _ => rfl⟩

/-- C9: in every pool state reached from a fresh pool with a representable
dense array, `remove(e)` of a contained entity succeeds, and afterwards
`contains(e)` is false, `try_get(e)` is null, and `entities_count()` is
exactly one less than before. -/
theorem C9_remove_drops_member {T : Type} (ops : List (PoolOp T)) (s : SparseSet T)
    (hreach : runPool ops = some s) (hle : s.denseEntities_.length ≤ SIZE_MAX)
    (e : Entity) (hc : s.contains e = true) :
    ∃ s', s.remove e = some s' ∧ s'.contains e = false ∧ s'.try_get e = none ∧
      s'.entities_count + 1 = s.entities_count := by
  obtain ⟨chain, hinv⟩ := SparseSet.runPool_inv ops s hreach hle
  obtain ⟨s', d, hx, _, _, _, hnc, hcnt, _⟩ := SparseSet.remove_contained_spec s chain hinv e hc
  exact ⟨s', hx, hnc, by simp [SparseSet.try_get, hnc], hcnt⟩

/-- C10: in every pool state, `remove(e)` of an entity the pool does not
contain returns with the pool state unchanged. -/
theorem C10_remove_non_member_noop {T : Type} (s : SparseSet T) (e : Entity)
    (hc : s.contains e = false) : s.remove e = some s :=
  SparseSet.remove_not_contained s e hc

set_option maxRecDepth 100000 in
/-- Witness of C7: the entity `(200, 3)` is inserted into `demoPool`; its
sparse page does not exist yet and the hole at dense slot 0 is reused. -/
theorem C7_insert_adds_member_witness :
    runPool demoPoolOps = some demoPool ∧ demoPool.contains ⟨200, 3⟩ = false ∧
      ∃ s', demoPool.insert 12 ⟨200, 3⟩ = some (s', 12) ∧ s'.contains ⟨200, 3⟩ = true ∧
        s'.get ⟨200, 3⟩ = some 12 ∧ s'.try_get ⟨200, 3⟩ = some 12 ∧
        s'.entities_count = demoPool.entities_count + 1 ∧
        (demoPool.destroyed_ = SIZE_MAX →
          s'.denseEntities_ = demoPool.denseEntities_ ++ [⟨200, 3⟩]) ∧
        (demoPool.destroyed_ ≠ SIZE_MAX →
          s'.denseEntities_ = demoPool.denseEntities_.set demoPool.destroyed_ ⟨200, 3⟩) :=
  ⟨by rfl, by decide,
    C7_insert_adds_member demoPoolOps demoPool (by rfl) (by decide) 12 ⟨200, 3⟩ (by decide)⟩

set_option maxRecDepth 100000 in
/-- Witness of C8: the entity `(1, 0)`, already in `demoPool` with value 11,
is inserted twice more. -/
theorem C8_insert_idempotent_witness :
    runPool demoPoolOps = some demoPool ∧
      ∃ s1 x, demoPool.insert 20 ⟨1, 0⟩ = some (s1, x) ∧ s1.insert 21 ⟨1, 0⟩ = some (s1, x) ∧
        s1.get ⟨1, 0⟩ = some x ∧ (demoPool.contains ⟨1, 0⟩ = false → x = 20) :=
  ⟨by rfl, C8_insert_idempotent demoPoolOps demoPool (by rfl) (by decide) ⟨1, 0⟩ 20 21⟩

set_option maxRecDepth 100000 in
/-- Witness of C9: the one member `(1, 0)` of `demoPool` is removed. -/
theorem C9_remove_drops_member_witness :
    runPool demoPoolOps = some demoPool ∧ demoPool.contains ⟨1, 0⟩ = true ∧
      ∃ s', demoPool.remove ⟨1, 0⟩ = some s' ∧ s'.contains ⟨1, 0⟩ = false ∧
        s'.try_get ⟨1, 0⟩ = none ∧ s'.entities_count + 1 = demoPool.entities_count :=
  ⟨by rfl, by decide,
    C9_remove_drops_member demoPoolOps demoPool (by rfl) (by decide) ⟨1, 0⟩ (by decide)⟩

set_option maxRecDepth 100000 in
/-- Witness of C10: the stale handle `(1, 5)`, whose index is occupied by
version 0, is removed from `demoPool`. -/
theorem C10_remove_non_member_noop_witness :
    demoPool.contains ⟨1, 5⟩ = false ∧ demoPool.remove ⟨1, 5⟩ = some demoPool :=
  ⟨by decide, C10_remove_non_member_noop demoPool ⟨1, 5⟩ (by decide)⟩

/-! ## Theorems: the identity table -/

theorem IdChain_lt (tbl : List Entity) :
    ∀ (l : List Nat) (h : Nat), IdChain tbl h l → ∀ d ∈ l, d < tbl.length := by
  intro l
  induction l with
  | nil => intro h _ d hd; simp at hd
  | cons a l ih =>
    intro h hc d hd
    obtain ⟨_, _, e, he, hrest⟩ := hc
    rcases List.mem_cons.mp hd with rfl | hd'
    · by_contra hcon
      rw [List.getElem?_eq_none (by omega)] at he
      exact absurd he (by simp)
    · exact ih _ hrest d hd'

theorem IdChain_set (tbl : List Entity) (d0 : Nat) (x : Entity) :
    ∀ (l : List Nat) (h : Nat), IdChain tbl h l → d0 ∉ l → IdChain (tbl.set d0 x) h l := by
  intro l
  induction l with
  | nil => intro h hc _; exact hc
  | cons a l ih =>
    intro h hc hd
    obtain ⟨h1, h2, e, he, hrest⟩ := hc
    have hne : d0 ≠ a := fun hcon => hd (by simp [hcon])
    refine ⟨h1, h2, e, ?_, ih _ hrest (fun hcon => hd (List.mem_cons_of_mem _ hcon))⟩
    rw [List.getElem?_set_ne hne]; exact he

namespace Registry

variable {V : Type}

theorem add_identity (r r' : Registry V) (i : Nat) (e : Entity) (c x : V)
    (h : r.add i e c = some (r', x)) :
    r'.entities_ = r.entities_ ∧ r'.destroyed_ = r.destroyed_ := by
  unfold add at h
  simp only at h
  cases h1 : (r.get_pool i).get_pool_at i with
  | none => rw [h1] at h; simp at h
  | some pool =>
    rw [h1] at h
    simp only at h
    cases h2 : pool.insert c e with
    | none => rw [h2] at h; simp at h
    | some res =>
      rw [h2] at h
      simp only [Option.some.injEq, Prod.mk.injEq] at h
      obtain ⟨rfl, _⟩ := h
      exact ⟨rfl, rfl⟩

theorem remove_component_identity (r r' : Registry V) (i : Nat) (e : Entity)
    (h : r.remove_component i e = some r') :
    r'.entities_ = r.entities_ ∧ r'.destroyed_ = r.destroyed_ := by
  unfold remove_component at h
  simp only at h
  cases h1 : (r.get_pool i).get_pool_at i with
  | none => rw [h1] at h; simp at h
  | some pool =>
    rw [h1] at h
    simp only at h
    cases h2 : pool.remove e with
    | none => rw [h2] at h; simp at h
    | some res =>
      rw [h2] at h
      simp only [Option.some.injEq] at h
      subst h
      exact ⟨rfl, rfl⟩

theorem remove_spec (r r' : Registry V) (e : Entity) (h : r.remove e = some r') :
    remove_from_pools e r.pools_ = some r'.pools_ ∧
      (e.index < r.entities_.length →
        ∃ slot, r.entities_[e.index]? = some slot ∧ r'.destroyed_ = e.index ∧
          r'.entities_ = r.entities_.set e.index ⟨r.destroyed_, (slot.version + 1) % 2 ^ 64⟩) ∧
      (¬ e.index < r.entities_.length →
        r'.destroyed_ = r.destroyed_ ∧ r'.entities_ = r.entities_) := by
  unfold remove at h
  cases h1 : remove_from_pools e r.pools_ with
  | none => rw [h1] at h; simp at h
  | some pools' =>
    rw [h1] at h
    simp only at h
    by_cases hlt : e.index < r.entities_.length
    · rw [if_pos hlt] at h
      cases h2 : r.entities_[e.index]? with
      | none => rw [h2] at h; simp at h
      | some slot =>
        rw [h2] at h
        simp only [Option.some.injEq] at h
        subst h
        exact ⟨rfl, fun _ => ⟨slot, rfl, rfl, rfl⟩, fun hc => absurd hlt hc⟩
    · rw [if_neg hlt] at h
      simp only [Option.some.injEq] at h
      subst h
      exact ⟨rfl, fun hc => absurd hc hlt, fun _ => ⟨rfl, rfl⟩⟩

theorem create_spec (r r' : Registry V) (e : Entity) (h : r.create = some (r', e)) :
    r'.pools_ = r.pools_ ∧
      ((r.destroyed_ = SIZE_MAX ∧ e = ⟨r.entities_.length, 0⟩ ∧
          r'.entities_ = r.entities_ ++ [e] ∧ r'.destroyed_ = r.destroyed_) ∨
        (r.destroyed_ ≠ SIZE_MAX ∧ ∃ slot, r.entities_[r.destroyed_]? = some slot ∧
          e = ⟨r.destroyed_, slot.version⟩ ∧ r'.entities_ = r.entities_.set r.destroyed_ e ∧
          r'.destroyed_ = slot.index)) := by
  unfold create at h
  by_cases hd : r.destroyed_ = SIZE_MAX
  · rw [if_pos hd] at h
    simp only [Option.some.injEq, Prod.mk.injEq] at h
    obtain ⟨rfl, rfl⟩ := h
    exact ⟨rfl, Or.inl ⟨hd, rfl, rfl, rfl⟩⟩
  · rw [if_neg hd] at h
    simp only at h
    cases h2 : r.entities_[r.destroyed_]? with
    | none => rw [h2] at h; simp at h
    | some slot =>
      rw [h2] at h
      simp only [Option.some.injEq, Prod.mk.injEq] at h
      obtain ⟨rfl, rfl⟩ := h
      exact ⟨rfl, Or.inr ⟨hd, slot, rfl, rfl, rfl, rfl⟩⟩

end Registry

namespace World

variable {V : Type}

theorem IdInvWith_new : IdInvWith (World.new : World V) [] := by
  refine ⟨by simp [World.new, Registry.new], rfl, List.nodup_nil, ?_, ?_, ?_⟩
  · intro i hi; simp at hi
  · intro e he; simp [World.new] at he
  · intro slot hs; simp [World.new, Registry.new] at hs

/-- Two live handles with the same index are the same handle. -/
theorem live_index_inj (w : World V) (fl : List Nat) (hinv : IdInvWith w fl)
    (e1 e2 : Entity) (h1 : e1 ∈ w.live) (h2 : e2 ∈ w.live) (hi : e1.index = e2.index) :
    e1 = e2 := by
  obtain ⟨_, _, _, _, hlive, _⟩ := hinv
  have a := hlive e1 h1
  have b := hlive e2 h2
  rw [hi, b] at a
  exact (Option.some.inj a).symm

theorem live_lt (w : World V) (fl : List Nat) (hinv : IdInvWith w fl)
    (e : Entity) (h : e ∈ w.live) : e.index < w.reg.entities_.length := by
  obtain ⟨_, _, _, _, hlive, _⟩ := hinv
  have a := hlive e h
  by_contra hcon
  rw [List.getElem?_eq_none (by omega)] at a
  exact absurd a (by simp)

/-- The identity table after `create`. -/
theorem create_idInv (w : World V) (fl : List Nat) (hinv : IdInvWith w fl)
    (r' : Registry V) (e : Entity) (h : w.reg.create = some (r', e))
    (hle : r'.entities_.length ≤ SIZE_MAX) :
    ∃ fl', IdInvWith { reg := r', live := e :: w.live, created := e :: w.created } fl' ∧
      e.index < r'.entities_.length ∧ (∀ e' ∈ w.live, e'.index ≠ e.index) ∧
      ((fl = [] ∧ e.index = w.reg.entities_.length) ∨ fl = e.index :: fl') := by
  obtain ⟨hlen, hchain, hnd, hfree, hlive, hver⟩ := hinv
  obtain ⟨_, hcase⟩ := Registry.create_spec _ _ _ h
  rcases hcase with ⟨hd, he, hent, hdes⟩ | ⟨hd, slot, hslot, he, hent, hdes⟩
  · -- a new slot
    have hfl : fl = [] := by
      cases fl with
      | nil => rfl
      | cons a l =>
        obtain ⟨h1, h2, _⟩ := hchain
        exact absurd (h1.symm.trans hd) h2
    subst hfl
    have hlt : ∀ e' ∈ w.live, e'.index < w.reg.entities_.length := by
      intro e' he'
      have a := hlive e' he'
      by_contra hcon
      rw [List.getElem?_eq_none (by omega)] at a
      exact absurd a (by simp)
    refine ⟨[], ⟨hle, ?_, List.nodup_nil, ?_, ?_, ?_⟩, ?_, ?_, Or.inl ⟨rfl, by rw [he]⟩⟩
    · show r'.destroyed_ = SIZE_MAX
      rw [hdes]; exact hd
    · intro i hi; simp at hi
    · intro e' he'
      simp only [List.mem_cons] at he'
      simp only [hent]
      rcases he' with rfl | he'
      · rw [he]; simp
      · rw [List.getElem?_append_left (hlt e' he')]; exact hlive e' he'
    · intro s hs
      simp only [hent, List.mem_append, List.mem_singleton] at hs
      rcases hs with hs | rfl
      · exact hver s hs
      · rw [he]; simp
    · rw [hent, he]; simp
    · intro e' he'
      have := hlt e' he'
      rw [he]; simp only; omega
  · -- a recycled slot
    cases fl with
    | nil => exact absurd hchain hd
    | cons d0 rest =>
      obtain ⟨h1, h2, slot', hslot', hrest⟩ := hchain
      subst h1
      rw [hslot] at hslot'
      simp only [Option.some.injEq] at hslot'
      subst hslot'
      have hnd' := List.nodup_cons.mp hnd
      have hd0 : w.reg.destroyed_ < w.reg.entities_.length := by
        by_contra hcon
        rw [List.getElem?_eq_none (by omega)] at hslot
        exact absurd hslot (by simp)
      have hei : e.index = w.reg.destroyed_ := by rw [he]
      have hfresh : ∀ e' ∈ w.live, e'.index ≠ e.index := by
        intro e' he'
        rw [hei]
        exact hfree _ (by simp) e' he'
      refine ⟨rest, ⟨hle, ?_, hnd'.2, ?_, ?_, ?_⟩, ?_, hfresh, Or.inr (by rw [hei])⟩
      · show IdChain r'.entities_ r'.destroyed_ rest
        rw [hent, hdes]
        exact IdChain_set _ _ _ _ _ hrest hnd'.1
      · intro i hi e' he'
        simp only [List.mem_cons] at he'
        rcases he' with rfl | he'
        · rw [hei]; intro hcon; apply hnd'.1; rw [hcon]; exact hi
        · exact hfree i (List.mem_cons_of_mem _ hi) e' he'
      · intro e' he'
        simp only [List.mem_cons] at he'
        simp only [hent]
        rcases he' with rfl | he'
        · rw [hei, List.getElem?_set_self hd0]
        · rw [List.getElem?_set_ne (by rw [← hei]; exact (hfresh e' he').symm)]
          exact hlive e' he'
      · intro s hs
        simp only [hent] at hs
        rcases List.mem_or_eq_of_mem_set hs with hs | rfl
        · exact hver s hs
        · rw [he]; simp only
          exact hver slot (List.getElem?_mem hslot)
      · rw [hent, hei]; simpa using hd0

/-- The identity table after the whole-entity `remove` of a live handle. -/
theorem remove_idInv (w : World V) (fl : List Nat) (hinv : IdInvWith w fl)
    (r' : Registry V) (e : Entity) (hlive : e ∈ w.live) (h : w.reg.remove e = some r') :
    IdInvWith { reg := r', live := w.live.filter (fun e' => decide (e' ≠ e)),
                created := w.created } (e.index :: fl) ∧
      r'.destroyed_ = e.index ∧
      r'.entities_ = w.reg.entities_.set e.index ⟨w.reg.destroyed_, (e.version + 1) % 2 ^ 64⟩ := by
  have hlt := live_lt w fl hinv e hlive
  obtain ⟨hlen, hchain, hnd, hfree, hliv, hver⟩ := hinv
  obtain ⟨_, hcase, _⟩ := Registry.remove_spec _ _ _ h
  obtain ⟨slot, hslot, hdes, hent⟩ := hcase hlt
  have hse : slot = e := by
    have := hliv e hlive
    rw [hslot] at this
    exact Option.some.inj this
  subst hse
  have hni : slot.index ∉ fl := fun hcon => hfree _ hcon slot hlive rfl
  have hother : ∀ e' ∈ w.live, e' ≠ slot → e'.index ≠ slot.index := by
    intro e' he' hne hcon
    have a := hliv e' he'
    rw [hcon, hslot] at a
    exact hne (Option.some.inj a).symm
  refine ⟨⟨?_, ?_, List.nodup_cons.mpr ⟨hni, hnd⟩, ?_, ?_, ?_⟩, hdes, hent⟩
  · simp only [hent, List.length_set]; exact hlen
  · show IdChain r'.entities_ r'.destroyed_ (slot.index :: fl)
    rw [hent, hdes]
    refine ⟨rfl, by omega, ⟨w.reg.destroyed_, (slot.version + 1) % 2 ^ 64⟩, ?_, ?_⟩
    · rw [List.getElem?_set_self hlt]
    · exact IdChain_set _ _ _ _ _ hchain hni
  · intro i hi e' he'
    simp only [List.mem_filter, decide_eq_true_eq] at he'
    rcases List.mem_cons.mp hi with rfl | hi'
    · exact hother e' he'.1 he'.2
    · exact hfree i hi' e' he'.1
  · intro e' he'
    simp only [List.mem_filter, decide_eq_true_eq] at he'
    simp only [hent]
    rw [List.getElem?_set_ne (fun hcon => hother e' he'.1 he'.2 hcon.symm)]
    exact hliv e' he'.1
  · intro s hs
    simp only [hent] at hs
    rcases List.mem_or_eq_of_mem_set hs with hs | rfl
    · exact hver s hs
    · exact Nat.mod_lt _ (by norm_num)

end World

namespace World

variable {V : Type}

theorem alongRun_head (g : Registry V → Bool) (w : World V) (ops : List (Op V))
    (h : alongRun g w ops = true) : g w.reg = true := by
  cases ops with
  | nil => exact h
  | cons op ops =>
    simp only [alongRun, Bool.and_eq_true] at h
    exact h.1

/-- Induction along a run: a property kept by every step between two states
that pass the check `g` holds at the end of every run that passes `g`
throughout. -/
theorem runFrom_invariant (g : Registry V → Bool) (I : World V → Prop)
    (hstep : ∀ (w w' : World V) (op : Op V), I w → g w.reg = true → g w'.reg = true →
      w.step op = some w' → I w') :
    ∀ (ops : List (Op V)) (w w' : World V), I w → runFrom w ops = some w' →
      alongRun g w ops = true → I w' ∧ g w'.reg = true := by
  intro ops
  induction ops with
  | nil =>
    intro w w' hI hrun hok
    simp only [runFrom, Option.some.injEq] at hrun
    subst hrun
    exact ⟨hI, hok⟩
  | cons op ops ih =>
    intro w w' hI hrun hok
    simp only [alongRun, Bool.and_eq_true] at hok
    simp only [runFrom] at hrun
    cases hs : w.step op with
    | none => rw [hs] at hrun; simp at hrun
    | some w1 =>
      rw [hs] at hrun hok
      simp only at hrun hok
      have hg1 := alongRun_head g w1 ops hok.2
      exact ih w1 w' (hstep w w1 op hI hok.1 hg1 hs) hrun hok.2

/-- Every step keeps the invariant of the identity table. -/
theorem step_idInv (w w' : World V) (op : Op V) (hinv : IdInv w)
    (hle : w'.reg.entities_.length ≤ SIZE_MAX) (h : w.step op = some w') : IdInv w' := by
  obtain ⟨fl, hinv⟩ := hinv
  cases op with
  | create =>
    simp only [step] at h
    cases hc : w.reg.create with
    | none => rw [hc] at h; simp at h
    | some res =>
      obtain ⟨r, e⟩ := res
      rw [hc] at h
      simp only [Option.some.injEq] at h
      subst h
      obtain ⟨fl', hi, _⟩ := create_idInv w fl hinv r e hc hle
      exact ⟨fl', hi⟩
  | add i e c =>
    simp only [step] at h
    by_cases hl : e ∈ w.live
    · rw [if_pos hl] at h
      cases hc : w.reg.add i e c with
      | none => rw [hc] at h; simp at h
      | some res =>
        obtain ⟨r, x⟩ := res
        rw [hc] at h
        simp only [Option.some.injEq] at h
        subst h
        obtain ⟨he, hd⟩ := Registry.add_identity _ _ _ _ _ _ hc
        refine ⟨fl, ?_⟩
        unfold IdInvWith at hinv ⊢
        simp only [he, hd]
        exact hinv
    · rw [if_neg hl] at h; simp at h
  | remove_component i e =>
    simp only [step] at h
    by_cases hl : e ∈ w.live
    · rw [if_pos hl] at h
      cases hc : w.reg.remove_component i e with
      | none => rw [hc] at h; simp at h
      | some r =>
        rw [hc] at h
        simp only [Option.some.injEq] at h
        subst h
        obtain ⟨he, hd⟩ := Registry.remove_component_identity _ _ _ _ hc
        refine ⟨fl, ?_⟩
        unfold IdInvWith at hinv ⊢
        simp only [he, hd]
        exact hinv
    · rw [if_neg hl] at h; simp at h
  | remove e =>
    simp only [step] at h
    by_cases hl : e ∈ w.live
    · rw [if_pos hl] at h
      cases hc : w.reg.remove e with
      | none => rw [hc] at h; simp at h
      | some r =>
        rw [hc] at h
        simp only [Option.some.injEq] at h
        subst h
        exact ⟨_, (remove_idInv w fl hinv r e hl hc).1⟩
    · rw [if_neg hl] at h; simp at h

/-- The identity table of every state of a run with representable sizes
satisfies its invariant. -/
theorem run_idInv (g : Registry V → Bool)
    (hg : ∀ r : Registry V, g r = true → r.entities_.length ≤ SIZE_MAX)
    (ops : List (Op V)) (w : World V) (hrun : run ops = some w)
    (hok : alongRun g World.new ops = true) : IdInv w :=
  (runFrom_invariant g IdInv
    (fun w w' op hI _ hg' hs => step_idInv w w' op hI (hg _ hg') hs)
    ops World.new w ⟨[], IdInvWith_new⟩ hrun hok).1

theorem versionsOk_getElem? (r : Registry V) (h : r.versionsOk = true) (i : Nat) (slot : Entity)
    (hs : r.entities_[i]? = some slot) : slot.version ≠ SIZE_MAX := by
  unfold Registry.versionsOk at h
  rw [List.all_eq_true] at h
  simpa using h slot (List.getElem?_mem hs)

/-- Every step keeps the record of created handles consistent, when no
version counter is at the sentinel before the step. -/
theorem step_histInv (w w' : World V) (op : Op V) (hid : IdInv w) (hh : HistInv w)
    (hv : w.reg.versionsOk = true) (h : w.step op = some w') : HistInv w' := by
  obtain ⟨fl, hid⟩ := hid
  obtain ⟨hnd, hhist⟩ := hh
  cases op with
  | create =>
    simp only [step] at h
    cases hc : w.reg.create with
    | none => rw [hc] at h; simp at h
    | some res =>
      obtain ⟨r, e⟩ := res
      rw [hc] at h
      simp only [Option.some.injEq] at h
      subst h
      obtain ⟨_, hcase⟩ := Registry.create_spec _ _ _ hc
      obtain ⟨hlen, hchain, hfnd, hfree, hlive, hver⟩ := hid
      -- no live handle has the index of the new one
      have hfresh : ∀ e' ∈ w.live, e'.index ≠ e.index := by
        intro e' he'
        rcases hcase with ⟨hd, he, _, _⟩ | ⟨hd, slot, hslot, he, _, _⟩
        · have a := hlive e' he'
          have : e'.index < w.reg.entities_.length := by
            by_contra hcon
            rw [List.getElem?_eq_none (by omega)] at a
            exact absurd a (by simp)
          rw [he]; simp only; omega
        · cases fl with
          | nil => exact absurd hchain hd
          | cons d0 rest =>
            obtain ⟨h1, _⟩ := hchain
            rw [he]; simp only
            rw [h1]
            exact hfree d0 (by simp) e' he'
      refine ⟨List.nodup_cons.mpr ⟨?_, hnd⟩, ?_⟩
      · intro hmem
        rcases hhist e hmem with hl | ⟨slot, hslot, hlt⟩
        · exact hfresh e hl rfl
        · rcases hcase with ⟨hd, he, _, _⟩ | ⟨hd, slot0, hslot0, he, _, _⟩
          · rw [he] at hslot
            simp only at hslot
            rw [List.getElem?_eq_none (by omega)] at hslot
            exact absurd hslot (by simp)
          · rw [he] at hslot hlt
            simp only at hslot hlt
            rw [hslot0] at hslot
            simp only [Option.some.injEq] at hslot
            subst hslot
            omega
      · intro e' he'
        simp only [List.mem_cons] at he' ⊢
        rcases he' with rfl | he'
        · left; left; rfl
        · rcases hhist e' he' with hl | ⟨slot, hslot, hlt⟩
          · left; right; exact hl
          · right
            have hilt : e'.index < w.reg.entities_.length := by
              by_contra hcon
              rw [List.getElem?_eq_none (by omega)] at hslot
              exact absurd hslot (by simp)
            rcases hcase with ⟨hd, he, hent, _⟩ | ⟨hd, slot0, hslot0, he, hent, _⟩
            · refine ⟨slot, ?_, hlt⟩
              simp only [hent]
              rw [List.getElem?_append_left hilt]; exact hslot
            · by_cases hi : w.reg.destroyed_ = e'.index
              · refine ⟨e, ?_, ?_⟩
                · simp only [hent]
                  rw [← hi, List.getElem?_set_self (by omega)]
                · rw [← hi, hslot0] at hslot
                  simp only [Option.some.injEq] at hslot
                  subst hslot
                  rw [he]; exact hlt
              · refine ⟨slot, ?_, hlt⟩
                simp only [hent]
                rw [List.getElem?_set_ne hi]; exact hslot
  | add i e c =>
    simp only [step] at h
    by_cases hl : e ∈ w.live
    · rw [if_pos hl] at h
      cases hc : w.reg.add i e c with
      | none => rw [hc] at h; simp at h
      | some res =>
        obtain ⟨r, x⟩ := res
        rw [hc] at h
        simp only [Option.some.injEq] at h
        subst h
        obtain ⟨he, hd⟩ := Registry.add_identity _ _ _ _ _ _ hc
        refine ⟨hnd, ?_⟩
        simp only [he]
        exact hhist
    · rw [if_neg hl] at h; simp at h
  | remove_component i e =>
    simp only [step] at h
    by_cases hl : e ∈ w.live
    · rw [if_pos hl] at h
      cases hc : w.reg.remove_component i e with
      | none => rw [hc] at h; simp at h
      | some r =>
        rw [hc] at h
        simp only [Option.some.injEq] at h
        subst h
        obtain ⟨he, hd⟩ := Registry.remove_component_identity _ _ _ _ hc
        refine ⟨hnd, ?_⟩
        simp only [he]
        exact hhist
    · rw [if_neg hl] at h; simp at h
  | remove e =>
    simp only [step] at h
    by_cases hl : e ∈ w.live
    · rw [if_pos hl] at h
      cases hc : w.reg.remove e with
      | none => rw [hc] at h; simp at h
      | some r =>
        rw [hc] at h
        simp only [Option.some.injEq] at h
        subst h
        obtain ⟨_, _, hent⟩ := remove_idInv w fl hid r e hl hc
        have hlt := live_lt w fl hid e hl
        obtain ⟨hlen, hchain, hfnd, hfree, hlive, hver⟩ := hid
        have hslot := hlive e hl
        have hv1 : e.version ≠ SIZE_MAX := versionsOk_getElem? _ hv _ _ hslot
        have hv2 : e.version < 2 ^ 64 := hver e (List.getElem?_mem hslot)
        have hnew : (e.version + 1) % 2 ^ 64 = e.version + 1 := by
          simp only [SIZE_MAX] at hv1
          omega
        refine ⟨hnd, ?_⟩
        intro e' he'
        simp only [List.mem_filter, decide_eq_true_eq, hent]
        by_cases hi : e.index = e'.index
        · right
          refine ⟨⟨w.reg.destroyed_, (e.version + 1) % 2 ^ 64⟩, ?_, ?_⟩
          · rw [← hi, List.getElem?_set_self hlt]
          · simp only [hnew]
            rcases hhist e' he' with hl' | ⟨slot, hslot', hlt'⟩
            · have a := hlive e' hl'
              rw [← hi, hslot] at a
              simp only [Option.some.injEq] at a
              subst a
              omega
            · rw [← hi, hslot] at hslot'
              simp only [Option.some.injEq] at hslot'
              subst hslot'
              omega
        · rcases hhist e' he' with hl' | ⟨slot, hslot', hlt'⟩
          · left
            exact ⟨hl', fun hcon => hi (by rw [hcon])⟩
          · right
            exact ⟨slot, by rw [List.getElem?_set_ne hi]; exact hslot', hlt'⟩
    · rw [if_neg hl] at h; simp at h

end World

/-! ## Theorems: entity identity -/

/-- C3: along every run of `create`, `add` and `remove` calls on a fresh
registry that uses live handles only and in which the identity table stays
representable and no version counter is at the sentinel, no handle is returned
by `create` twice: the list of all handles `create` returned has no
duplicates. -/
theorem C3_created_handles_distinct {V : Type} (ops : List (Op V)) (w : World V)
    (hrun : World.run ops = some w)
    (hok : World.alongRun Registry.noSentinel World.new ops = true) :
    w.created.Nodup := by
  have hg : ∀ r : Registry V, Registry.noSentinel r = true →
      r.entities_.length ≤ SIZE_MAX := by
    intro r hr
    simp only [Registry.noSentinel, Bool.and_eq_true, decide_eq_true_eq] at hr
    exact hr.1
  have hgv : ∀ r : Registry V, Registry.noSentinel r = true → r.versionsOk = true := by
    intro r hr
    simp only [Registry.noSentinel, Bool.and_eq_true] at hr
    exact hr.2
  have key := World.runFrom_invariant Registry.noSentinel
    (fun w : World V => IdInv w ∧ HistInv w)
    (fun w w' op hI hgw hgw' hs =>
      ⟨World.step_idInv w w' op hI.1 (hg _ hgw') hs,
        World.step_histInv w w' op hI.1 hI.2 (hgv _ hgw) hs⟩)
    ops World.new w
    ⟨⟨[], World.IdInvWith_new⟩, List.nodup_nil, fun e he => by simp [World.new] at he⟩
    hrun hok
  exact key.1.2.1

theorem sizesOk_entities {V : Type} (r : Registry V) (h : r.sizesOk = true) :
    r.entities_.length ≤ SIZE_MAX := by
  simp only [Registry.sizesOk, Bool.and_eq_true, decide_eq_true_eq] at h
  exact h.1

theorem sizesOk_pool {V : Type} (r : Registry V) (h : r.sizesOk = true) (i : Nat)
    (p : SparseSet V) (hp : r.get_pool_at i = some p) :
    p.denseEntities_.length ≤ SIZE_MAX := by
  simp only [Registry.sizesOk, Bool.and_eq_true, List.all_eq_true] at h
  unfold Registry.get_pool_at at hp
  cases hq : r.pools_[i]? with
  | none => rw [hq] at hp; simp at hp
  | some o =>
    cases o with
    | none => rw [hq] at hp; simp at hp
    | some q =>
      rw [hq] at hp
      simp only [Option.some.injEq] at hp
      subst hp
      simpa using h.2 (some q) (List.getElem?_mem hq)

/-- C4: in every state of a run on a fresh registry that uses live handles
only and keeps all sizes representable, after the whole-entity `remove(e)` of
a live handle `e` the next `create()` succeeds and returns the index of `e`
with the version of `e` incremented (modulo `2 ^ 64`), a handle different from
`e`; when the version of `e` is not the sentinel the new version is
`e.version + 1` and strictly greater. -/
theorem C4_recycled_slot_version {V : Type} (ops : List (Op V)) (w : World V)
    (hrun : World.run ops = some w)
    (hok : World.alongRun Registry.sizesOk World.new ops = true)
    (e : Entity) (hlive : e ∈ w.live) (r1 : Registry V) (hrem : w.reg.remove e = some r1) :
    ∃ r2 e', r1.create = some (r2, e') ∧ e'.index = e.index ∧
      e'.version = (e.version + 1) % 2 ^ 64 ∧ e' ≠ e ∧
      (e.version ≠ SIZE_MAX → e'.version = e.version + 1 ∧ e.version < e'.version) := by
  obtain ⟨fl, hid⟩ := World.run_idInv Registry.sizesOk sizesOk_entities ops w hrun hok
  obtain ⟨_, hdes, hent⟩ := World.remove_idInv w fl hid r1 e hlive hrem
  have hlt := World.live_lt w fl hid e hlive
  obtain ⟨hlen, _, _, _, hliv, hver⟩ := hid
  have hv2 : e.version < 2 ^ 64 := hver e (List.getElem?_mem (hliv e hlive))
  have hne : r1.destroyed_ ≠ SIZE_MAX := by rw [hdes]; omega
  have hslot : r1.entities_[r1.destroyed_]?
      = some ⟨w.reg.destroyed_, (e.version + 1) % 2 ^ 64⟩ := by
    rw [hdes, hent, List.getElem?_set_self hlt]
  refine ⟨{ destroyed_ := w.reg.destroyed_,
            entities_ := r1.entities_.set r1.destroyed_
              ⟨r1.destroyed_, (e.version + 1) % 2 ^ 64⟩,
            pools_ := r1.pools_ },
    ⟨r1.destroyed_, (e.version + 1) % 2 ^ 64⟩, ?_, hdes, rfl, ?_, ?_⟩
  · unfold Registry.create
    rw [if_neg hne]
    simp only [hslot]
  · intro hcon
    have hmod : (e.version + 1) % 2 ^ 64 = e.version := congrArg Entity.version hcon
    omega
  · intro hv1
    simp only [SIZE_MAX] at hv1
    have hnew : (e.version + 1) % 2 ^ 64 = e.version + 1 := by omega
    refine ⟨hnew, ?_⟩
    show e.version < (e.version + 1) % 2 ^ 64
    omega

set_option maxRecDepth 100000 in
/-- Witness of C3: create two entities, remove the first, create again. -/
theorem C3_created_handles_distinct_witness :
    World.run demoIdOps = some demoIdWorld ∧
      World.alongRun Registry.noSentinel World.new demoIdOps = true ∧
      demoIdWorld.created = [⟨0, 1⟩, ⟨1, 0⟩, ⟨0, 0⟩] ∧ demoIdWorld.created.Nodup :=
  ⟨by rfl, by decide, by decide,
    C3_created_handles_distinct demoIdOps demoIdWorld (by rfl) (by decide)⟩

set_option maxRecDepth 100000 in
/-- Witness of C4: in `demoIdWorld` the live handle `(1, 0)` is removed and
the next `create` returns `(1, 1)`. -/
theorem C4_recycled_slot_version_witness :
    World.run demoIdOps = some demoIdWorld ∧
      World.alongRun Registry.sizesOk World.new demoIdOps = true ∧
      (⟨1, 0⟩ : Entity) ∈ demoIdWorld.live ∧
      demoIdWorld.reg.remove ⟨1, 0⟩ = some ((demoIdWorld.reg.remove ⟨1, 0⟩).getD Registry.new) ∧
      ∃ r2 e', ((demoIdWorld.reg.remove ⟨1, 0⟩).getD Registry.new).create = some (r2, e') ∧
        e'.index = (⟨1, 0⟩ : Entity).index ∧
        e'.version = ((⟨1, 0⟩ : Entity).version + 1) % 2 ^ 64 ∧ e' ≠ ⟨1, 0⟩ ∧
        ((⟨1, 0⟩ : Entity).version ≠ SIZE_MAX →
          e'.version = (⟨1, 0⟩ : Entity).version + 1 ∧
            (⟨1, 0⟩ : Entity).version < e'.version) :=
  ⟨by rfl, by decide, by decide, by rfl,
    C4_recycled_slot_version demoIdOps demoIdWorld (by rfl) (by decide) ⟨1, 0⟩ (by decide)
      ((demoIdWorld.reg.remove ⟨1, 0⟩).getD Registry.new) (by rfl)⟩

set_option maxRecDepth 100000 in
/-- C5, evaluated on the code: after `create(); remove(e); remove(e)` the
second `remove` has changed the registry (it is not the registry after one
`remove`), and the next two `create` calls both return the handle `(0, 2)`. -/
theorem C5_double_remove_not_noop :
    doubleRemoved ≠ onceRemoved ∧
      (doubleRemoved.bind createTwice) = some (⟨0, 2⟩, ⟨0, 2⟩) ∧
      (onceRemoved.bind createTwice) = some (⟨0, 1⟩, ⟨1, 0⟩) := by
  refine ⟨by decide, by decide, by decide⟩

/-! ## Theorems: the pool array of a registry -/

theorem getElem?_grow {α : Type} (xs : List (Option α)) (n i : Nat) :
    (if n ≥ xs.length then vresize xs (n + 1) else xs)[i]?
      = if i < xs.length then xs[i]? else if i ≤ n then some none else none := by
  by_cases h : n ≥ xs.length
  · rw [if_pos h, getElem?_vresize _ _ _ (by omega)]
    by_cases h1 : i < xs.length
    · rw [if_pos h1, if_pos h1]
    · rw [if_neg h1, if_neg h1]
      by_cases h2 : i ≤ n
      · rw [if_pos h2, if_pos (by omega)]
      · rw [if_neg h2, if_neg (by omega)]
  · rw [if_neg h]
    by_cases h1 : i < xs.length
    · rw [if_pos h1]
    · rw [if_neg h1, if_neg (by omega), List.getElem?_eq_none (by omega)]

theorem length_grow {α : Type} (xs : List (Option α)) (n : Nat) :
    n < (if n ≥ xs.length then vresize xs (n + 1) else xs).length := by
  by_cases h : n ≥ xs.length
  · rw [if_pos h, length_vresize _ _ (by omega)]; omega
  · rw [if_neg h]; omega

namespace Registry

variable {V : Type}

theorem get_pool_at_lt (r : Registry V) (i : Nat) (p : SparseSet V)
    (h : r.get_pool_at i = some p) : r.pools_[i]? = some (some p) := by
  unfold get_pool_at at h
  cases hq : r.pools_[i]? with
  | none => rw [hq] at h; simp at h
  | some o =>
    cases o with
    | none => rw [hq] at h; simp at h
    | some q =>
      rw [hq] at h
      simp only [Option.some.injEq] at h
      rw [h]

theorem get_pool_at_of_getElem? (r : Registry V) (i : Nat) (p : SparseSet V)
    (h : r.pools_[i]? = some (some p)) : r.get_pool_at i = some p := by
  unfold get_pool_at
  rw [h]

/-- The pool array after `get_pool`. -/
theorem get_pool_pools (r : Registry V) (i j : Nat) :
    (r.get_pool i).pools_[j]? =
      if j = i then
        (match r.get_pool_at i with
          | some p => some (some p)
          | none => some (some SparseSet.new))
      else if j < r.pools_.length then r.pools_[j]?
      else if j ≤ i then some none else none := by
  unfold get_pool
  simp only
  have hlen := length_grow r.pools_ i
  have hget := getElem?_grow r.pools_ i
  generalize (if i ≥ r.pools_.length then vresize r.pools_ (i + 1) else r.pools_) = pools1
    at hlen hget
  by_cases hj : j = i
  · subst hj
    rw [if_pos rfl]
    cases hc : pools1[j]? with
    | none => rw [List.getElem?_eq_none_iff] at hc; omega
    | some o =>
      have hc' := hc
      rw [hget] at hc'
      cases o with
      | none =>
        simp only
        rw [List.getElem?_set_self hlen]
        have : r.get_pool_at j = none := by
          unfold get_pool_at
          by_cases h1 : j < r.pools_.length
          · rw [if_pos h1] at hc'; rw [hc']
          · rw [List.getElem?_eq_none (by omega)]
        rw [this]
      | some p =>
        simp only
        rw [hc]
        have : r.get_pool_at j = some p := by
          unfold get_pool_at
          by_cases h1 : j < r.pools_.length
          · rw [if_pos h1] at hc'; rw [hc']
          · rw [if_neg h1] at hc'
            by_cases h2 : j ≤ j <;> simp [h2] at hc'
        rw [this]
  · rw [if_neg hj]
    have : (match pools1[i]? with
        | some none => pools1.set i (some SparseSet.new)
        | _ => pools1)[j]? = pools1[j]? := by
      cases hc : pools1[i]? with
      | none => rfl
      | some o =>
        cases o with
        | none => simp only; rw [List.getElem?_set_ne (fun h => hj h.symm)]
        | some p => rfl
    rw [this, hget]

theorem get_pool_at_get_pool_self (r : Registry V) (i : Nat) :
    (r.get_pool i).get_pool_at i = some (r.pool_of i) := by
  unfold pool_of
  have h := get_pool_pools r i i
  rw [if_pos rfl] at h
  cases hq : r.get_pool_at i with
  | none =>
    rw [hq] at h
    simp only at h
    rw [get_pool_at_of_getElem? _ _ _ h]
  | some p =>
    rw [hq] at h
    simp only at h
    rw [get_pool_at_of_getElem? _ _ _ h]

theorem get_pool_at_get_pool_ne (r : Registry V) (i j : Nat) (h : j ≠ i) :
    (r.get_pool i).get_pool_at j = r.get_pool_at j := by
  have hp := get_pool_pools r i j
  rw [if_neg h] at hp
  unfold get_pool_at
  rw [hp]
  by_cases h1 : j < r.pools_.length
  · rw [if_pos h1]
  · rw [if_neg h1, List.getElem?_eq_none (by omega)]
    by_cases h2 : j ≤ i <;> simp [h2]

theorem pool_of_eq_of_get_pool_at (r : Registry V) (i : Nat) (p : SparseSet V)
    (h : r.get_pool_at i = some p) : r.pool_of i = p := by
  have hp := get_pool_pools r i i
  rw [if_pos rfl, h] at hp
  simp only at hp
  unfold pool_of
  rw [get_pool_at_of_getElem? _ _ _ hp]

theorem pool_of_eq_new (r : Registry V) (i : Nat) (h : r.get_pool_at i = none) :
    r.pool_of i = SparseSet.new := by
  have hp := get_pool_pools r i i
  rw [if_pos rfl, h] at hp
  simp only at hp
  unfold pool_of
  rw [get_pool_at_of_getElem? _ _ _ hp]

/-- Calling `get_pool` for one component does not change the pool of any
component. -/
theorem pool_of_get_pool (r : Registry V) (i j : Nat) :
    (r.get_pool i).pool_of j = r.pool_of j := by
  by_cases h : j = i
  · subst h
    exact pool_of_eq_of_get_pool_at _ _ _ (get_pool_at_get_pool_self r j)
  · cases hq : r.get_pool_at j with
    | none =>
      rw [pool_of_eq_new r j hq]
      exact pool_of_eq_new _ _ (by rw [get_pool_at_get_pool_ne r i j h]; exact hq)
    | some p =>
      rw [pool_of_eq_of_get_pool_at r j p hq]
      exact pool_of_eq_of_get_pool_at _ _ _ (by rw [get_pool_at_get_pool_ne r i j h]; exact hq)

/-- An existing pool is what `get_pool_at` finds after any `get_pool`. -/
theorem get_pool_at_get_pool_cases (r : Registry V) (i j : Nat) (p : SparseSet V)
    (h : (r.get_pool i).get_pool_at j = some p) :
    r.get_pool_at j = some p ∨ (j = i ∧ r.get_pool_at j = none ∧ p = SparseSet.new) := by
  by_cases hj : j = i
  · subst hj
    rw [get_pool_at_get_pool_self] at h
    simp only [Option.some.injEq] at h
    cases hq : r.get_pool_at j with
    | none => right; exact ⟨rfl, rfl, by rw [← h, pool_of_eq_new r j hq]⟩
    | some q => left; rw [← h, pool_of_eq_of_get_pool_at r j q hq]
  · left; rw [← get_pool_at_get_pool_ne r i j hj]; exact h

theorem get_pool_at_put_pool (r : Registry V) (i j : Nat) (p q : SparseSet V)
    (hi : r.get_pool_at i = some q) :
    (r.put_pool i p).get_pool_at j = if j = i then some p else r.get_pool_at j := by
  have hlt : i < r.pools_.length := by
    have := get_pool_at_lt r i q hi
    by_contra hcon
    rw [List.getElem?_eq_none (by omega)] at this
    exact absurd this (by simp)
  unfold put_pool get_pool_at
  simp only
  by_cases hj : j = i
  · subst hj
    rw [if_pos rfl, List.getElem?_set_self hlt]
  · rw [if_neg hj, List.getElem?_set_ne (fun h => hj h.symm)]

/-- The loop over the pools in `remove`: pool by pool. -/
theorem remove_from_pools_spec (e : Entity) :
    ∀ (pools pools' : List (Option (SparseSet V))), remove_from_pools e pools = some pools' →
      ∀ j : Nat, (∀ p' : SparseSet V, pools'[j]? = some (some p') →
          ∃ p : SparseSet V, pools[j]? = some (some p) ∧ p.remove e = some p') ∧
        (∀ p : SparseSet V, pools[j]? = some (some p) →
          ∃ p' : SparseSet V, pools'[j]? = some (some p') ∧ p.remove e = some p') := by
  intro pools
  induction pools with
  | nil =>
    intro pools' h j
    simp only [remove_from_pools, Option.some.injEq] at h
    subst h
    simp
  | cons o rest ih =>
    intro pools' h j
    cases o with
    | none => simp [remove_from_pools] at h
    | some pool =>
      simp only [remove_from_pools] at h
      cases h1 : pool.remove e with
      | none => rw [h1] at h; simp at h
      | some pool' =>
        rw [h1] at h
        simp only at h
        cases h2 : remove_from_pools e rest with
        | none => rw [h2] at h; simp at h
        | some rest' =>
          rw [h2] at h
          simp only [Option.some.injEq] at h
          subst h
          cases j with
          | zero =>
            simp only [List.getElem?_cons_zero, Option.some.injEq]
            exact ⟨fun p' hp' => ⟨pool, rfl, by rw [← hp']; exact h1⟩,
              fun p hp => ⟨pool', rfl, by rw [← hp]; exact h1⟩⟩
          | succ j =>
            simp only [List.getElem?_cons_succ]
            exact ih rest' h2 j

end Registry

/-! ## Theorems: the pools of a registry along a run -/

theorem new_contains {T : Type} (e : Entity) : (SparseSet.new : SparseSet T).contains e = false := by
  rw [SparseSet.contains_false_iff]
  intro d hd
  exfalso
  simp only [SparseSet.sparse_at, SparseSet.sparse_read, SparseSet.new] at hd
  rw [getElem?_vresize _ _ _ (by simp)] at hd
  by_cases h1 : e.index / PAGE_SIZE < 8 <;> simp [h1] at hd

theorem PoolGood_new {T : Type} (live : List Entity) :
    PoolGood (SparseSet.new : SparseSet T) live := by
  refine ⟨⟨[], SparseSet.PoolInvWith_new⟩, ?_, ?_⟩
  · intro d e he; simp [SparseSet.new] at he
  · intro e he; rw [new_contains] at he; exact absurd he (by simp)

/-- A good pool stays good under `insert` of a live handle, when live
handles have distinct indices. -/
theorem PoolGood_insert {T : Type} (p p' : SparseSet T) (live : List Entity)
    (hg : PoolGood p live) (c x : T) (e : Entity) (he : e ∈ live)
    (hinj : ∀ e' ∈ live, e'.index = e.index → e' = e)
    (hi : p.insert c e = some (p', x)) (hle : p'.denseEntities_.length ≤ SIZE_MAX) :
    PoolGood p' live := by
  obtain ⟨⟨chain, hinv⟩, ht, hm⟩ := hg
  by_cases hc : p.contains e = true
  · obtain ⟨y, hy, _⟩ := SparseSet.insert_contained_spec p chain hinv c e hc
    rw [hy] at hi
    simp only [Option.some.injEq, Prod.mk.injEq] at hi
    obtain ⟨rfl, _⟩ := hi
    exact ⟨⟨chain, hinv⟩, ht, hm⟩
  · have hc' : p.contains e = false := by simpa using hc
    obtain ⟨s1, chain', idx, hx, hi', _⟩ := SparseSet.insert_fresh_spec p chain hinv c e hc'
    have hs1 : s1 = p' := by
      rw [hx] at hi
      simp only [Option.some.injEq, Prod.mk.injEq] at hi
      exact hi.1
    subst hs1
    refine ⟨⟨chain', (hi' hle).1⟩, ?_, ?_⟩
    · refine SparseSet.insert_fresh_tight p chain hinv c e hc' s1 x hi ht ?_
      intro e' he' hidx
      have := hinj e' (hm e' he') hidx
      subst this
      rw [hc'] at he'
      exact absurd he' (by simp)
    · intro e' he'
      rcases (SparseSet.insert_fresh_contains p chain hinv c e hc' s1 x hi hle e').mp he' with
        rfl | ⟨_, h⟩
      · exact he
      · exact hm e' h

/-- A good pool stays good under `remove`; the removed entity is no longer
contained, and no entity becomes contained. -/
theorem PoolGood_remove {T : Type} (p p' : SparseSet T) (live : List Entity)
    (hg : PoolGood p live) (e : Entity) (hr : p.remove e = some p') :
    PoolGood p' live ∧ p'.contains e = false ∧
      ∀ e', p'.contains e' = true → p.contains e' = true := by
  obtain ⟨⟨chain, hinv⟩, ht, hm⟩ := hg
  by_cases hc : p.contains e = true
  · obtain ⟨s1, d, hx, hinv', _, _, hnc, _⟩ := SparseSet.remove_contained_spec p chain hinv e hc
    have hs1 : s1 = p' := by
      rw [hx] at hr
      exact Option.some.inj hr
    subst hs1
    have hsub : ∀ e', s1.contains e' = true → p.contains e' = true := fun e' he' =>
      ((SparseSet.remove_contained_contains p chain hinv e hc s1 hr e').mp he').2
    exact ⟨⟨⟨_, hinv'⟩, SparseSet.remove_contained_tight p chain hinv e hc s1 hr ht,
      fun e' he' => hm e' (hsub e' he')⟩, hnc, hsub⟩
  · have hc' : p.contains e = false := by simpa using hc
    rw [SparseSet.remove_not_contained p e hc'] at hr
    simp only [Option.some.injEq] at hr
    subst hr
    exact ⟨⟨⟨chain, hinv⟩, ht, hm⟩, hc', fun e' he' => he'⟩

theorem PoolGood_mono {T : Type} (p : SparseSet T) (live live' : List Entity)
    (hg : PoolGood p live) (hsub : ∀ e, p.contains e = true → e ∈ live → e ∈ live') :
    PoolGood p live' :=
  ⟨hg.1, hg.2.1, fun e he => hsub e he (hg.2.2 e he)⟩

namespace World

variable {V : Type}

theorem PoolsInv_new : PoolsInv (World.new : World V) := by
  intro i p hp
  simp [World.new, Registry.new, Registry.get_pool_at] at hp

/-- Calling `get_pool` keeps the invariant of the pools. -/
theorem PoolsInv_get_pool (r : Registry V) (live created created' : List Entity)
    (h : PoolsInv { reg := r, live := live, created := created }) (i : Nat) :
    PoolsInv { reg := r.get_pool i, live := live, created := created' } := by
  intro j p hp
  rcases Registry.get_pool_at_get_pool_cases r i j p hp with h1 | ⟨_, _, rfl⟩
  · exact h j p h1
  · exact PoolGood_new live

/-- Every step keeps the invariant of the pools. -/
theorem step_poolsInv (w w' : World V) (op : Op V) (hid : IdInv w) (hp : PoolsInv w)
    (hs' : w'.reg.sizesOk = true) (h : w.step op = some w') : PoolsInv w' := by
  obtain ⟨fl, hid⟩ := hid
  cases op with
  | create =>
    simp only [step] at h
    cases hc : w.reg.create with
    | none => rw [hc] at h; simp at h
    | some res =>
      obtain ⟨r, e⟩ := res
      rw [hc] at h
      simp only [Option.some.injEq] at h
      subst h
      obtain ⟨hpools, _⟩ := Registry.create_spec _ _ _ hc
      intro j p hj
      have hj' : w.reg.get_pool_at j = some p := by
        unfold Registry.get_pool_at at hj ⊢
        rw [← hpools]; exact hj
      exact PoolGood_mono p _ _ (hp j p hj') (fun e' _ he' => List.mem_cons_of_mem _ he')
  | add i e c =>
    simp only [step] at h
    by_cases hl : e ∈ w.live
    · rw [if_pos hl] at h
      cases hc : w.reg.add i e c with
      | none => rw [hc] at h; simp at h
      | some res =>
        obtain ⟨r, x⟩ := res
        rw [hc] at h
        simp only [Option.some.injEq] at h
        subst h
        unfold Registry.add at hc
        simp only [Registry.get_pool_at_get_pool_self] at hc
        cases hins : (w.reg.pool_of i).insert c e with
        | none => rw [hins] at hc; simp at hc
        | some res =>
          obtain ⟨pool', y⟩ := res
          rw [hins] at hc
          simp only [Option.some.injEq, Prod.mk.injEq] at hc
          obtain ⟨rfl, rfl⟩ := hc
          have h1 := PoolsInv_get_pool w.reg w.live w.created w.created hp i
          have hgood : PoolGood (w.reg.pool_of i) w.live :=
            h1 i _ (Registry.get_pool_at_get_pool_self w.reg i)
          intro j p hj
          simp only at hj
          rw [Registry.get_pool_at_put_pool _ i j pool' _
            (Registry.get_pool_at_get_pool_self w.reg i)] at hj
          by_cases hji : j = i
          · rw [if_pos hji] at hj
            simp only [Option.some.injEq] at hj
            subst hj
            refine PoolGood_insert _ _ w.live hgood c y e hl ?_ hins ?_
            · intro e' he' hidx
              exact live_index_inj w fl hid e' e he' hl hidx
            · refine sizesOk_pool _ hs' i _ ?_
              simp only
              rw [Registry.get_pool_at_put_pool _ i i _ _
                (Registry.get_pool_at_get_pool_self w.reg i), if_pos rfl]
          · rw [if_neg hji] at hj
            exact h1 j p hj
    · rw [if_neg hl] at h; simp at h
  | remove_component i e =>
    simp only [step] at h
    by_cases hl : e ∈ w.live
    · rw [if_pos hl] at h
      cases hc : w.reg.remove_component i e with
      | none => rw [hc] at h; simp at h
      | some r =>
        rw [hc] at h
        simp only [Option.some.injEq] at h
        subst h
        unfold Registry.remove_component at hc
        simp only [Registry.get_pool_at_get_pool_self] at hc
        cases hrem : (w.reg.pool_of i).remove e with
        | none => rw [hrem] at hc; simp at hc
        | some pool' =>
          rw [hrem] at hc
          simp only [Option.some.injEq] at hc
          subst hc
          have h1 := PoolsInv_get_pool w.reg w.live w.created w.created hp i
          have hgood : PoolGood (w.reg.pool_of i) w.live :=
            h1 i _ (Registry.get_pool_at_get_pool_self w.reg i)
          intro j p hj
          simp only at hj
          rw [Registry.get_pool_at_put_pool _ i j pool' _
            (Registry.get_pool_at_get_pool_self w.reg i)] at hj
          by_cases hji : j = i
          · rw [if_pos hji] at hj
            simp only [Option.some.injEq] at hj
            subst hj
            exact (PoolGood_remove _ _ w.live hgood e hrem).1
          · rw [if_neg hji] at hj
            exact h1 j p hj
    · rw [if_neg hl] at h; simp at h
  | remove e =>
    simp only [step] at h
    by_cases hl : e ∈ w.live
    · rw [if_pos hl] at h
      cases hc : w.reg.remove e with
      | none => rw [hc] at h; simp at h
      | some r =>
        rw [hc] at h
        simp only [Option.some.injEq] at h
        subst h
        obtain ⟨hpools, _⟩ := Registry.remove_spec _ _ _ hc
        intro j p' hj
        simp only at hj
        obtain ⟨p, hpj, hrem⟩ :=
          (Registry.remove_from_pools_spec e _ _ hpools j).1 p' (Registry.get_pool_at_lt _ _ _ hj)
        have hgood := hp j p (Registry.get_pool_at_of_getElem? _ _ _ hpj)
        obtain ⟨hg', hnc, hsub⟩ := PoolGood_remove p p' w.live hgood e hrem
        refine PoolGood_mono p' _ _ hg' ?_
        intro e' he' hlive'
        simp only [List.mem_filter, decide_eq_true_eq]
        refine ⟨hlive', ?_⟩
        intro hcon
        subst hcon
        rw [hnc] at he'
        exact absurd he' (by simp)
    · rw [if_neg hl] at h; simp at h

/-- In every state of a run with representable sizes, the identity table and
the pools satisfy their invariants. -/
theorem run_inv (ops : List (Op V)) (w : World V) (hrun : run ops = some w)
    (hok : alongRun Registry.sizesOk World.new ops = true) :
    IdInv w ∧ PoolsInv w ∧ w.reg.sizesOk = true := by
  have key := runFrom_invariant Registry.sizesOk (fun w : World V => IdInv w ∧ PoolsInv w)
    (fun w w' op hI _ hg' hs =>
      ⟨step_idInv w w' op hI.1 (sizesOk_entities _ hg') hs,
        step_poolsInv w w' op hI.1 hI.2 hg' hs⟩)
    ops World.new w ⟨⟨[], IdInvWith_new⟩, PoolsInv_new⟩ hrun hok
  exact ⟨key.1.1, key.1.2, key.2⟩

end World

/-! ## Theorems: whole-entity removal and multi-component views -/

namespace Registry

variable {V : Type}

/-- What `has` computes: the conjunction of `contains` over the pools. -/
theorem has_spec (e : Entity) :
    ∀ (idxs : List Nat) (r : Registry V),
      ∃ r', r.has idxs e = some (r', idxs.all fun i => (r.pool_of i).contains e) := by
  intro idxs
  induction idxs with
  | nil => intro r; exact ⟨r, rfl⟩
  | cons i rest ih =>
    intro r
    unfold has
    simp only [get_pool_at_get_pool_self, List.all_cons]
    by_cases hc : (r.pool_of i).contains e = true
    · rw [if_pos hc, hc]
      obtain ⟨r', hr'⟩ := ih (r.get_pool i)
      refine ⟨r', ?_⟩
      rw [hr']
      simp only [pool_of_get_pool, Bool.true_and]
    · rw [if_neg hc]
      have : (r.pool_of i).contains e = false := by simpa using hc
      rw [this]
      exact ⟨_, rfl⟩

theorem get_pool_at_foldl (idxs : List Nat) :
    ∀ (r : Registry V) (j : Nat) (p : SparseSet V), r.get_pool_at j = some p →
      (idxs.foldl get_pool r).get_pool_at j = some p := by
  induction idxs with
  | nil => intro r j p h; exact h
  | cons i rest ih =>
    intro r j p h
    simp only [List.foldl_cons]
    apply ih
    by_cases hj : j = i
    · subst hj
      rw [get_pool_at_get_pool_self, pool_of_eq_of_get_pool_at r j p h]
    · rw [get_pool_at_get_pool_ne r i j hj]; exact h

theorem get_pool_at_foldl_mem (idxs : List Nat) :
    ∀ (r : Registry V) (j : Nat), j ∈ idxs →
      (idxs.foldl get_pool r).get_pool_at j = some (r.pool_of j) := by
  induction idxs with
  | nil => intro r j h; simp at h
  | cons i rest ih =>
    intro r j h
    simp only [List.foldl_cons]
    by_cases hj : j = i
    · subst hj
      exact get_pool_at_foldl rest _ _ _ (get_pool_at_get_pool_self r j)
    · rcases List.mem_cons.mp h with h1 | h1
      · exact absurd h1 hj
      · rw [ih (r.get_pool i) j h1, pool_of_get_pool]

theorem mapM_eq_some_map {α β : Type} (f : α → Option β) (g : α → β) :
    ∀ (l : List α), (∀ a ∈ l, f a = some (g a)) → l.mapM f = some (l.map g) := by
  intro l
  induction l with
  | nil => intro _; rfl
  | cons a l ih =>
    intro h
    rw [List.mapM_cons, h a (by simp), ih (fun b hb => h b (by simp [hb]))]
    rfl

theorem set_smallest_spec {T : Type} (pools : List (SparseSet T)) :
    ∀ (rest : List (SparseSet T)) (sm : List Entity) (si i : Nat),
      (∃ p, pools[si]? = some p ∧ p.denseEntities_ = sm) →
      (∀ (j : Nat) (p : SparseSet T), rest[j]? = some p → pools[i + j]? = some p) →
      ∃ p, pools[(set_smallest rest sm si i).2]? = some p ∧
        p.denseEntities_ = (set_smallest rest sm si i).1 := by
  intro rest
  induction rest with
  | nil => intro sm si i h _; exact h
  | cons q rest ih =>
    intro sm si i h hrest
    unfold set_smallest
    have hshift : ∀ (j : Nat) (p : SparseSet T), rest[j]? = some p →
        pools[i + 1 + j]? = some p := by
      intro j p hj
      have := hrest (j + 1) p (by simpa using hj)
      rw [show i + 1 + j = i + (j + 1) by omega]; exact this
    by_cases hc : q.entities_count < sm.length
    · rw [if_pos hc]
      exact ih _ _ _ ⟨q, by simpa using hrest 0 q (by simp), rfl⟩ hshift
    · rw [if_neg hc]
      exact ih _ _ _ h hshift

end Registry

namespace tplu

theorem apply_without_runtime_impl_eq {α : Type} (tpl : List α) (i : Nat) :
    ∀ (I : Nat), i ≤ I → apply_without_runtime_impl I i tpl = apply_without_static i tpl := by
  intro I
  induction I with
  | zero =>
    intro h
    have : i = 0 := by omega
    subst this
    rfl
  | succ I ih =>
    intro h
    unfold apply_without_runtime_impl
    by_cases he : I + 1 = i
    · rw [if_pos he, he]
    · rw [if_neg he]
      exact ih (by omega)

/-- The lambda of `apply_without` is applied to exactly the tuple elements at
the positions other than `i`. -/
theorem mem_apply_without {α : Type} (tpl : List α) (i : Nat) (hi : i < tpl.length) (p : α) :
    p ∈ apply_without i tpl ↔ ∃ k, k ≠ i ∧ tpl[k]? = some p := by
  unfold apply_without
  rw [apply_without_runtime_impl_eq tpl i _ (by omega)]
  unfold apply_without_static index_apply
  simp only [List.mem_append, List.mem_filterMap, List.mem_range, Nat.add_zero]
  constructor
  · rintro (⟨k, hk, hp⟩ | ⟨k, hk, hp⟩)
    · exact ⟨k, by omega, hp⟩
    · exact ⟨k + (i + 1), by omega, hp⟩
  · rintro ⟨k, hk, hp⟩
    have hlt : k < tpl.length := by
      by_contra hcon
      rw [List.getElem?_eq_none (by omega)] at hp
      exact absurd hp (by simp)
    by_cases h1 : k < i
    · left; exact ⟨k, h1, hp⟩
    · right
      refine ⟨k - (i + 1), by omega, ?_⟩
      rw [show k - (i + 1) + (i + 1) = k by omega]; exact hp

end tplu

namespace World

variable {V : Type}

/-- A live handle is a valid entity when no version counter is at the
sentinel. -/
theorem live_valid (w : World V) (hid : IdInv w) (hv : w.reg.versionsOk = true)
    (e : Entity) (he : e ∈ w.live) : e.isValid = true := by
  obtain ⟨fl, hid⟩ := hid
  have hlt := live_lt w fl hid e he
  obtain ⟨hlen, _, _, _, hliv, _⟩ := hid
  have hver := versionsOk_getElem? _ hv _ _ (hliv e he)
  simp only [Entity.isValid, Entity.max, Bool.and_eq_true, bne_iff_ne, ne_eq]
  exact ⟨by omega, hver⟩

theorem PoolGood_pool_of (w : World V) (hp : PoolsInv w) (i : Nat) :
    PoolGood (w.reg.pool_of i) w.live := by
  cases hq : w.reg.get_pool_at i with
  | none => rw [Registry.pool_of_eq_new _ _ hq]; exact PoolGood_new _
  | some p => rw [Registry.pool_of_eq_of_get_pool_at _ _ _ hq]; exact hp i p hq

end World

/-- The valid entries of the dense array of a tight pool are pairwise
different. -/
theorem tight_filter_nodup {T : Type} (p : SparseSet T) (ht : Tight p) (q : Entity → Bool)
    (hq : ∀ e, q e = true → e.isValid = true) : (p.denseEntities_.filter q).Nodup := by
  have hpw : p.denseEntities_.Pairwise (fun a b => a.isValid = true → a ≠ b) := by
    rw [List.pairwise_iff_getElem]
    intro i j hi hj hij hv heq
    have h1 := ht i _ (List.getElem?_eq_getElem hi) hv
    have h2 := ht j _ (List.getElem?_eq_getElem hj) (by rw [← heq]; exact hv)
    rw [← heq, h1] at h2
    simp only [Option.some.injEq] at h2
    omega
  have h2 := List.Pairwise.filter q hpw
  exact List.Pairwise.imp_of_mem (fun {a b} ha _ hR => hR (hq a (List.mem_filter.mp ha).2)) h2

/-- C6: in every state of a run on a fresh registry that uses live handles
only and keeps all sizes representable, after the whole-entity `remove(e)` of
a handle `e` (live or not), for every component type the pool does not contain
`e`, `has<T>(e)` is false and `try_get<T>(e)` is null. -/
theorem C6_remove_clears_all_components {V : Type} (ops : List (Op V)) (w : World V)
    (hrun : World.run ops = some w)
    (hok : World.alongRun Registry.sizesOk World.new ops = true)
    (e : Entity) (r' : Registry V) (hrem : w.reg.remove e = some r') (index : Nat) :
    (r'.pool_of index).contains e = false ∧
      r'.has [index] e = some (r'.get_pool index, false) ∧
      r'.try_get index e = some (r'.get_pool index, none) := by
  obtain ⟨_, hp, _⟩ := World.run_inv ops w hrun hok
  obtain ⟨hpools, _⟩ := Registry.remove_spec _ _ _ hrem
  have hc : (r'.pool_of index).contains e = false := by
    cases hq : r'.get_pool_at index with
    | none => rw [Registry.pool_of_eq_new _ _ hq]; exact new_contains e
    | some p' =>
      rw [Registry.pool_of_eq_of_get_pool_at _ _ _ hq]
      obtain ⟨p, hpj, hr⟩ :=
        (Registry.remove_from_pools_spec e _ _ hpools index).1 p'
          (Registry.get_pool_at_lt _ _ _ hq)
      exact (PoolGood_remove p p' w.live
        (hp index p (Registry.get_pool_at_of_getElem? _ _ _ hpj)) e hr).2.1
  refine ⟨hc, ?_, ?_⟩
  · unfold Registry.has
    simp only [Registry.get_pool_at_get_pool_self, hc, Bool.false_eq_true, if_false]
  · unfold Registry.try_get
    simp only [Registry.get_pool_at_get_pool_self, SparseSet.try_get, hc, Bool.false_eq_true,
      if_false]

/-- C1: in every state of a run on a fresh registry that uses live handles
only and keeps all sizes representable, with no version counter at the
sentinel, `view<T1..Tn>()` for `n >= 2` component types succeeds and its
entity list has no duplicates and contains exactly the entities that every
one of the `n` pools contains, which are exactly those for which
`has<T1..Tn>` is true. -/
theorem C1_view_is_intersection {V : Type} (ops : List (Op V)) (w : World V)
    (hrun : World.run ops = some w)
    (hok : World.alongRun Registry.sizesOk World.new ops = true)
    (hv : w.reg.versionsOk = true) (idxs : List Nat) (hn : 2 ≤ idxs.length) :
    ∃ l, w.reg.view idxs = some (idxs.foldl Registry.get_pool w.reg, l) ∧ l.Nodup ∧
      (∀ e, e ∈ l ↔ ∀ i ∈ idxs, (w.reg.pool_of i).contains e = true) ∧
      (∀ e, e ∈ l ↔ ∃ r', w.reg.has idxs e = some (r', true)) := by
  obtain ⟨hid, hp, _⟩ := World.run_inv ops w hrun hok
  have hgood := World.PoolGood_pool_of w hp
  -- the tuple of pools
  have hmap : idxs.mapM (idxs.foldl Registry.get_pool w.reg).get_pool_at
      = some (idxs.map w.reg.pool_of) :=
    Registry.mapM_eq_some_map _ _ idxs
      (fun i hi => Registry.get_pool_at_foldl_mem idxs w.reg i hi)
  obtain ⟨i0, rest, hidxs⟩ : ∃ i0 rest, idxs = i0 :: rest := by
    cases idxs with
    | nil => simp at hn
    | cons a l => exact ⟨a, l, rfl⟩
  have hhead : (idxs.map w.reg.pool_of).head? = some (w.reg.pool_of i0) := by
    rw [hidxs]; rfl
  -- the driver
  obtain ⟨drv, hdrv, hsm⟩ := Registry.set_smallest_spec (idxs.map w.reg.pool_of)
    (idxs.map w.reg.pool_of) (w.reg.pool_of i0).get_entities 0 0
    ⟨w.reg.pool_of i0, by rw [hidxs]; simp, rfl⟩
    (fun j p hj => by rw [Nat.zero_add]; exact hj)
  generalize hres : Registry.set_smallest (idxs.map w.reg.pool_of)
    (w.reg.pool_of i0).get_entities 0 0 = res at hdrv hsm
  obtain ⟨sm, si⟩ := res
  simp only at hdrv hsm
  have hsi : si < (idxs.map w.reg.pool_of).length := by
    by_contra hcon
    rw [List.getElem?_eq_none (by omega)] at hdrv
    exact absurd hdrv (by simp)
  have hpools_good : ∀ p ∈ idxs.map w.reg.pool_of, PoolGood p w.live := by
    intro p hp'
    obtain ⟨i, _, rfl⟩ := List.mem_map.mp hp'
    exact hgood i
  have hdrv_mem : drv ∈ idxs.map w.reg.pool_of := List.getElem?_mem hdrv
  have hdrv_good := hpools_good drv hdrv_mem
  -- membership in the entity list
  have hmem : ∀ e, e ∈ sm.filter (fun entity => entity.isValid &&
        (tplu.apply_without si (idxs.map w.reg.pool_of)).all
          fun poolptr => poolptr.contains entity)
      ↔ ∀ i ∈ idxs, (w.reg.pool_of i).contains e = true := by
    intro e
    simp only [List.mem_filter, Bool.and_eq_true, List.all_eq_true]
    constructor
    · rintro ⟨hin, hval, hall⟩ i hi
      obtain ⟨k, hklt, hk⟩ := List.getElem_of_mem (List.mem_map_of_mem w.reg.pool_of hi)
      by_cases hks : k = si
      · subst hks
        rw [List.getElem?_eq_getElem hklt, hk] at hdrv
        simp only [Option.some.injEq] at hdrv
        rw [hdrv]
        obtain ⟨d, hd⟩ := List.mem_iff_getElem?.mp hin
        rw [← hsm] at hd
        exact (SparseSet.contains_iff _ _).mpr ⟨d, hdrv_good.2.1 d e hd hval, hd⟩
      · exact hall _ ((tplu.mem_apply_without _ si hsi _).mpr
          ⟨k, hks, by rw [List.getElem?_eq_getElem hklt, hk]⟩)
    · intro hall
      have hallp : ∀ p ∈ idxs.map w.reg.pool_of, p.contains e = true := by
        intro p hp'
        obtain ⟨i, hi, rfl⟩ := List.mem_map.mp hp'
        exact hall i hi
      have hce := hallp drv hdrv_mem
      obtain ⟨d, _, hd⟩ := (SparseSet.contains_iff _ _).mp hce
      refine ⟨by rw [← hsm]; exact List.getElem?_mem hd,
        World.live_valid w hid hv e (hdrv_good.2.2 e hce), ?_⟩
      intro p hp'
      obtain ⟨k, _, hk⟩ := (tplu.mem_apply_without _ si hsi _).mp hp'
      exact hallp p (List.getElem?_mem hk)
  refine ⟨_, ?_, ?_, hmem, ?_⟩
  · unfold Registry.view
    simp only [hmap, hhead, hres]
  · rw [← hsm]
    exact tight_filter_nodup drv hdrv_good.2.1 _
      (fun e he => by
        simp only [Bool.and_eq_true] at he
        exact he.1)
  · intro e
    rw [hmem]
    obtain ⟨r', hr'⟩ := Registry.has_spec e idxs w.reg
    constructor
    · intro hall
      refine ⟨r', ?_⟩
      rw [hr']
      have : (idxs.all fun i => (w.reg.pool_of i).contains e) = true := by
        rw [List.all_eq_true]; exact hall
      rw [this]
    · rintro ⟨r'', hr''⟩
      rw [hr'] at hr''
      simp only [Option.some.injEq, Prod.mk.injEq] at hr''
      exact List.all_eq_true.mp hr''.2

set_option maxRecDepth 100000 in
/-- Witness of C6: in Scenario A the entity `e1`, which holds both
components, is removed; afterwards the pool of component 0 does not contain
it. -/
theorem C6_remove_clears_all_components_witness :
    World.run scenarioAOps = some scenarioA ∧
      World.alongRun Registry.sizesOk World.new scenarioAOps = true ∧
      (scenarioA.reg.pool_of 0).contains ⟨1, 0⟩ = true ∧
      scenarioA.reg.remove ⟨1, 0⟩ = some ((scenarioA.reg.remove ⟨1, 0⟩).getD Registry.new) ∧
      (((scenarioA.reg.remove ⟨1, 0⟩).getD Registry.new).pool_of 0).contains ⟨1, 0⟩ = false ∧
      ((scenarioA.reg.remove ⟨1, 0⟩).getD Registry.new).has [0] ⟨1, 0⟩
        = some (((scenarioA.reg.remove ⟨1, 0⟩).getD Registry.new).get_pool 0, false) ∧
      ((scenarioA.reg.remove ⟨1, 0⟩).getD Registry.new).try_get 0 ⟨1, 0⟩
        = some (((scenarioA.reg.remove ⟨1, 0⟩).getD Registry.new).get_pool 0, none) :=
  ⟨by rfl, by decide, by decide, by rfl,
    C6_remove_clears_all_components scenarioAOps scenarioA (by rfl) (by decide) ⟨1, 0⟩
      ((scenarioA.reg.remove ⟨1, 0⟩).getD Registry.new) (by rfl) 0⟩

set_option maxRecDepth 100000 in
/-- Witness of C1: Scenario A, where `view<Position, Health>()` is `{e1}`. -/
theorem C1_view_is_intersection_witness :
    World.run scenarioAOps = some scenarioA ∧
      World.alongRun Registry.sizesOk World.new scenarioAOps = true ∧
      scenarioA.reg.versionsOk = true ∧
      scenarioA.reg.view [0, 1]
        = some ([0, 1].foldl Registry.get_pool scenarioA.reg, [⟨1, 0⟩]) ∧
      ∃ l, scenarioA.reg.view [0, 1] = some ([0, 1].foldl Registry.get_pool scenarioA.reg, l) ∧
        l.Nodup ∧
        (∀ e, e ∈ l ↔ ∀ i ∈ [0, 1], (scenarioA.reg.pool_of i).contains e = true) ∧
        (∀ e, e ∈ l ↔ ∃ r', scenarioA.reg.has [0, 1] e = some (r', true)) :=
  ⟨by rfl, by decide, by decide, by decide,
    C1_view_is_intersection scenarioAOps scenarioA (by rfl) (by decide) (by decide) [0, 1]
      (by decide)⟩

/-! ## Theorems: calls with arbitrary handles -/

namespace Registry

variable {V : Type}

/-- Induction along a sequence of calls: a property kept by every call
between two states that pass the check `g` holds at the end of every sequence
that passes `g`. -/
theorem callsFrom_invariant (g : Registry V → Bool) (I : Registry V → Prop)
    (hstep : ∀ (r r' : Registry V) (op : Op V), I r → g r = true → g r' = true →
      r.call op = some r' → I r') :
    ∀ (ops : List (Op V)) (r r' : Registry V), I r → callsFrom r ops = some r' →
      alongCalls g r ops = true → I r' ∧ g r' = true := by
  intro ops
  induction ops with
  | nil =>
    intro r r' hI hrun hok
    simp only [callsFrom, Option.some.injEq] at hrun
    subst hrun
    exact ⟨hI, hok⟩
  | cons op ops ih =>
    intro r r' hI hrun hok
    simp only [callsFrom] at hrun
    simp only [alongCalls, Bool.and_eq_true] at hok
    cases hs : r.call op with
    | none => rw [hs] at hrun; simp at hrun
    | some r1 =>
      rw [hs] at hrun hok
      simp only at hrun hok
      have hg1 : g r1 = true := by
        cases ops with
        | nil => exact hok.2
        | cons op2 ops2 =>
          have := hok.2
          simp only [alongCalls, Bool.and_eq_true] at this
          exact this.1
      exact ih r1 r' (hstep r r1 op hI hok.1 hg1 hs) hrun hok.2

/-- A run that uses live handles only is a sequence of calls. -/
theorem callsFrom_of_runFrom :
    ∀ (ops : List (Op V)) (w w' : World V), World.runFrom w ops = some w' →
      callsFrom w.reg ops = some w'.reg := by
  intro ops
  induction ops with
  | nil =>
    intro w w' h
    simp only [World.runFrom, Option.some.injEq] at h
    subst h
    rfl
  | cons op ops ih =>
    intro w w' h
    simp only [World.runFrom] at h
    cases hs : w.step op with
    | none => rw [hs] at h; simp at h
    | some w1 =>
      rw [hs] at h
      simp only at h
      have hc : w.reg.call op = some w1.reg := by
        cases op with
        | create =>
          simp only [World.step] at hs
          cases hc : w.reg.create with
          | none => rw [hc] at hs; simp at hs
          | some res =>
            obtain ⟨r, e⟩ := res
            rw [hc] at hs
            simp only [Option.some.injEq] at hs
            subst hs
            simp only [call, hc]
        | add i e c =>
          simp only [World.step] at hs
          by_cases hl : e ∈ w.live
          · rw [if_pos hl] at hs
            cases hc : w.reg.add i e c with
            | none => rw [hc] at hs; simp at hs
            | some res =>
              obtain ⟨r, x⟩ := res
              rw [hc] at hs
              simp only [Option.some.injEq] at hs
              subst hs
              simp only [call, hc]
          · rw [if_neg hl] at hs; simp at hs
        | remove_component i e =>
          simp only [World.step] at hs
          by_cases hl : e ∈ w.live
          · rw [if_pos hl] at hs
            cases hc : w.reg.remove_component i e with
            | none => rw [hc] at hs; simp at hs
            | some r =>
              rw [hc] at hs
              simp only [Option.some.injEq] at hs
              subst hs
              simp only [call, hc]
          · rw [if_neg hl] at hs; simp at hs
        | remove e =>
          simp only [World.step] at hs
          by_cases hl : e ∈ w.live
          · rw [if_pos hl] at hs
            cases hc : w.reg.remove e with
            | none => rw [hc] at hs; simp at hs
            | some r =>
              rw [hc] at hs
              simp only [Option.some.injEq] at hs
              subst hs
              simp only [call, hc]
          · rw [if_neg hl] at hs; simp at hs
      simp only [callsFrom, hc]
      exact ih w1 w' h

end Registry

/-- A pool that satisfies the pool invariant satisfies it after `insert`, when
the dense array stays representable. -/
theorem PoolInv_insert {T : Type} (p p' : SparseSet T) (hg : PoolInv p) (c x : T)
    (e : Entity) (hi : p.insert c e = some (p', x))
    (hle : p'.denseEntities_.length ≤ SIZE_MAX) : PoolInv p' := by
  obtain ⟨chain, hinv⟩ := hg
  by_cases hc : p.contains e = true
  · obtain ⟨y, hy, _⟩ := SparseSet.insert_contained_spec p chain hinv c e hc
    rw [hy] at hi
    simp only [Option.some.injEq, Prod.mk.injEq] at hi
    obtain ⟨rfl, _⟩ := hi
    exact ⟨chain, hinv⟩
  · have hc' : p.contains e = false := by simpa using hc
    obtain ⟨s1, chain', idx, hx, hi', _⟩ := SparseSet.insert_fresh_spec p chain hinv c e hc'
    have hs1 : s1 = p' := by
      rw [hx] at hi
      simp only [Option.some.injEq, Prod.mk.injEq] at hi
      exact hi.1
    subst hs1
    exact ⟨chain', (hi' hle).1⟩

/-- A pool that satisfies the pool invariant satisfies it after `remove`. -/
theorem PoolInv_remove {T : Type} (p p' : SparseSet T) (hg : PoolInv p) (e : Entity)
    (hr : p.remove e = some p') : PoolInv p' := by
  obtain ⟨chain, hinv⟩ := hg
  by_cases hc : p.contains e = true
  · obtain ⟨s1, d, hx, hinv', _⟩ := SparseSet.remove_contained_spec p chain hinv e hc
    have hs1 : s1 = p' := by
      rw [hx] at hr
      exact Option.some.inj hr
    subst hs1
    exact ⟨_, hinv'⟩
  · have hc' : p.contains e = false := by simpa using hc
    rw [SparseSet.remove_not_contained p e hc'] at hr
    simp only [Option.some.injEq] at hr
    subst hr
    exact ⟨chain, hinv⟩

theorem PoolsOk_new {V : Type} : PoolsOk (Registry.new : Registry V) := by
  intro i p hp
  simp [Registry.new, Registry.get_pool_at] at hp

theorem PoolsOk_get_pool {V : Type} (r : Registry V) (h : PoolsOk r) (i : Nat) :
    PoolsOk (r.get_pool i) := by
  intro j p hp
  rcases Registry.get_pool_at_get_pool_cases r i j p hp with h1 | ⟨_, _, rfl⟩
  · exact h j p h1
  · exact ⟨[], SparseSet.PoolInvWith_new⟩

/-- Every call, with whatever handle, keeps the invariant of the pools. -/
theorem call_poolsOk {V : Type} (r r' : Registry V) (op : Op V) (hp : PoolsOk r)
    (hs' : r'.sizesOk = true) (h : r.call op = some r') : PoolsOk r' := by
  cases op with
  | create =>
    simp only [Registry.call] at h
    cases hc : r.create with
    | none => rw [hc] at h; simp at h
    | some res =>
      obtain ⟨r1, e⟩ := res
      rw [hc] at h
      simp only [Option.some.injEq] at h
      subst h
      obtain ⟨hpools, _⟩ := Registry.create_spec _ _ _ hc
      intro j p hj
      have hj' : r.get_pool_at j = some p := by
        unfold Registry.get_pool_at at hj ⊢
        rw [← hpools]; exact hj
      exact hp j p hj'
  | add i e c =>
    simp only [Registry.call] at h
    cases hc : r.add i e c with
    | none => rw [hc] at h; simp at h
    | some res =>
      obtain ⟨r1, x⟩ := res
      rw [hc] at h
      simp only [Option.some.injEq] at h
      subst h
      unfold Registry.add at hc
      simp only [Registry.get_pool_at_get_pool_self] at hc
      cases hins : (r.pool_of i).insert c e with
      | none => rw [hins] at hc; simp at hc
      | some res =>
        obtain ⟨pool', y⟩ := res
        rw [hins] at hc
        simp only [Option.some.injEq, Prod.mk.injEq] at hc
        obtain ⟨rfl, rfl⟩ := hc
        have h1 := PoolsOk_get_pool r hp i
        have hgood : PoolInv (r.pool_of i) :=
          h1 i _ (Registry.get_pool_at_get_pool_self r i)
        intro j p hj
        rw [Registry.get_pool_at_put_pool _ i j pool' _
          (Registry.get_pool_at_get_pool_self r i)] at hj
        by_cases hji : j = i
        · rw [if_pos hji] at hj
          simp only [Option.some.injEq] at hj
          subst hj
          refine PoolInv_insert _ _ hgood c y e hins ?_
          refine sizesOk_pool _ hs' i _ ?_
          rw [Registry.get_pool_at_put_pool _ i i _ _
            (Registry.get_pool_at_get_pool_self r i), if_pos rfl]
        · rw [if_neg hji] at hj
          exact h1 j p hj
  | remove_component i e =>
    simp only [Registry.call] at h
    unfold Registry.remove_component at h
    simp only [Registry.get_pool_at_get_pool_self] at h
    cases hrem : (r.pool_of i).remove e with
    | none => rw [hrem] at h; simp at h
    | some pool' =>
      rw [hrem] at h
      simp only [Option.some.injEq] at h
      subst h
      have h1 := PoolsOk_get_pool r hp i
      have hgood : PoolInv (r.pool_of i) :=
        h1 i _ (Registry.get_pool_at_get_pool_self r i)
      intro j p hj
      rw [Registry.get_pool_at_put_pool _ i j pool' _
        (Registry.get_pool_at_get_pool_self r i)] at hj
      by_cases hji : j = i
      · rw [if_pos hji] at hj
        simp only [Option.some.injEq] at hj
        subst hj
        exact PoolInv_remove _ _ hgood e hrem
      · rw [if_neg hji] at hj
        exact h1 j p hj
  | remove e =>
    simp only [Registry.call] at h
    obtain ⟨hpools, _⟩ := Registry.remove_spec _ _ _ h
    intro j p' hj
    obtain ⟨p, hpj, hrem⟩ :=
      (Registry.remove_from_pools_spec e _ _ hpools j).1 p' (Registry.get_pool_at_lt _ _ _ hj)
    exact PoolInv_remove p p' (hp j p (Registry.get_pool_at_of_getElem? _ _ _ hpj)) e hrem

/-- In every state a sequence of calls with representable sizes leads to,
every pool satisfies the pool invariant. -/
theorem calls_poolsOk {V : Type} (ops : List (Op V)) (r : Registry V)
    (hrun : Registry.calls ops = some r)
    (hok : Registry.alongCalls Registry.sizesOk Registry.new ops = true) : PoolsOk r :=
  (Registry.callsFrom_invariant Registry.sizesOk PoolsOk
    (fun r r' op hI _ hg' hs => call_poolsOk r r' op hI hg' hs)
    ops Registry.new r PoolsOk_new hrun hok).1

/-- The pool `get_pool<i>()` designates satisfies the pool invariant. -/
theorem PoolsOk_pool_of {V : Type} (r : Registry V) (hp : PoolsOk r) (i : Nat) :
    PoolInv (r.pool_of i) := by
  cases hq : r.get_pool_at i with
  | none => rw [Registry.pool_of_eq_new _ _ hq]; exact ⟨[], SparseSet.PoolInvWith_new⟩
  | some p => rw [Registry.pool_of_eq_of_get_pool_at _ _ _ hq]; exact hp i p hq

theorem IdRange_new {V : Type} : IdRange (Registry.new : Registry V) := by
  refine ⟨Or.inl rfl, ?_⟩
  intro i slot h
  simp [Registry.new] at h

/-- Every call, with whatever handle, keeps the free-list head and the index
fields of the identity table inside the table. -/
theorem call_idRange {V : Type} (r r' : Registry V) (op : Op V) (hI : IdRange r)
    (h : r.call op = some r') : IdRange r' := by
  obtain ⟨hd, hs⟩ := hI
  cases op with
  | create =>
    simp only [Registry.call] at h
    cases hc : r.create with
    | none => rw [hc] at h; simp at h
    | some res =>
      obtain ⟨r1, e⟩ := res
      rw [hc] at h
      simp only [Option.some.injEq] at h
      subst h
      obtain ⟨_, hcase⟩ := Registry.create_spec _ _ _ hc
      rcases hcase with ⟨h1, h2, h3, h4⟩ | ⟨h1, slot, h2, h3, h4, h5⟩
      · refine ⟨Or.inl (by rw [h4]; exact h1), ?_⟩
        intro i s hi
        rw [h3] at hi ⊢
        rw [List.length_append, List.length_singleton]
        by_cases hlt : i < r.entities_.length
        · rw [List.getElem?_append_left hlt] at hi
          rcases hs i s hi with h | h
          · exact Or.inl h
          · exact Or.inr (by omega)
        · rw [List.getElem?_append_right (by omega)] at hi
          have hi0 : i - r.entities_.length = 0 := by
            by_contra hcon
            rw [List.getElem?_eq_none (by simp; omega)] at hi
            exact absurd hi (by simp)
          rw [hi0] at hi
          simp only [List.getElem?_cons_zero, Option.some.injEq] at hi
          rw [← hi, h2]
          exact Or.inr (by simp)
      · have hlt : r.destroyed_ < r.entities_.length := by
          rcases hd with h | h
          · exact absurd h h1
          · exact h
        refine ⟨?_, ?_⟩
        · rw [h5, h4, List.length_set]
          exact hs _ _ h2
        · intro i s hi
          rw [h4] at hi ⊢
          rw [List.length_set]
          by_cases hi' : r.destroyed_ = i
          · subst hi'
            rw [List.getElem?_set_self hlt] at hi
            simp only [Option.some.injEq] at hi
            rw [← hi, h3]
            exact Or.inr hlt
          · rw [List.getElem?_set_ne hi'] at hi
            exact hs i s hi
  | add i e c =>
    simp only [Registry.call] at h
    cases hc : r.add i e c with
    | none => rw [hc] at h; simp at h
    | some res =>
      obtain ⟨r1, x⟩ := res
      rw [hc] at h
      simp only [Option.some.injEq] at h
      subst h
      obtain ⟨h1, h2⟩ := Registry.add_identity _ _ _ _ _ _ hc
      rw [IdRange, h1, h2]
      exact ⟨hd, hs⟩
  | remove_component i e =>
    simp only [Registry.call] at h
    obtain ⟨h1, h2⟩ := Registry.remove_component_identity _ _ _ _ h
    rw [IdRange, h1, h2]
    exact ⟨hd, hs⟩
  | remove e =>
    simp only [Registry.call] at h
    obtain ⟨_, hin, hout⟩ := Registry.remove_spec _ _ _ h
    by_cases hlt : e.index < r.entities_.length
    · obtain ⟨slot, _, h2, h3⟩ := hin hlt
      refine ⟨?_, ?_⟩
      · rw [h2, h3, List.length_set]
        exact Or.inr hlt
      · intro i s hi
        rw [h3] at hi ⊢
        rw [List.length_set]
        by_cases hi' : e.index = i
        · subst hi'
          rw [List.getElem?_set_self hlt] at hi
          simp only [Option.some.injEq] at hi
          rw [← hi]
          exact hd
        · rw [List.getElem?_set_ne hi'] at hi
          exact hs i s hi
    · obtain ⟨h2, h3⟩ := hout hlt
      rw [IdRange, h2, h3]
      exact ⟨hd, hs⟩

/-- In every state a sequence of calls leads to, the free-list head and the
index fields of the identity table are the sentinel or inside the table. -/
theorem callsFrom_idRange {V : Type} :
    ∀ (ops : List (Op V)) (r r' : Registry V), IdRange r →
      Registry.callsFrom r ops = some r' → IdRange r' := by
  intro ops
  induction ops with
  | nil =>
    intro r r' hI h
    simp only [Registry.callsFrom, Option.some.injEq] at h
    subst h
    exact hI
  | cons op ops ih =>
    intro r r' hI h
    simp only [Registry.callsFrom] at h
    cases hs : r.call op with
    | none => rw [hs] at h; simp at h
    | some r1 =>
      rw [hs] at h
      exact ih r1 r' (call_idRange r r1 op hI hs) h

/-! ## Theorems: stale handles, `has`, `create`, view order -/

namespace SparseSet

variable {T : Type}

/-- Two entities with the same index are never both contained, in any pool
state: the sparse entry of the index designates one dense slot. -/
theorem contains_same_index (s : SparseSet T) (e e' : Entity) (hi : e.index = e'.index)
    (h : s.contains e = true) (h' : s.contains e' = true) : e = e' := by
  obtain ⟨d, hd, he⟩ := (contains_iff s e).mp h
  obtain ⟨d', hd', he'⟩ := (contains_iff s e').mp h'
  rw [← hi, hd] at hd'
  simp only [Option.some.injEq] at hd'
  subst hd'
  rw [he] at he'
  exact Option.some.inj he'

/-- A contained entity has a stored component, in a pool that satisfies the
invariant. -/
theorem try_get_of_contains (s : SparseSet T) (hinv : PoolInv s) (e : Entity)
    (hc : s.contains e = true) : ∃ x, s.try_get e = some x ∧ s.get e = some x := by
  obtain ⟨chain, hpv, hsz, _⟩ := hinv
  obtain ⟨d, hd, he⟩ := (contains_iff s e).mp hc
  have hlt : d < s.denseEntities_.length := by
    by_contra hcon
    rw [List.getElem?_eq_none (by omega)] at he
    exact absurd he (by simp)
  obtain ⟨x, hx⟩ := PagedVector.get_some_of_lt s.denseComponents_ hpv d (by omega)
  refine ⟨x, ?_, ?_⟩
  · simp only [try_get, hc, if_true, get, hd, hx]
  · simp only [get, hd, hx]

end SparseSet

/-- C11: in every pool state, two entities with the same index and
different versions are never both contained. In every pool state reached from
a fresh pool, once a member `e` has been removed and an entity `e'` with the
index of `e` and another version has been inserted, `e'` occupies the dense
slot `e` had, `contains(e)` is false and `try_get(e)` is null. -/
theorem C11_same_index_exclusive {T : Type} (ops : List (PoolOp T)) (s : SparseSet T)
    (hreach : runPool ops = some s) (hle : s.denseEntities_.length ≤ SIZE_MAX)
    (e e' : Entity) (hi : e.index = e'.index) (hv : e.version ≠ e'.version) :
    (∀ t : SparseSet T, ¬ (t.contains e = true ∧ t.contains e' = true)) ∧
      (s.contains e = true → ∀ v : T,
        ∃ s1 s2 d, s.remove e = some s1 ∧ s1.insert v e' = some (s2, v) ∧
          s.sparse_at e.index = some d ∧ s2.sparse_at e'.index = some d ∧
          s2.contains e' = true ∧ s2.contains e = false ∧ s2.try_get e = none) := by
  have hne : e ≠ e' := fun h => hv (by rw [h])
  have hexcl : ∀ t : SparseSet T, ¬ (t.contains e = true ∧ t.contains e' = true) :=
    fun t h => hne (SparseSet.contains_same_index t e e' hi h.1 h.2)
  refine ⟨hexcl, ?_⟩
  intro hc v
  obtain ⟨chain, hinv⟩ := SparseSet.runPool_inv ops s hreach hle
  obtain ⟨s1, d, hrem, hinv1, hsd, _, _, _, _, _, hdes, _, _⟩ :=
    SparseSet.remove_contained_spec s chain hinv e hc
  have hc1 : s1.contains e' = false := by
    cases hq : s1.contains e' with
    | false => rfl
    | true =>
      have := (SparseSet.remove_contained_contains s chain hinv e hc s1 hrem e').mp hq
      exact absurd ⟨hc, this.2⟩ (hexcl s)
  obtain ⟨s2, chain', idx, hins, _, hsp, hde, _, _, _, _, hcase⟩ :=
    SparseSet.insert_fresh_spec s1 (d :: chain) hinv1 v e' hc1
  have hidx : idx = d := by
    rcases hcase with ⟨hd0, hnil, _⟩ | ⟨_, hidx, _⟩
    · exact absurd hnil (by simp)
    · rw [hidx, hdes]
  subst hidx
  have hc2 : s2.contains e' = true := (SparseSet.contains_iff _ _).mpr ⟨idx, hsp, hde⟩
  have hc2' : s2.contains e = false := by
    cases hq : s2.contains e with
    | false => rfl
    | true => exact absurd ⟨hq, hc2⟩ (hexcl s2)
  exact ⟨s1, s2, idx, hrem, hins, hsd, hsp, hc2, hc2', by simp [SparseSet.try_get, hc2']⟩

set_option maxRecDepth 100000 in
/-- Witness of C11: in `demoPool` the member `(1, 0)` is removed and `(1, 7)` is
inserted. -/
theorem C11_same_index_exclusive_witness :
    runPool demoPoolOps = some demoPool ∧ demoPool.contains ⟨1, 0⟩ = true ∧
      (∀ t : SparseSet Nat, ¬ (t.contains ⟨1, 0⟩ = true ∧ t.contains ⟨1, 7⟩ = true)) ∧
      (demoPool.contains ⟨1, 0⟩ = true → ∀ v : Nat,
        ∃ s1 s2 d, demoPool.remove ⟨1, 0⟩ = some s1 ∧ s1.insert v ⟨1, 7⟩ = some (s2, v) ∧
          demoPool.sparse_at (⟨1, 0⟩ : Entity).index = some d ∧
          s2.sparse_at (⟨1, 7⟩ : Entity).index = some d ∧
          s2.contains ⟨1, 7⟩ = true ∧ s2.contains ⟨1, 0⟩ = false ∧
          s2.try_get ⟨1, 0⟩ = none) :=
  ⟨by rfl, by decide,
    C11_same_index_exclusive demoPoolOps demoPool (by rfl) (by decide) ⟨1, 0⟩ ⟨1, 7⟩
      (by decide) (by decide)⟩

/-- C12: in every registry state a sequence of `create`, `add` and `remove`
calls on a fresh registry leads to, whatever handles the calls are given
(live, stale or never returned by `create`), as long as all sizes stay
representable, `has<T1..Tn>(e)` returns, and it is true iff every listed pool
contains `e`, iff `try_get<Ti>(e)` is non-null for every listed `Ti`; for the
empty list it is true. -/
theorem C12_has_iff_all_try_get {V : Type} (ops : List (Op V)) (r : Registry V)
    (hrun : Registry.calls ops = some r)
    (hok : Registry.alongCalls Registry.sizesOk Registry.new ops = true)
    (idxs : List Nat) (e : Entity) :
    ∃ r' b, r.has idxs e = some (r', b) ∧
      (b = true ↔ ∀ i ∈ idxs, (r.pool_of i).contains e = true) ∧
      (b = true ↔ ∀ i ∈ idxs, ∃ r'' x, r.try_get i e = some (r'', some x)) ∧
      r.has [] e = some (r, true) := by
  have hp := calls_poolsOk ops r hrun hok
  obtain ⟨r', hr'⟩ := Registry.has_spec e idxs r
  have htry : ∀ i, (∃ r'' x, r.try_get i e = some (r'', some x)) ↔
      (r.pool_of i).contains e = true := by
    intro i
    unfold Registry.try_get
    simp only [Registry.get_pool_at_get_pool_self, Option.some.injEq, Prod.mk.injEq]
    constructor
    · rintro ⟨r'', x, _, hx⟩
      unfold SparseSet.try_get at hx
      by_cases hc : (r.pool_of i).contains e = true
      · exact hc
      · rw [if_neg hc] at hx; exact absurd hx (by simp)
    · intro hc
      obtain ⟨x, hx, _⟩ := SparseSet.try_get_of_contains _ (PoolsOk_pool_of r hp i) e hc
      exact ⟨_, x, rfl, hx⟩
  refine ⟨r', _, hr', List.all_eq_true, ?_, rfl⟩
  rw [List.all_eq_true]
  constructor
  · intro h i hi; exact (htry i).mpr (h i hi)
  · intro h i hi; exact (htry i).mp (h i hi)

set_option maxRecDepth 100000 in
/-- Witness of C12: Scenario A, where `has<Position, Health>` is true for `e1`
and false for `e0`; and the state after `remove(e1)` and an `add<Position>`
with the stale handle `e1`, where `has<Position>(e1)` is true and
`has<Position, Health>(e1)` is false. -/
theorem C12_has_iff_all_try_get_witness :
    (Registry.calls scenarioAOps = some scenarioA.reg ∧
      Registry.alongCalls Registry.sizesOk Registry.new scenarioAOps = true ∧
      (scenarioA.reg.has [0, 1] ⟨1, 0⟩).map Prod.snd = some true ∧
      (scenarioA.reg.has [0, 1] ⟨0, 0⟩).map Prod.snd = some false ∧
      ∃ r' b, scenarioA.reg.has [0, 1] ⟨1, 0⟩ = some (r', b) ∧
        (b = true ↔ ∀ i ∈ [0, 1], (scenarioA.reg.pool_of i).contains ⟨1, 0⟩ = true) ∧
        (b = true ↔ ∀ i ∈ [0, 1],
          ∃ r'' x, scenarioA.reg.try_get i ⟨1, 0⟩ = some (r'', some x)) ∧
        scenarioA.reg.has [] ⟨1, 0⟩ = some (scenarioA.reg, true)) ∧
    (Registry.calls staleAddOps = some staleAddReg ∧
      Registry.alongCalls Registry.sizesOk Registry.new staleAddOps = true ∧
      (staleAddReg.has [0] ⟨1, 0⟩).map Prod.snd = some true ∧
      (staleAddReg.has [0, 1] ⟨1, 0⟩).map Prod.snd = some false ∧
      ∃ r' b, staleAddReg.has [0] ⟨1, 0⟩ = some (r', b) ∧
        (b = true ↔ ∀ i ∈ [0], (staleAddReg.pool_of i).contains ⟨1, 0⟩ = true) ∧
        (b = true ↔ ∀ i ∈ [0],
          ∃ r'' x, staleAddReg.try_get i ⟨1, 0⟩ = some (r'', some x)) ∧
        staleAddReg.has [] ⟨1, 0⟩ = some (staleAddReg, true)) :=
  ⟨⟨by rfl, by decide, by decide, by decide,
      C12_has_iff_all_try_get scenarioAOps scenarioA.reg (by rfl) (by decide) [0, 1] ⟨1, 0⟩⟩,
    ⟨by rfl, by decide, by decide, by decide,
      C12_has_iff_all_try_get staleAddOps staleAddReg (by rfl) (by decide) [0] ⟨1, 0⟩⟩⟩

/-- C13: in every registry state a sequence of `create`, `add` and `remove`
calls on a fresh registry leads to, whatever handles the calls are given
(live, stale or never returned by `create`), with no version counter at the
sentinel and an identity table that can still grow, `create()` succeeds and
returns a handle that is valid and is not `Entity::null`, whether a slot is
appended or popped from the free list. -/
theorem C13_create_returns_valid {V : Type} (ops : List (Op V)) (r : Registry V)
    (hrun : Registry.calls ops = some r)
    (hv : r.versionsOk = true) (hroom : r.entities_.length < SIZE_MAX) :
    ∃ r' e, r.create = some (r', e) ∧ e.isValid = true ∧ e ≠ Entity.null ∧
      (r.destroyed_ = SIZE_MAX → e = ⟨r.entities_.length, 0⟩) ∧
      (r.destroyed_ ≠ SIZE_MAX → e.index = r.destroyed_) := by
  obtain ⟨hrange, _⟩ := callsFrom_idRange ops Registry.new r IdRange_new hrun
  have hnull : ∀ e : Entity, e.isValid = true → e ≠ Entity.null := by
    intro e he hcon
    rw [hcon] at he
    simp [Entity.isValid, Entity.null] at he
  by_cases hd : r.destroyed_ = SIZE_MAX
  · have hval : (⟨r.entities_.length, 0⟩ : Entity).isValid = true := by
      simp only [Entity.isValid, Entity.max, Bool.and_eq_true, bne_iff_ne, ne_eq]
      exact ⟨by omega, by simp [SIZE_MAX]⟩
    refine ⟨{ destroyed_ := r.destroyed_,
              entities_ := r.entities_ ++ [⟨r.entities_.length, 0⟩],
              pools_ := r.pools_ },
      ⟨r.entities_.length, 0⟩, ?_, hval, hnull _ hval, fun _ => rfl,
      fun h => absurd hd h⟩
    unfold Registry.create
    rw [if_pos hd]
  · have hlt : r.destroyed_ < r.entities_.length := by
      rcases hrange with h | h
      · exact absurd h hd
      · exact h
    have hslot : r.entities_[r.destroyed_]? = some (r.entities_.get ⟨r.destroyed_, hlt⟩) :=
      List.getElem?_eq_getElem hlt
    generalize r.entities_.get ⟨r.destroyed_, hlt⟩ = slot at hslot
    have hval : (⟨r.destroyed_, slot.version⟩ : Entity).isValid = true := by
      simp only [Entity.isValid, Entity.max, Bool.and_eq_true, bne_iff_ne, ne_eq]
      exact ⟨hd, World.versionsOk_getElem? _ hv _ _ hslot⟩
    refine ⟨{ destroyed_ := slot.index,
              entities_ := r.entities_.set r.destroyed_ ⟨r.destroyed_, slot.version⟩,
              pools_ := r.pools_ },
      ⟨r.destroyed_, slot.version⟩, ?_, hval, hnull _ hval,
      fun h => absurd h hd, fun _ => rfl⟩
    unfold Registry.create
    rw [if_neg hd]
    simp only [hslot]

set_option maxRecDepth 100000 in
/-- Witness of C13: after `create(); remove(e); remove(e)`, where the second
`remove` is given a stale handle, the free list is not empty and `create`
pops the slot and returns the valid handle `(0, 2)`. -/
theorem C13_create_returns_valid_witness :
    Registry.calls twiceRemovedOps = some twiceRemovedReg ∧
      twiceRemovedReg.versionsOk = true ∧ twiceRemovedReg.entities_.length < SIZE_MAX ∧
      twiceRemovedReg.destroyed_ ≠ SIZE_MAX ∧
      (twiceRemovedReg.create).map Prod.snd = some ⟨0, 2⟩ ∧
      ∃ r' e, twiceRemovedReg.create = some (r', e) ∧ e.isValid = true ∧ e ≠ Entity.null ∧
        (twiceRemovedReg.destroyed_ = SIZE_MAX → e = ⟨twiceRemovedReg.entities_.length, 0⟩) ∧
        (twiceRemovedReg.destroyed_ ≠ SIZE_MAX → e.index = twiceRemovedReg.destroyed_) :=
  ⟨by rfl, by decide, by decide, by decide, by decide,
    C13_create_returns_valid twiceRemovedOps twiceRemovedReg (by rfl) (by decide)
      (by decide)⟩

/-! ## Theorems: the order of the component list of a view -/

/-- The entity list of `view<Comps...>` in a state that satisfies the
invariants: it has no duplicates and holds exactly the entities every listed
pool contains. -/
theorem view_members {V : Type} (w : World V) (hid : IdInv w) (hp : PoolsInv w)
    (hv : w.reg.versionsOk = true) (idxs : List Nat) (hne : idxs ≠ []) :
    ∃ l, w.reg.view idxs = some (idxs.foldl Registry.get_pool w.reg, l) ∧ l.Nodup ∧
      (∀ e, e ∈ l ↔ ∀ i ∈ idxs, (w.reg.pool_of i).contains e = true) := by
  have hgood := World.PoolGood_pool_of w hp
  -- the tuple of pools
  have hmap : idxs.mapM (idxs.foldl Registry.get_pool w.reg).get_pool_at
      = some (idxs.map w.reg.pool_of) :=
    Registry.mapM_eq_some_map _ _ idxs
      (fun i hi => Registry.get_pool_at_foldl_mem idxs w.reg i hi)
  obtain ⟨i0, rest, hidxs⟩ : ∃ i0 rest, idxs = i0 :: rest := by
    cases idxs with
    | nil => exact absurd rfl hne
    | cons a l => exact ⟨a, l, rfl⟩
  have hhead : (idxs.map w.reg.pool_of).head? = some (w.reg.pool_of i0) := by
    rw [hidxs]; rfl
  -- the driver
  obtain ⟨drv, hdrv, hsm⟩ := Registry.set_smallest_spec (idxs.map w.reg.pool_of)
    (idxs.map w.reg.pool_of) (w.reg.pool_of i0).get_entities 0 0
    ⟨w.reg.pool_of i0, by rw [hidxs]; simp, rfl⟩
    (fun j p hj => by rw [Nat.zero_add]; exact hj)
  generalize hres : Registry.set_smallest (idxs.map w.reg.pool_of)
    (w.reg.pool_of i0).get_entities 0 0 = res at hdrv hsm
  obtain ⟨sm, si⟩ := res
  simp only at hdrv hsm
  have hsi : si < (idxs.map w.reg.pool_of).length := by
    by_contra hcon
    rw [List.getElem?_eq_none (by omega)] at hdrv
    exact absurd hdrv (by simp)
  have hpools_good : ∀ p ∈ idxs.map w.reg.pool_of, PoolGood p w.live := by
    intro p hp'
    obtain ⟨i, _, rfl⟩ := List.mem_map.mp hp'
    exact hgood i
  have hdrv_mem : drv ∈ idxs.map w.reg.pool_of := List.getElem?_mem hdrv
  have hdrv_good := hpools_good drv hdrv_mem
  -- membership in the entity list
  have hmem : ∀ e, e ∈ sm.filter (fun entity => entity.isValid &&
        (tplu.apply_without si (idxs.map w.reg.pool_of)).all
          fun poolptr => poolptr.contains entity)
      ↔ ∀ i ∈ idxs, (w.reg.pool_of i).contains e = true := by
    intro e
    simp only [List.mem_filter, Bool.and_eq_true, List.all_eq_true]
    constructor
    · rintro ⟨hin, hval, hall⟩ i hi
      obtain ⟨k, hklt, hk⟩ := List.getElem_of_mem (List.mem_map_of_mem w.reg.pool_of hi)
      by_cases hks : k = si
      · subst hks
        rw [List.getElem?_eq_getElem hklt, hk] at hdrv
        simp only [Option.some.injEq] at hdrv
        rw [hdrv]
        obtain ⟨d, hd⟩ := List.mem_iff_getElem?.mp hin
        rw [← hsm] at hd
        exact (SparseSet.contains_iff _ _).mpr ⟨d, hdrv_good.2.1 d e hd hval, hd⟩
      · exact hall _ ((tplu.mem_apply_without _ si hsi _).mpr
          ⟨k, hks, by rw [List.getElem?_eq_getElem hklt, hk]⟩)
    · intro hall
      have hallp : ∀ p ∈ idxs.map w.reg.pool_of, p.contains e = true := by
        intro p hp'
        obtain ⟨i, hi, rfl⟩ := List.mem_map.mp hp'
        exact hall i hi
      have hce := hallp drv hdrv_mem
      obtain ⟨d, _, hd⟩ := (SparseSet.contains_iff _ _).mp hce
      refine ⟨by rw [← hsm]; exact List.getElem?_mem hd,
        World.live_valid w hid hv e (hdrv_good.2.2 e hce), ?_⟩
      intro p hp'
      obtain ⟨k, _, hk⟩ := (tplu.mem_apply_without _ si hsi _).mp hp'
      exact hallp p (List.getElem?_mem hk)
  refine ⟨_, ?_, ?_, hmem⟩
  · unfold Registry.view
    simp only [hmap, hhead, hres]
  · rw [← hsm]
    exact tight_filter_nodup drv hdrv_good.2.1 _
      (fun e he => by
        simp only [Bool.and_eq_true] at he
        exact he.1)

/-- C14: in every state of a run on a fresh registry that uses live handles
only and keeps all sizes representable, with no version counter at the
sentinel, `view<A, B>()` and `view<B, A>()` both succeed, contain the same
entities and report the same `size()`; the two entity lists are permutations
of each other. -/
theorem C14_view_order_independent {V : Type} (ops : List (Op V)) (w : World V)
    (hrun : World.run ops = some w)
    (hok : World.alongRun Registry.sizesOk World.new ops = true)
    (hv : w.reg.versionsOk = true) (a b : Nat) :
    ∃ r1 l1 r2 l2, w.reg.view [a, b] = some (r1, l1) ∧ w.reg.view [b, a] = some (r2, l2) ∧
      (∀ e, e ∈ l1 ↔ e ∈ l2) ∧ MultiView.size l1 = MultiView.size l2 ∧ l1.Perm l2 := by
  obtain ⟨hid, hp, _⟩ := World.run_inv ops w hrun hok
  obtain ⟨l1, h1, hn1, hm1⟩ := view_members w hid hp hv [a, b] (by simp)
  obtain ⟨l2, h2, hn2, hm2⟩ := view_members w hid hp hv [b, a] (by simp)
  have hsame : ∀ e, e ∈ l1 ↔ e ∈ l2 := by
    intro e
    rw [hm1, hm2]
    simp only [List.mem_cons, List.mem_singleton, List.not_mem_nil, or_false, forall_eq_or_imp,
      forall_eq]
    exact And.comm
  have hperm : l1.Perm l2 := (List.perm_ext_iff_of_nodup hn1 hn2).mpr hsame
  exact ⟨_, l1, _, l2, h1, h2, hsame, hperm.length_eq, hperm⟩

set_option maxRecDepth 100000 in
/-- Witness of C14: Scenario A, where both orders give `{e1}`. -/
theorem C14_view_order_independent_witness :
    World.run scenarioAOps = some scenarioA ∧
      World.alongRun Registry.sizesOk World.new scenarioAOps = true ∧
      scenarioA.reg.versionsOk = true ∧
      (scenarioA.reg.view [1, 0]).map Prod.snd = some [⟨1, 0⟩] ∧
      ∃ r1 l1 r2 l2, scenarioA.reg.view [0, 1] = some (r1, l1) ∧
        scenarioA.reg.view [1, 0] = some (r2, l2) ∧
        (∀ e, e ∈ l1 ↔ e ∈ l2) ∧ MultiView.size l1 = MultiView.size l2 ∧ l1.Perm l2 :=
  ⟨by rfl, by decide, by decide, by decide,
    C14_view_order_independent scenarioAOps scenarioA (by rfl) (by decide) (by decide) 0 1⟩

/-! ## Theorems: null pool slots and the choice of the driver pool -/

set_option maxRecDepth 100000 in
/-- C15, evaluated on the code: after `create(); add<T1>(e, 5)` on a fresh
registry, where `T1` has family index 1, the pool array holds a null pointer
at slot 0 below the pool at slot 1, and the whole-entity `remove(e)`
dereferences it: the call does not return. -/
theorem C15_remove_dereferences_null_slot :
    World.run nullSlotOps = some nullSlotWorld ∧
      nullSlotWorld.reg.pools_.length = 2 ∧
      nullSlotWorld.reg.pools_[0]? = some none ∧
      (nullSlotWorld.reg.get_pool_at 1).isSome = true ∧
      (⟨0, 0⟩ : Entity) ∈ nullSlotWorld.live ∧
      nullSlotWorld.reg.remove ⟨0, 0⟩ = none := by
  refine ⟨by rfl, by decide, by decide, by decide, by decide, by decide⟩

set_option maxRecDepth 100000 in
/-- C17, evaluated on the code: in `holesWorld` the pool of component 0 has
three live entities (and two holes, dense length five) and the pool of
component 1 has four live entities; `view<T0, T1>()` takes the pool at list
position 1, that of component 1, as driver, while `view<T1, T0>()` takes the
pool at list position 1, that of component 0. -/
theorem C17_driver_not_fewest_live :
    World.run holesOps = some holesWorld ∧
      (holesWorld.reg.pool_of 0).entities_count = 3 ∧
      (holesWorld.reg.pool_of 0).get_entities.length = 5 ∧
      (holesWorld.reg.pool_of 1).entities_count = 4 ∧
      (holesWorld.reg.pool_of 1).get_entities.length = 4 ∧
      holesWorld.reg.view_driver [0, 1] = some 1 ∧
      holesWorld.reg.view_driver [1, 0] = some 1 := by
  refine ⟨by rfl, by decide, by decide, by decide, by decide, by decide, by decide⟩

/-! ## Theorems: lifecycle hooks -/

namespace SparseSet

variable {T : Type}

/-- The hooked `insert` computes what `insert` computes, and calls `onAdd`
once, in the state before the live count is incremented, exactly when the
entity was not contained. -/
theorem insert_hooked_eq (s : SparseSet T) (v : T) (e : Entity) :
    s.insert_hooked v e =
      match s.insert v e with
      | none => none
      | some (s', x) =>
        some ((s', x),
          if s.contains e then []
          else [(.onAdd x e, { s' with entities_ := s.entities_ })]) := by
  unfold insert insert_hooked
  by_cases hc : s.contains e = true
  · simp only [hc, if_true]
    cases h1 : s.sparse_at e.index with
    | none => rfl
    | some i =>
      simp only
      cases h2 : s.denseComponents_.get PAGE_SIZE i with
      | none => rfl
      | some x => rfl
  · simp only [hc, Bool.false_eq_true, if_false]
    by_cases hd : s.destroyed_ = SIZE_MAX
    · simp only [hd, if_true]
      cases h1 : s.denseComponents_.push_back PAGE_SIZE v with
      | none => rfl
      | some dc =>
        simp only
        cases h2 : sparse_put (ensure_page s.sparse_ (e.index / PAGE_SIZE)) e.index
            s.denseComponents_.size with
        | none => rfl
        | some sp' =>
          simp only
          cases h3 : dc.get PAGE_SIZE s.denseComponents_.size with
          | none => rfl
          | some x => rfl
    · simp only [hd, if_false]
      cases h0 : s.denseEntities_[s.destroyed_]? with
      | none => rfl
      | some hole =>
        simp only
        cases h1 : s.denseComponents_.set PAGE_SIZE s.destroyed_ v with
        | none => rfl
        | some dc =>
          simp only
          cases h2 : sparse_put (ensure_page s.sparse_ (e.index / PAGE_SIZE)) e.index
              s.destroyed_ with
          | none => rfl
          | some sp' =>
            simp only
            cases h3 : dc.get PAGE_SIZE s.destroyed_ with
            | none => rfl
            | some x => rfl

/-- The hooked `remove` computes what `remove` computes, and calls `onRemove`
once, in the state before the call, exactly when the entity was contained. -/
theorem remove_hooked_eq (s : SparseSet T) (e : Entity) :
    s.remove_hooked e =
      if s.contains e then
        match s.get e with
        | none => none
        | some self =>
          match s.remove e with
          | none => none
          | some s' => some (s', [(.onRemove self e, s)])
      else some (s, []) := by
  unfold remove remove_hooked get
  by_cases hc : s.contains e = true
  · simp only [hc, Bool.not_true, Bool.false_eq_true, if_false, if_true]
    cases h1 : s.sparse_at e.index with
    | none => rfl
    | some d =>
      simp only
      cases h2 : s.denseComponents_.get PAGE_SIZE d with
      | none => rfl
      | some self =>
        simp only
        by_cases hlt : d < s.denseEntities_.length
        · simp only [hlt, if_true]
          cases h3 : sparse_put s.sparse_ e.index SIZE_MAX with
          | none => rfl
          | some sp' => rfl
        · simp only [hlt, if_false]
  · simp only [hc, Bool.not_false, if_true, Bool.false_eq_true, if_false]

/-- One call on a hooked pool: the same pool as without hooks, the hook calls
the contract asks for, each made in a state where the entity is a member. -/
theorem apply_hooked_spec (s s' : SparseSet T) (hinv : PoolInv s) (op : PoolOp T)
    (h : op.apply s = some s') :
    ∃ calls, op.apply_hooked s = some (s', calls) ∧
      calls.map (fun c => c.1.erase) = expected_hooks_step s op ∧
      ∀ c ∈ calls, c.1.madeIn c.2 := by
  obtain ⟨chain, hinv⟩ := hinv
  cases op with
  | insert v e =>
    simp only [PoolOp.apply] at h
    simp only [PoolOp.apply_hooked, insert_hooked_eq, expected_hooks_step]
    by_cases hc : s.contains e = true
    · obtain ⟨x, hx, _⟩ := insert_contained_spec s chain hinv v e hc
      rw [hx] at h
      simp only [Option.some.injEq] at h
      subst h
      rw [hx]
      simp only [hc, if_true]
      exact ⟨[], rfl, rfl, fun c hcm => by simp at hcm⟩
    · have hc' : s.contains e = false := by simpa using hc
      obtain ⟨s1, chain', idx, hx, _, hsp, hde, hget, _⟩ :=
        insert_fresh_spec s chain hinv v e hc'
      rw [hx] at h
      simp only [Option.some.injEq] at h
      subst h
      rw [hx]
      simp only [hc', Bool.false_eq_true, if_false]
      refine ⟨_, rfl, rfl, ?_⟩
      intro c hcm
      simp only [List.mem_singleton] at hcm
      subst hcm
      refine ⟨?_, ?_⟩
      · exact (contains_iff _ _).mpr ⟨idx, hsp, hde⟩
      · show SparseSet.get _ e = some v
        simp only [get, sparse_at]
        simp only [sparse_at] at hsp
        rw [hsp]
        exact hget
  | remove e =>
    simp only [PoolOp.apply] at h
    simp only [PoolOp.apply_hooked, remove_hooked_eq, expected_hooks_step]
    by_cases hc : s.contains e = true
    · obtain ⟨x, _, hx⟩ := try_get_of_contains s ⟨chain, hinv⟩ e hc
      simp only [hc, if_true, hx, h]
      refine ⟨_, rfl, rfl, ?_⟩
      intro c hcm
      simp only [List.mem_singleton] at hcm
      subst hcm
      exact ⟨hc, hx⟩
    · have hc' : s.contains e = false := by simpa using hc
      rw [remove_not_contained s e hc'] at h
      simp only [Option.some.injEq] at h
      subst h
      simp only [hc', Bool.false_eq_true, if_false]
      exact ⟨[], rfl, rfl, fun c hcm => by simp at hcm⟩

/-- A sequence of calls on a hooked pool. -/
theorem runPoolHookedFrom_spec (ops : List (PoolOp T)) :
    ∀ (s0 s : SparseSet T), (s0.denseEntities_.length ≤ SIZE_MAX → PoolInv s0) →
      runPoolFrom s0 ops = some s → s.denseEntities_.length ≤ SIZE_MAX →
      ∃ calls, runPoolHookedFrom s0 ops = some (s, calls) ∧
        calls.map (fun c => c.1.erase) = expected_hooks s0 ops ∧
        ∀ c ∈ calls, c.1.madeIn c.2 := by
  induction ops with
  | nil =>
    intro s0 s _ h _
    simp only [runPoolFrom, Option.some.injEq] at h
    subst h
    exact ⟨[], rfl, rfl, fun c hc => by simp at hc⟩
  | cons op ops ih =>
    intro s0 s hs0 h hle
    simp only [runPoolFrom] at h
    cases hop : op.apply s0 with
    | none => rw [hop] at h; simp at h
    | some s1 =>
      rw [hop] at h
      simp only at h
      -- lengths only grow along the run
      have hmono1 := apply_length_le s0 s1 op hop
      have hinv1 : s1.denseEntities_.length ≤ SIZE_MAX → PoolInv s1 := fun hle1 =>
        apply_inv s0 s1 (hs0 (by omega)) op hop hle1
      have hmono : ∀ (ops : List (PoolOp T)) (a b : SparseSet T), runPoolFrom a ops = some b →
          a.denseEntities_.length ≤ b.denseEntities_.length := by
        intro ops
        induction ops with
        | nil =>
          intro a b hab
          simp only [runPoolFrom, Option.some.injEq] at hab
          rw [hab]
        | cons o os ihm =>
          intro a b hab
          simp only [runPoolFrom] at hab
          cases ho : o.apply a with
          | none => rw [ho] at hab; simp at hab
          | some a1 =>
            rw [ho] at hab
            simp only at hab
            exact Nat.le_trans (apply_length_le a a1 o ho) (ihm a1 b hab)
      have hle1 : s1.denseEntities_.length ≤ SIZE_MAX :=
        Nat.le_trans (hmono ops s1 s h) hle
      obtain ⟨calls1, hc1, he1, hm1⟩ := apply_hooked_spec s0 s1 (hs0 (by omega)) op hop
      obtain ⟨calls2, hc2, he2, hm2⟩ := ih s1 s hinv1 h hle
      refine ⟨calls1 ++ calls2, ?_, ?_, ?_⟩
      · simp only [runPoolHookedFrom, hc1, hc2]
      · simp only [List.map_append, expected_hooks, hop, he1, he2]
      · intro c hc
        rcases List.mem_append.mp hc with h1 | h2
        · exact hm1 c h1
        · exact hm2 c h2

end SparseSet

/-- C16: for a component type with the lifecycle capability and every
sequence of insert/remove calls on a fresh pool (hooks that do not modify the
pool, dense array representable), the hooked pool ends in the same state as
the pool without hooks, and the hook calls made are, in order, exactly one
`onAdd(e)` for each insert that adds a new member and one `onRemove(e)` for
each remove of a member, none for the other calls; each hook is called on the
component stored for `e`, in a pool state in which `e` is a member (`onAdd`
after the writes, `onRemove` before the unlinking). -/
theorem C16_hooks_once_per_change {T : Type} (ops : List (PoolOp T)) (s : SparseSet T)
    (hreach : runPool ops = some s) (hle : s.denseEntities_.length ≤ SIZE_MAX) :
    ∃ calls, runPoolHookedFrom SparseSet.new ops = some (s, calls) ∧
      calls.map (fun c => c.1.erase) = expected_hooks SparseSet.new ops ∧
      ∀ c ∈ calls, c.1.madeIn c.2 := by
  have hnew : (SparseSet.new : SparseSet T).denseEntities_.length ≤ SIZE_MAX →
      PoolInv (SparseSet.new : SparseSet T) := fun _ => ⟨[], SparseSet.PoolInvWith_new⟩
  obtain ⟨calls, hrun, hexp, hmade⟩ :=
    SparseSet.runPoolHookedFrom_spec ops SparseSet.new s hnew hreach hle
  exact ⟨calls, hrun, hexp, hmade⟩

set_option maxRecDepth 100000 in
/-- Witness of C16: `insert (0,0); insert (1,0); remove (0,0)` calls `onAdd`
twice and `onRemove` once. -/
theorem C16_hooks_once_per_change_witness :
    runPool demoPoolOps = some demoPool ∧
      expected_hooks SparseSet.new demoPoolOps
        = [.onAdd () ⟨0, 0⟩, .onAdd () ⟨1, 0⟩, .onRemove () ⟨0, 0⟩] ∧
      expected_hooks SparseSet.new
          (demoPoolOps ++ [.insert 5 ⟨1, 0⟩, .remove ⟨0, 0⟩])
        = [.onAdd () ⟨0, 0⟩, .onAdd () ⟨1, 0⟩, .onRemove () ⟨0, 0⟩] ∧
      ∃ calls, runPoolHookedFrom SparseSet.new demoPoolOps = some (demoPool, calls) ∧
        calls.map (fun c => c.1.erase) = expected_hooks SparseSet.new demoPoolOps ∧
        ∀ c ∈ calls, c.1.madeIn c.2 :=
  ⟨by rfl, by decide, by decide,
    C16_hooks_once_per_change demoPoolOps demoPool (by rfl) (by decide)⟩

/-! ## Theorems: pool runs with valid entities -/

theorem FreeChain_invalid (dense : List Entity) :
    ∀ (l : List Nat) (h : Nat), FreeChain dense h l →
      ∀ d ∈ l, ∃ e, dense[d]? = some e ∧ e.isValid = false := by
  intro l
  induction l with
  | nil => intro h _ d hd; simp at hd
  | cons a l ih =>
    intro h hc d hd
    obtain ⟨_, _, e, he, hv, hrest⟩ := hc
    rcases List.mem_cons.mp hd with rfl | hd'
    · exact ⟨e, he, by simp [Entity.isValid, hv]⟩
    · exact ih _ hrest d hd'

namespace SparseSet

variable {T : Type}

/-- Induction along a pool run whose calls pass the check `G`: a property
kept by every such call holds at the end, as long as the dense array stays
representable. -/
theorem runPoolFrom_guarded (G : SparseSet T → PoolOp T → Bool) (I : SparseSet T → Prop)
    (hstep : ∀ (s s' : SparseSet T) (op : PoolOp T), I s → G s op = true →
      op.apply s = some s' → s'.denseEntities_.length ≤ SIZE_MAX → I s') :
    ∀ (ops : List (PoolOp T)) (s0 s : SparseSet T),
      (s0.denseEntities_.length ≤ SIZE_MAX → I s0) → runPoolFrom s0 ops = some s →
      alongPool G s0 ops = true → s.denseEntities_.length ≤ SIZE_MAX → I s := by
  intro ops
  induction ops with
  | nil =>
    intro s0 s h0 h _ hle
    simp only [runPoolFrom, Option.some.injEq] at h
    subst h
    exact h0 hle
  | cons op ops ih =>
    intro s0 s h0 h hg hle
    simp only [runPoolFrom] at h
    simp only [alongPool, Bool.and_eq_true] at hg
    cases hop : op.apply s0 with
    | none => rw [hop] at h; simp at h
    | some s1 =>
      rw [hop] at h hg
      simp only at h hg
      have hmono := apply_length_le s0 s1 op hop
      exact ih s1 s (fun hle1 => hstep s0 s1 op (h0 (by omega)) hg.1 hop hle1) h hg.2 hle

/-- A call with a valid entity keeps the pool invariant and keeps every dense
slot off the free list valid. -/
theorem apply_validDense (s s' : SparseSet T) (op : PoolOp T)
    (hI : ∃ chain, PoolInvWith s chain ∧ ValidDense s chain)
    (hg : PoolOp.validEntity s op = true) (h : op.apply s = some s')
    (hle : s'.denseEntities_.length ≤ SIZE_MAX) :
    ∃ chain, PoolInvWith s' chain ∧ ValidDense s' chain := by
  obtain ⟨chain, hinv, hvd⟩ := hI
  cases op with
  | insert v e =>
    simp only [PoolOp.apply] at h
    simp only [PoolOp.validEntity] at hg
    by_cases hc : s.contains e = true
    · obtain ⟨x, hx, _⟩ := insert_contained_spec s chain hinv v e hc
      rw [hx] at h
      simp only [Option.some.injEq] at h
      subst h
      exact ⟨chain, hinv, hvd⟩
    · obtain ⟨s1, chain', idx, hx, hi, _, hde, _, hdframe, _, _, hcase⟩ :=
        insert_fresh_spec s chain hinv v e (by simpa using hc)
      rw [hx] at h
      simp only [Option.some.injEq] at h
      subst h
      refine ⟨chain', (hi hle).1, ?_⟩
      intro d e2 he2 hni
      by_cases hd : d = idx
      · subst hd
        rw [hde] at he2
        simp only [Option.some.injEq] at he2
        subst he2
        exact hg
      · rw [hdframe d hd] at he2
        refine hvd d e2 he2 ?_
        rcases hcase with ⟨_, hch, _⟩ | ⟨_, _, hch, _⟩
        · rw [hch]; simp
        · rw [hch]
          intro hcon
          rcases List.mem_cons.mp hcon with h1 | h1
          · exact hd h1
          · exact hni h1
  | remove e =>
    simp only [PoolOp.apply] at h
    by_cases hc : s.contains e = true
    · obtain ⟨s1, d0, hx, hinv', _, hsde, _, _, hde, _⟩ :=
        remove_contained_spec s chain hinv e hc
      rw [hx] at h
      simp only [Option.some.injEq] at h
      subst h
      refine ⟨d0 :: chain, hinv', ?_⟩
      intro d e2 he2 hni
      have hne : d0 ≠ d := fun hcon => hni (by rw [hcon]; simp)
      rw [hde, List.getElem?_set_ne hne] at he2
      exact hvd d e2 he2 (fun hcon => hni (List.mem_cons_of_mem _ hcon))
    · rw [remove_not_contained s e (by simpa using hc)] at h
      simp only [Option.some.injEq] at h
      subst h
      exact ⟨chain, hinv, hvd⟩

/-- Every pool state a run with valid entities produces satisfies the pool
invariant, and its holes are exactly the slots of the free list. -/
theorem runPool_validDense (ops : List (PoolOp T)) (s : SparseSet T)
    (hreach : runPool ops = some s) (hvalid : alongPool PoolOp.validEntity SparseSet.new ops = true)
    (hle : s.denseEntities_.length ≤ SIZE_MAX) :
    ∃ chain, PoolInvWith s chain ∧
      ∀ (d : Nat) (e : Entity), s.denseEntities_[d]? = some e →
        (d ∈ chain ↔ e.isValid = false) := by
  obtain ⟨chain, hinv, hvd⟩ := runPoolFrom_guarded PoolOp.validEntity
    (fun s => ∃ chain, PoolInvWith s chain ∧ ValidDense s chain) apply_validDense
    ops SparseSet.new s
    (fun _ => ⟨[], PoolInvWith_new, fun d e he => by simp [SparseSet.new] at he⟩)
    hreach hvalid hle
  refine ⟨chain, hinv, ?_⟩
  intro d e he
  obtain ⟨_, _, _, _, hchain, _⟩ := hinv
  constructor
  · intro hd
    obtain ⟨e', he', hv'⟩ := FreeChain_invalid _ _ _ hchain d hd
    rw [he] at he'
    simp only [Option.some.injEq] at he'
    subst he'
    exact hv'
  · intro hv
    by_contra hni
    have := hvd d e he hni
    rw [hv] at this
    exact absurd this (by simp)

/-- The number of valid entries of the dense array, when the holes are
exactly the slots of a duplicate-free list `chain`. -/
theorem length_filter_valid (dense : List Entity) (chain : List Nat) (hnd : chain.Nodup)
    (hlt : ∀ d ∈ chain, d < dense.length)
    (hiff : ∀ (d : Nat) (e : Entity), dense[d]? = some e → (d ∈ chain ↔ e.isValid = false)) :
    (dense.filter Entity.isValid).length + chain.length = dense.length := by
  have h1 : (dense.filter Entity.isValid).length
      = ((List.range dense.length).filter (SingleView.validAt dense)).length := by
    rw [← SingleView.filter_valid_eq, List.length_map]
  have h2 : (List.range dense.length).filter (SingleView.validAt dense)
      = (List.range dense.length).filter (fun d => !decide (d ∈ chain)) := by
    apply List.filter_congr
    intro d hd
    have hd' : d < dense.length := by simpa using hd
    have hiff' := hiff d dense[d] (List.getElem?_eq_getElem hd')
    simp only [SingleView.validAt, List.getElem?_eq_getElem hd']
    by_cases hm : d ∈ chain
    · simp [hm, hiff'.mp hm]
    · have : dense[d].isValid = true := by
        cases hq : dense[d].isValid with
        | true => rfl
        | false => exact absurd (hiff'.mpr hq) hm
      simp [hm, this]
  have h3 : ((List.range dense.length).filter (fun d => decide (d ∈ chain))).length
      = chain.length := by
    apply List.Perm.length_eq
    rw [List.perm_ext_iff_of_nodup ((List.nodup_range _).filter _) hnd]
    intro d
    simp only [List.mem_filter, List.mem_range, decide_eq_true_eq]
    exact ⟨fun h => h.2, fun h => ⟨hlt d h, h⟩⟩
  have h4 := List.length_eq_length_filter_add (l := List.range dense.length)
    (fun d => decide (d ∈ chain))
  rw [List.length_range] at h4
  rw [h1, h2]
  omega

end SparseSet

/-! ## Theorems: dense slots, live count and free list of a pool -/

namespace SparseSet

variable {T : Type}

/-- When the index of `e` is not taken, no member other than `e` has it. -/
theorem index_taken_false (s : SparseSet T) (e : Entity) (h : s.index_taken e = false)
    (e' : Entity) (hc : s.contains e' = true) (hi : e'.index = e.index) : e' = e := by
  obtain ⟨d, hd, he'⟩ := (contains_iff s e').mp hc
  unfold index_taken at h
  rw [← hi, hd] at h
  simp only [he'] at h
  by_contra hne
  simp [hi, hne] at h

/-- A disciplined call keeps the pool invariant, keeps every valid dense
entry indexed by the sparse array, and keeps the members valid. -/
theorem apply_tight (s s' : SparseSet T) (op : PoolOp T)
    (hI : PoolInv s ∧ Tight s ∧ ∀ e, s.contains e = true → e.isValid = true)
    (hg : PoolOp.disciplined s op = true) (h : op.apply s = some s')
    (hle : s'.denseEntities_.length ≤ SIZE_MAX) :
    PoolInv s' ∧ Tight s' ∧ ∀ e, s'.contains e = true → e.isValid = true := by
  obtain ⟨⟨chain, hinv⟩, ht, hmv⟩ := hI
  cases op with
  | insert v e =>
    simp only [PoolOp.apply] at h
    simp only [PoolOp.disciplined, Bool.and_eq_true, Bool.not_eq_true'] at hg
    by_cases hc : s.contains e = true
    · obtain ⟨x, hx, _⟩ := insert_contained_spec s chain hinv v e hc
      rw [hx] at h
      simp only [Option.some.injEq] at h
      subst h
      exact ⟨⟨chain, hinv⟩, ht, hmv⟩
    · have hc' : s.contains e = false := by simpa using hc
      cases hins : s.insert v e with
      | none => rw [hins] at h; simp at h
      | some res =>
        obtain ⟨s1, x⟩ := res
        rw [hins] at h
        simp only [Option.some.injEq] at h
        subst h
        obtain ⟨s2, chain', idx, hx, hi, _⟩ := insert_fresh_spec s chain hinv v e hc'
        have hs : s2 = s1 := by
          rw [hx] at hins
          simp only [Option.some.injEq, Prod.mk.injEq] at hins
          exact hins.1
        subst hs
        refine ⟨⟨chain', (hi hle).1⟩, ?_, ?_⟩
        · refine insert_fresh_tight s chain hinv v e hc' s2 x hins ht ?_
          intro e' he' hidx
          have := index_taken_false s e hg.2 e' he' hidx
          subst this
          rw [hc'] at he'
          exact absurd he' (by simp)
        · intro e' he'
          rcases (insert_fresh_contains s chain hinv v e hc' s2 x hins hle e').mp he' with
            rfl | ⟨_, hm⟩
          · exact hg.1
          · exact hmv e' hm
  | remove e =>
    simp only [PoolOp.apply] at h
    by_cases hc : s.contains e = true
    · obtain ⟨s1, d0, hx, hinv', _⟩ := remove_contained_spec s chain hinv e hc
      have hs : s1 = s' := by
        rw [hx] at h
        exact Option.some.inj h
      subst hs
      refine ⟨⟨_, hinv'⟩, remove_contained_tight s chain hinv e hc s1 h ht, ?_⟩
      intro e' he'
      exact hmv e' ((remove_contained_contains s chain hinv e hc s1 h e').mp he').2
    · rw [remove_not_contained s e (by simpa using hc)] at h
      simp only [Option.some.injEq] at h
      subst h
      exact ⟨⟨chain, hinv⟩, ht, hmv⟩

end SparseSet

set_option maxRecDepth 100000 in
/-- C18 as stated fails: after `insert(1, (0,0)); insert(2, (0,1))` on a fresh
pool, dense slot 0 holds the valid entity `(0,0)`, the sparse entry of index 0
designates slot 1, and the pool does not contain `(0,0)`. -/
theorem C18_orphaned_valid_entry :
    runPool orphanOps = some orphanPool ∧
      orphanPool.denseEntities_[0]? = some ⟨0, 0⟩ ∧ (⟨0, 0⟩ : Entity).isValid = true ∧
      orphanPool.sparse_at 0 = some 1 ∧ orphanPool.contains ⟨0, 0⟩ = false := by
  refine ⟨by rfl, by decide, by decide, by decide, by decide⟩

/-- C18, amended: in every pool state reached from a fresh pool by insert and
remove calls in which every inserted entity is valid and is not inserted
while the pool contains another entity with the same index (dense array
representable), every valid entry at dense slot `d` has its sparse entry equal
to `d`, an entity is contained iff some dense slot holds it as a valid entry,
and a contained entity occupies exactly one dense slot. -/
theorem C18_valid_slot_iff_member {T : Type} (ops : List (PoolOp T)) (s : SparseSet T)
    (hreach : runPool ops = some s)
    (hdisc : alongPool PoolOp.disciplined SparseSet.new ops = true)
    (hle : s.denseEntities_.length ≤ SIZE_MAX) :
    (∀ (d : Nat) (e : Entity), s.denseEntities_[d]? = some e → e.isValid = true →
        s.sparse_at e.index = some d) ∧
      (∀ e, s.contains e = true ↔
        ∃ d : Nat, s.denseEntities_[d]? = some e ∧ e.isValid = true) ∧
      (∀ e, s.contains e = true →
        ∃ d : Nat, s.denseEntities_[d]? = some e ∧
          ∀ d' : Nat, s.denseEntities_[d']? = some e → d' = d) := by
  obtain ⟨_, ht, hmv⟩ := SparseSet.runPoolFrom_guarded PoolOp.disciplined
    (fun s => PoolInv s ∧ Tight s ∧ ∀ e, s.contains e = true → e.isValid = true)
    SparseSet.apply_tight ops SparseSet.new s
    (fun _ => ⟨⟨[], SparseSet.PoolInvWith_new⟩,
      fun d e he => by simp [SparseSet.new] at he,
      fun e he => by rw [new_contains] at he; exact absurd he (by simp)⟩)
    hreach hdisc hle
  refine ⟨ht, ?_, ?_⟩
  · intro e
    constructor
    · intro hc
      obtain ⟨d, _, hd⟩ := (SparseSet.contains_iff s e).mp hc
      exact ⟨d, hd, hmv e hc⟩
    · rintro ⟨d, hd, hv⟩
      exact (SparseSet.contains_iff s e).mpr ⟨d, ht d e hd hv, hd⟩
  · intro e hc
    obtain ⟨d, hsd, hd⟩ := (SparseSet.contains_iff s e).mp hc
    refine ⟨d, hd, ?_⟩
    intro d' hd'
    have := ht d' e hd' (hmv e hc)
    rw [hsd] at this
    exact (Option.some.inj this).symm

set_option maxRecDepth 100000 in
/-- Witness of C18, amended: `demoPool`, whose run inserts indices 0 and 1
once each. -/
theorem C18_valid_slot_iff_member_witness :
    runPool demoPoolOps = some demoPool ∧
      alongPool PoolOp.disciplined SparseSet.new demoPoolOps = true ∧
      alongPool PoolOp.disciplined SparseSet.new orphanOps = false ∧
      (∀ (d : Nat) (e : Entity), demoPool.denseEntities_[d]? = some e → e.isValid = true →
          demoPool.sparse_at e.index = some d) ∧
      (∀ e, demoPool.contains e = true ↔
        ∃ d : Nat, demoPool.denseEntities_[d]? = some e ∧ e.isValid = true) ∧
      (∀ e, demoPool.contains e = true →
        ∃ d : Nat, demoPool.denseEntities_[d]? = some e ∧
          ∀ d' : Nat, demoPool.denseEntities_[d']? = some e → d' = d) :=
  ⟨by rfl, by decide, by decide,
    C18_valid_slot_iff_member demoPoolOps demoPool (by rfl) (by decide) (by decide)⟩

/-- C19: in every pool state reached from a fresh pool by insert and remove
calls that insert valid entities only (dense array representable),
`entities_count()` is the number of dense slots that hold a valid entity, which
is the dense length minus the number of holes, and no `remove` makes the
counter wrap: it returns with a count that is not larger. -/
theorem C19_count_is_valid_slots {T : Type} (ops : List (PoolOp T)) (s : SparseSet T)
    (hreach : runPool ops = some s)
    (hvalid : alongPool PoolOp.validEntity SparseSet.new ops = true)
    (hle : s.denseEntities_.length ≤ SIZE_MAX) :
    s.entities_count = (s.denseEntities_.filter Entity.isValid).length ∧
      s.entities_count + (s.denseEntities_.filter (fun e => !e.isValid)).length
        = s.denseEntities_.length ∧
      ∀ e, ∃ s', s.remove e = some s' ∧ s'.entities_count ≤ s.entities_count := by
  obtain ⟨chain, hinv, hiff⟩ := SparseSet.runPool_validDense ops s hreach hvalid hle
  have hinv' := hinv
  obtain ⟨_, _, _, _, hchain, hnd, _, hcount⟩ := hinv
  have hlen := SparseSet.length_filter_valid s.denseEntities_ chain hnd
    (FreeChain_lt _ _ _ hchain) hiff
  have hsplit := List.length_eq_length_filter_add (l := s.denseEntities_) Entity.isValid
  have hcnt : s.entities_count = (s.denseEntities_.filter Entity.isValid).length := by
    simp only [SparseSet.entities_count]; omega
  refine ⟨hcnt, ?_, ?_⟩
  · rw [hcnt]; omega
  · intro e
    by_cases hc : s.contains e = true
    · obtain ⟨s', d, hx, _, _, _, _, hdec, _⟩ :=
        SparseSet.remove_contained_spec s chain hinv' e hc
      exact ⟨s', hx, by simp only [SparseSet.entities_count]; omega⟩
    · exact ⟨s, SparseSet.remove_not_contained s e (by simpa using hc), Nat.le_refl _⟩

set_option maxRecDepth 100000 in
/-- Witness of C19: `demoPool` has one live component and one hole. -/
theorem C19_count_is_valid_slots_witness :
    runPool demoPoolOps = some demoPool ∧
      alongPool PoolOp.validEntity SparseSet.new demoPoolOps = true ∧
      demoPool.entities_count = 1 ∧ demoPool.denseEntities_.length = 2 ∧
      demoPool.entities_count = (demoPool.denseEntities_.filter Entity.isValid).length ∧
      demoPool.entities_count
          + (demoPool.denseEntities_.filter (fun e => !e.isValid)).length
        = demoPool.denseEntities_.length ∧
      ∀ e, ∃ s', demoPool.remove e = some s' ∧
        s'.entities_count ≤ demoPool.entities_count :=
  ⟨by rfl, by decide, by decide, by decide,
    C19_count_is_valid_slots demoPoolOps demoPool (by rfl) (by decide) (by decide)⟩

/-- C20: in every pool state reached from a fresh pool by insert and remove
calls that insert valid entities only (dense array below `SIZE_MAX`), the
chain from the free-list head along the index fields of the holes visits
every hole exactly once, visits holes only, and ends at the sentinel. An
insert of a new member made while a hole exists writes the slot at the head
of the chain and leaves the dense length unchanged; the dense array grows only
when there is no hole; and a remove makes the freed slot the head of the
chain, so that the next insert reuses the most recently freed slot. -/
theorem C20_free_list_visits_holes {T : Type} (ops : List (PoolOp T)) (s : SparseSet T)
    (hreach : runPool ops = some s)
    (hvalid : alongPool PoolOp.validEntity SparseSet.new ops = true)
    (hroom : s.denseEntities_.length < SIZE_MAX) :
    ∃ chain, FreeChain s.denseEntities_ s.destroyed_ chain ∧ chain.Nodup ∧
      (∀ (d : Nat) (e : Entity), s.denseEntities_[d]? = some e →
        (d ∈ chain ↔ e.isValid = false)) ∧
      (∀ (v : T) (e : Entity), s.contains e = false →
        ∃ s', s.insert v e = some (s', v) ∧
          (chain ≠ [] → chain.head? = some s.destroyed_ ∧
            s'.denseEntities_ = s.denseEntities_.set s.destroyed_ e ∧
            s'.denseEntities_.length = s.denseEntities_.length ∧
            FreeChain s'.denseEntities_ s'.destroyed_ chain.tail) ∧
          (chain = [] → s'.denseEntities_ = s.denseEntities_ ++ [e]) ∧
          (s.denseEntities_.length < s'.denseEntities_.length → chain = [])) ∧
      (∀ e : Entity, s.contains e = true →
        ∃ s' d, s.remove e = some s' ∧ s.sparse_at e.index = some d ∧ s'.destroyed_ = d ∧
          FreeChain s'.denseEntities_ s'.destroyed_ (d :: chain)) := by
  obtain ⟨chain, hinv, hiff⟩ :=
    SparseSet.runPool_validDense ops s hreach hvalid (by omega)
  have hinv' := hinv
  obtain ⟨_, _, _, _, hchain, hnd, _, _⟩ := hinv
  refine ⟨chain, hchain, hnd, hiff, ?_, ?_⟩
  · intro v e hc
    obtain ⟨s', chain', idx, hx, hi, _, _, _, _, _, _, hcase⟩ :=
      SparseSet.insert_fresh_spec s chain hinv' v e hc
    refine ⟨s', hx, ?_, ?_, ?_⟩
    · intro hne
      rcases hcase with ⟨_, hnil, _⟩ | ⟨_, hidx, hch, hde⟩
      · exact absurd hnil hne
      · subst hidx
        have hlen : s'.denseEntities_.length = s.denseEntities_.length := by
          rw [hde]; simp
        obtain ⟨_, _, _, _, hchain', _⟩ := (hi (by omega)).1
        refine ⟨by rw [hch]; rfl, hde, hlen, ?_⟩
        rw [hch]
        exact hchain'
    · intro hnil
      rcases hcase with ⟨_, _, _, _, hde⟩ | ⟨_, _, hch, _⟩
      · exact hde
      · rw [hnil] at hch; exact absurd hch (by simp)
    · intro hlt
      rcases hcase with ⟨_, hnil, _⟩ | ⟨_, _, _, hde⟩
      · exact hnil
      · rw [hde] at hlt; simp at hlt
  · intro e hc
    obtain ⟨s', d, hx, hinv1, hsd, _, _, _, _, _, hdes, _⟩ :=
      SparseSet.remove_contained_spec s chain hinv' e hc
    obtain ⟨_, _, _, _, hchain1, _⟩ := hinv1
    exact ⟨s', d, hx, hsd, hdes, hchain1⟩

set_option maxRecDepth 100000 in
/-- Witness of C20: `demoPool`, whose free list is the single hole at dense
slot 0. -/
theorem C20_free_list_visits_holes_witness :
    runPool demoPoolOps = some demoPool ∧
      alongPool PoolOp.validEntity SparseSet.new demoPoolOps = true ∧
      FreeChain demoPool.denseEntities_ demoPool.destroyed_ [0] ∧
      ∃ chain, FreeChain demoPool.denseEntities_ demoPool.destroyed_ chain ∧ chain.Nodup ∧
        (∀ (d : Nat) (e : Entity), demoPool.denseEntities_[d]? = some e →
          (d ∈ chain ↔ e.isValid = false)) ∧
        (∀ (v : Nat) (e : Entity), demoPool.contains e = false →
          ∃ s', demoPool.insert v e = some (s', v) ∧
            (chain ≠ [] → chain.head? = some demoPool.destroyed_ ∧
              s'.denseEntities_ = demoPool.denseEntities_.set demoPool.destroyed_ e ∧
              s'.denseEntities_.length = demoPool.denseEntities_.length ∧
              FreeChain s'.denseEntities_ s'.destroyed_ chain.tail) ∧
            (chain = [] → s'.denseEntities_ = demoPool.denseEntities_ ++ [e]) ∧
            (demoPool.denseEntities_.length < s'.denseEntities_.length → chain = [])) ∧
        (∀ e : Entity, demoPool.contains e = true →
          ∃ s' d, demoPool.remove e = some s' ∧ demoPool.sparse_at e.index = some d ∧
            s'.destroyed_ = d ∧ FreeChain s'.denseEntities_ s'.destroyed_ (d :: chain)) :=
  ⟨by rfl, by decide,
    ⟨rfl, by decide, ⟨SIZE_MAX, Entity.max⟩, by decide, rfl, rfl⟩,
    C20_free_list_visits_holes demoPoolOps demoPool (by rfl) (by decide) (by decide)⟩

/-! ## `SingleView::each` against iteration with `get` -/

/-- A map in `Option` over a mapped list is the map of the composition. -/
theorem mapM_option_map {α β γ : Type} (g : α → β) (f : β → Option γ) :
    ∀ (l : List α), (l.map g).mapM f = l.mapM (fun a => f (g a)) := by
  intro l
  induction l with
  | nil => rfl
  | cons a l ih => rw [List.map_cons, List.mapM_cons, List.mapM_cons, ih]

/-- Two functions that agree on the elements of a list have the same map in
`Option`. -/
theorem mapM_option_congr {α β : Type} (f g : α → Option β) :
    ∀ (l : List α), (∀ a ∈ l, f a = g a) → l.mapM f = l.mapM g := by
  intro l
  induction l with
  | nil => intro _; rfl
  | cons a l ih =>
    intro h
    rw [List.mapM_cons, List.mapM_cons, h a (by simp), ih (fun b hb => h b (by simp [hb]))]

/-- A map in `Option` that succeeds on every element succeeds, with one result
per element. -/
theorem mapM_option_total {α β : Type} (f : α → Option β) :
    ∀ (l : List α), (∀ a ∈ l, ∃ b, f a = some b) →
      ∃ bs, l.mapM f = some bs ∧ bs.length = l.length := by
  intro l
  induction l with
  | nil => intro _; exact ⟨[], rfl, rfl⟩
  | cons a l ih =>
    intro h
    obtain ⟨b, hb⟩ := h a (by simp)
    obtain ⟨bs, h1, h2⟩ := ih (fun c hc => h c (by simp [hc]))
    refine ⟨b :: bs, ?_, by simp [h2]⟩
    rw [List.mapM_cons, hb, h1]
    rfl

/-- In a pool that satisfies the pool invariant and is tight, `each` and the
walk with `get` pass the same components. -/
theorem each_args_eq {T : Type} (p : SparseSet T) (hinv : PoolInv p) (ht : Tight p) :
    ∃ args,
      ((List.range p.get_entities.length).filter
          fun i => SingleView.validAt p.get_entities i).mapM
        (fun i => p.get_components.get PAGE_SIZE i) = some args ∧
      SingleView.iterate p.get_entities = some (p.get_entities.filter Entity.isValid) ∧
      (p.get_entities.filter Entity.isValid).mapM (fun e => p.get e) = some args ∧
      args.length = (p.get_entities.filter Entity.isValid).length := by
  obtain ⟨chain, hpv, hsz, _⟩ := hinv
  have hmem : ∀ i ∈ (List.range p.get_entities.length).filter
      (fun i => SingleView.validAt p.get_entities i),
      i < p.get_entities.length ∧ SingleView.validAt p.get_entities i = true := by
    intro i hi
    rw [List.mem_filter, List.mem_range] at hi
    exact hi
  obtain ⟨args, ha, hl⟩ := mapM_option_total (fun i => p.get_components.get PAGE_SIZE i) _
    (fun i hi => PagedVector.get_some_of_lt _ hpv i (by
      have := (hmem i hi).1
      simp only [SparseSet.get_entities] at this
      omega))
  have hf := SingleView.filter_valid_eq p.get_entities
  refine ⟨args, ha, ?_, ?_, ?_⟩
  · rw [SingleView.iterate, SingleView.positions_eq,
      SingleView.mapM_getElem?_of_lt _ _ (fun i hi => (hmem i hi).1), hf]
  · rw [← hf, mapM_option_map, ← ha]
    apply mapM_option_congr
    intro i hi
    obtain ⟨h1, h2⟩ := hmem i hi
    have hget : p.get_entities[i]? = some (p.get_entities.getD i Entity.null) := by
      simp [List.getD, List.getElem?_eq_getElem h1]
    have hv : (p.get_entities.getD i Entity.null).isValid = true := by
      simpa [SingleView.validAt, List.getD, List.getElem?_eq_getElem h1] using h2
    have h3 := ht i _ hget hv
    simp only [SparseSet.get, h3, SparseSet.get_components]
  · rw [hl, ← hf, List.length_map]

/-- The results of a map in `Option`, position by position. -/
theorem mapM_option_getElem {α β : Type} (f : α → Option β) :
    ∀ (l : List α) (bs : List β), l.mapM f = some bs →
      ∀ (k : Nat) (a : α), l[k]? = some a → ∃ b, bs[k]? = some b ∧ f a = some b := by
  intro l
  induction l with
  | nil => intro bs _ k a h; simp at h
  | cons x l ih =>
    intro bs h k a hk
    rw [List.mapM_cons] at h
    cases hx : f x with
    | none => rw [hx] at h; simp at h
    | some b =>
      cases hl : l.mapM f with
      | none => rw [hx, hl] at h; simp at h
      | some bs' =>
        rw [hx, hl] at h
        have hb : bs = b :: bs' := by
          have h' : some (b :: bs') = some bs := h
          exact (Option.some.inj h').symm
        subst hb
        cases k with
        | zero =>
          simp only [List.getElem?_cons_zero, Option.some.injEq] at hk
          subst hk
          exact ⟨b, by simp, hx⟩
        | succ k =>
          simp only [List.getElem?_cons_succ] at hk ⊢
          exact ih bs' hl k a hk

/-- C21: in every state of a run on a fresh registry that uses live handles
only and keeps all sizes representable, `view<T>().each(fn)` returns, and the
components it passes to `fn` are, call by call and in the same order, the
values `get<T>(e)` of the entities `e` the iterator of the view yields: one
call per yielded entity, and `each` agrees with iterating the view and
calling `fn(get<T>(e))`. -/
theorem C21_each_is_iterate_get {V : Type} (ops : List (Op V)) (w : World V)
    (hrun : World.run ops = some w)
    (hok : World.alongRun Registry.sizesOk World.new ops = true) (index : Nat) :
    ∃ (r1 : Registry V) (ents es : List Entity) (args : List V),
      w.reg.view_single index = some (r1, ents) ∧
      SingleView.iterate ents = some es ∧
      SingleView.each w.reg index = some (r1, args) ∧
      SingleView.each_by_iteration w.reg index = some (r1, args) ∧
      args.length = es.length ∧
      ∀ (k : Nat) (e : Entity), es[k]? = some e →
        ∃ c, args[k]? = some c ∧ r1.get index e = some c := by
  obtain ⟨_, hp, _⟩ := World.run_inv ops w hrun hok
  obtain ⟨hinv, ht, _⟩ := World.PoolGood_pool_of w hp index
  obtain ⟨args, h1, h2, h3, h4⟩ := each_args_eq (w.reg.pool_of index) hinv ht
  have hself := Registry.get_pool_at_get_pool_self w.reg index
  have hget : ∀ e, (w.reg.get_pool index).get index e = (w.reg.pool_of index).get e := by
    intro e
    simp only [Registry.get, hself]
  have h3' : ((w.reg.pool_of index).get_entities.filter Entity.isValid).mapM
      (fun e => (w.reg.get_pool index).get index e) = some args := by
    rw [← h3]
    exact mapM_option_congr _ _ _ (fun e _ => hget e)
  refine ⟨w.reg.get_pool index, (w.reg.pool_of index).get_entities,
    (w.reg.pool_of index).get_entities.filter Entity.isValid, args, ?_, h2, ?_, ?_, h4, ?_⟩
  · simp only [Registry.view_single, hself]
  · simp only [SingleView.each, hself, h1]
  · simp only [SingleView.each_by_iteration, Registry.view_single, hself, h2, h3']
  · exact mapM_option_getElem _ _ _ h3'

set_option maxRecDepth 100000 in
theorem C21_each_is_iterate_get_witness :
    World.run holesOps = some holesWorld ∧
      World.alongRun Registry.sizesOk World.new holesOps = true ∧
      ∃ (r1 : Registry Nat) (ents es : List Entity) (args : List Nat),
        holesWorld.reg.view_single 0 = some (r1, ents) ∧
        SingleView.iterate ents = some es ∧
        SingleView.each holesWorld.reg 0 = some (r1, args) ∧
        SingleView.each_by_iteration holesWorld.reg 0 = some (r1, args) ∧
        args.length = es.length ∧
        ∀ (k : Nat) (e : Entity), es[k]? = some e →
          ∃ c, args[k]? = some c ∧ r1.get 0 e = some c :=
  ⟨by rfl, by decide, C21_each_is_iterate_get holesOps holesWorld (by rfl) (by decide) 0⟩

/-! ## Frame properties of `insert` and `remove` -/

namespace SparseSet

variable {T : Type}

/-- The stored value of another member after `insert` of an entity the pool
did not contain. -/
theorem insert_fresh_get (s : SparseSet T) (chain : List Nat) (hinv : PoolInvWith s chain)
    (v : T) (e : Entity) (hc : s.contains e = false) (s' : SparseSet T) (x : T)
    (hi : s.insert v e = some (s', x)) (e' : Entity) (hne : e'.index ≠ e.index)
    (hc' : s.contains e' = true) : s'.get e' = s.get e' := by
  obtain ⟨s1, chain', idx, hx, _, _, _, _, _, hcframe, hspframe, hcase⟩ :=
    insert_fresh_spec s chain hinv v e hc
  rw [hx] at hi
  simp only [Option.some.injEq, Prod.mk.injEq] at hi
  obtain ⟨rfl, _⟩ := hi
  obtain ⟨_, _, _, hlen, _, _, htarget, _⟩ := hinv
  obtain ⟨d, hd, he⟩ := (contains_iff s e').mp hc'
  have hdlt : d < s.denseEntities_.length := by
    by_contra hcon
    rw [List.getElem?_eq_none (by omega)] at he
    exact absurd he (by simp)
  have hsp := hspframe e'.index hne
  rw [hd] at hsp
  simp only at hsp
  have hdi : d ≠ idx := by
    rcases hcase with ⟨_, _, _, hidx, _⟩ | ⟨_, _, hch, _⟩
    · omega
    · rcases htarget _ _ hd with h | ⟨h, _⟩
      · omega
      · intro hcon
        apply h
        rw [hch, hcon]
        exact List.mem_cons_self _ _
  simp only [get, hsp, hd, hcframe d hdi]

/-- The stored value of another member after `remove` of a member. -/
theorem remove_contained_get (s : SparseSet T) (chain : List Nat)
    (hinv : PoolInvWith s chain) (e : Entity) (hc : s.contains e = true) (s' : SparseSet T)
    (hr : s.remove e = some s') (e' : Entity) (hne : e' ≠ e) (hc' : s.contains e' = true) :
    s'.get e' = s.get e' := by
  obtain ⟨s1, d, hx, _, _, _, _, _, _, hcomp, _, _, hspframe⟩ :=
    remove_contained_spec s chain hinv e hc
  rw [hx] at hr
  simp only [Option.some.injEq] at hr
  subst hr
  have hidx : e'.index ≠ e.index := fun h => hne (contains_same_index s e' e h hc' hc)
  simp only [get, hspframe e'.index hidx, hcomp]

end SparseSet

/-- C23: in every pool state reached from a fresh pool whose dense array can
still grow, for every value `v` and entities `e`, `e'` with different
indices, `insert(v, e)` returns and changes neither `contains(e')` nor, when
`e'` is contained, the value `get(e')` returns (which exists). -/
theorem C23_insert_frame {T : Type} (ops : List (PoolOp T)) (s : SparseSet T)
    (hreach : runPool ops = some s) (hroom : s.denseEntities_.length < SIZE_MAX)
    (v : T) (e e' : Entity) (hne : e'.index ≠ e.index) :
    ∃ s' x, s.insert v e = some (s', x) ∧ s'.contains e' = s.contains e' ∧
      (s.contains e' = true → ∃ c, s.get e' = some c ∧ s'.get e' = some c) := by
  obtain ⟨chain, hinv⟩ := SparseSet.runPool_inv ops s hreach (by omega)
  have hval : s.contains e' = true → ∃ c, s.get e' = some c := by
    intro h
    obtain ⟨c, _, hg, _⟩ := SparseSet.insert_contained_spec s chain hinv v e' h
    exact ⟨c, hg⟩
  by_cases hc : s.contains e = true
  · obtain ⟨x, hx, _⟩ := SparseSet.insert_contained_spec s chain hinv v e hc
    refine ⟨s, x, hx, rfl, fun h => ?_⟩
    obtain ⟨c, hg⟩ := hval h
    exact ⟨c, hg, hg⟩
  · have hc0 : s.contains e = false := by simpa using hc
    obtain ⟨s', chain', idx, hx, _, _, _, _, _, _, _, hcase⟩ :=
      SparseSet.insert_fresh_spec s chain hinv v e hc0
    have hle : s'.denseEntities_.length ≤ SIZE_MAX := by
      rcases hcase with ⟨_, _, _, _, h⟩ | ⟨_, _, _, h⟩
      · rw [h]; simp; omega
      · rw [h]; simp; omega
    have hiff := SparseSet.insert_fresh_contains s chain hinv v e hc0 s' v hx hle e'
    refine ⟨s', v, hx, ?_, fun h => ?_⟩
    · cases h1 : s.contains e' with
      | true => exact hiff.mpr (Or.inr ⟨hne, h1⟩)
      | false =>
        cases h2 : s'.contains e' with
        | false => rfl
        | true =>
          rcases hiff.mp h2 with h3 | ⟨_, h3⟩
          · exact absurd (congrArg Entity.index h3) hne
          · rw [h1] at h3; exact absurd h3 (by simp)
    · obtain ⟨c, hg⟩ := hval h
      exact ⟨c, hg, by rw [SparseSet.insert_fresh_get s chain hinv v e hc0 s' v hx e' hne h, hg]⟩

/-- C24: in every pool state reached from a fresh pool, for entities
`e ≠ e'`, `remove(e)` returns and changes neither `contains(e')` nor, when
`e'` is contained, the value `get(e')` returns (which exists); so an entity
that is not a member before the call is not one after it. -/
theorem C24_remove_frame {T : Type} (ops : List (PoolOp T)) (s : SparseSet T)
    (hreach : runPool ops = some s) (hle : s.denseEntities_.length ≤ SIZE_MAX)
    (e e' : Entity) (hne : e ≠ e') :
    ∃ s', s.remove e = some s' ∧ s'.contains e' = s.contains e' ∧
      (s.contains e' = true → ∃ c, s.get e' = some c ∧ s'.get e' = some c) ∧
      (s.contains e' = false → s'.contains e' = false) := by
  obtain ⟨chain, hinv⟩ := SparseSet.runPool_inv ops s hreach hle
  have hval : s.contains e' = true → ∃ c, s.get e' = some c := by
    intro h
    obtain ⟨c, _, hg⟩ := SparseSet.try_get_of_contains s ⟨chain, hinv⟩ e' h
    exact ⟨c, hg⟩
  by_cases hc : s.contains e = true
  · obtain ⟨s', d, hx, _⟩ := SparseSet.remove_contained_spec s chain hinv e hc
    have hiff := SparseSet.remove_contained_contains s chain hinv e hc s' hx e'
    have heq : s'.contains e' = s.contains e' := by
      cases h1 : s.contains e' with
      | true => exact hiff.mpr ⟨fun h => hne h.symm, h1⟩
      | false =>
        cases h2 : s'.contains e' with
        | false => rfl
        | true => rw [h1] at hiff; exact absurd (hiff.mp h2).2 (by simp)
    refine ⟨s', hx, heq, fun h => ?_, fun h => by rw [heq, h]⟩
    obtain ⟨c, hg⟩ := hval h
    exact ⟨c, hg, by
      rw [SparseSet.remove_contained_get s chain hinv e hc s' hx e' (fun h => hne h.symm) h, hg]⟩
  · have hc0 : s.contains e = false := by simpa using hc
    refine ⟨s, SparseSet.remove_not_contained s e hc0, rfl, fun h => ?_, fun h => h⟩
    obtain ⟨c, hg⟩ := hval h
    exact ⟨c, hg, hg⟩

set_option maxRecDepth 100000 in
/-- Witness of C23: the entity `(200, 3)` is inserted into `demoPool`, which
allocates a sparse page and reuses the hole at dense slot 0; the member
`(1, 0)` is observed. -/
theorem C23_insert_frame_witness :
    runPool demoPoolOps = some demoPool ∧ demoPool.contains ⟨1, 0⟩ = true ∧
      ∃ s' x, demoPool.insert 12 ⟨200, 3⟩ = some (s', x) ∧
        s'.contains ⟨1, 0⟩ = demoPool.contains ⟨1, 0⟩ ∧
        (demoPool.contains ⟨1, 0⟩ = true →
          ∃ c, demoPool.get ⟨1, 0⟩ = some c ∧ s'.get ⟨1, 0⟩ = some c) :=
  ⟨by rfl, by decide,
    C23_insert_frame demoPoolOps demoPool (by rfl) (by decide) 12 ⟨200, 3⟩ ⟨1, 0⟩ (by decide)⟩

set_option maxRecDepth 100000 in
/-- Witness of C24: the member `(0, 0)` is removed from `pairPool`; the
member `(1, 0)` is observed. -/
theorem C24_remove_frame_witness :
    runPool pairPoolOps = some pairPool ∧ pairPool.contains ⟨1, 0⟩ = true ∧
      ∃ s', pairPool.remove ⟨0, 0⟩ = some s' ∧
        s'.contains ⟨1, 0⟩ = pairPool.contains ⟨1, 0⟩ ∧
        (pairPool.contains ⟨1, 0⟩ = true →
          ∃ c, pairPool.get ⟨1, 0⟩ = some c ∧ s'.get ⟨1, 0⟩ = some c) ∧
        (pairPool.contains ⟨1, 0⟩ = false → s'.contains ⟨1, 0⟩ = false) :=
  ⟨by rfl, by decide,
    C24_remove_frame pairPoolOps pairPool (by rfl) (by decide) ⟨0, 0⟩ ⟨1, 0⟩ (by decide)⟩

/-! ## The entity list of a `MultiView` is a subsequence of the driver pool -/

/-- The elements a filter keeps are those at the kept positions, in ascending
order of position. -/
theorem filter_eq_map_positions (q : Entity → Bool) (ents : List Entity) :
    ents.filter q
      = ((List.range ents.length).filter (fun d => q (ents.getD d Entity.null))).map
          (fun d => ents.getD d Entity.null) := by
  have h1 : ents = (List.range ents.length).map (fun idx => ents.getD idx Entity.null) := by
    apply List.ext_getElem
    · simp
    · intro i h1 h2
      simp [List.getD, List.getElem?_eq_getElem h1]
  conv_lhs => rw [h1]
  rw [List.filter_map]
  rfl

/-- The method `view<Comps...>` in any registry state: it returns the filter
of the dense array of the pool at the driver position. -/
theorem view_shape {V : Type} (r : Registry V) (idxs : List Nat) (hne : idxs ≠ []) :
    ∃ (k j : Nat), r.view_driver idxs = some k ∧ idxs[k]? = some j ∧
      r.view idxs = some (idxs.foldl Registry.get_pool r,
        (r.pool_of j).get_entities.filter fun e =>
          e.isValid &&
            (tplu.apply_without k (idxs.map r.pool_of)).all fun p => p.contains e) := by
  have hmap : idxs.mapM (idxs.foldl Registry.get_pool r).get_pool_at
      = some (idxs.map r.pool_of) :=
    Registry.mapM_eq_some_map _ _ idxs
      (fun i hi => Registry.get_pool_at_foldl_mem idxs r i hi)
  obtain ⟨i0, rest, hidxs⟩ : ∃ i0 rest, idxs = i0 :: rest := by
    cases idxs with
    | nil => exact absurd rfl hne
    | cons a l => exact ⟨a, l, rfl⟩
  have hhead : (idxs.map r.pool_of).head? = some (r.pool_of i0) := by
    rw [hidxs]; rfl
  obtain ⟨drv, hdrv, hsm⟩ := Registry.set_smallest_spec (idxs.map r.pool_of)
    (idxs.map r.pool_of) (r.pool_of i0).get_entities 0 0
    ⟨r.pool_of i0, by rw [hidxs]; simp, rfl⟩
    (fun j p hj => by rw [Nat.zero_add]; exact hj)
  generalize hres : Registry.set_smallest (idxs.map r.pool_of)
    (r.pool_of i0).get_entities 0 0 = res at hdrv hsm
  obtain ⟨sm, si⟩ := res
  simp only at hdrv hsm
  rw [List.getElem?_map] at hdrv
  cases hj : idxs[si]? with
  | none => rw [hj] at hdrv; simp at hdrv
  | some j =>
    rw [hj] at hdrv
    simp only [Option.map_some', Option.some.injEq] at hdrv
    subst hdrv
    refine ⟨si, j, ?_, hj, ?_⟩
    · unfold Registry.view_driver
      simp only [hmap, hhead, hres]
    · unfold Registry.view
      simp only [hmap, hhead, hres]
      rw [← hsm]
      rfl

set_option maxRecDepth 100000 in
/-- C22, as stated, fails when a stale handle is used: after the calls
`dupOps`, in which `add<0>` is given the stale handle `(0, 0)` between two
`add<0>` calls with the live handle `(0, 1)`, the driver of `view<0, 1>()` is
the pool of component 0, whose dense array is `[(0,1), (0,0), (0,1)]`, and
the view lists the one qualifying entity `(0, 1)` twice, with `size()` 2. -/
theorem C22_stale_add_duplicates :
    Registry.calls dupOps = some dupReg ∧
      dupReg.view_driver [0, 1] = some 0 ∧
      (dupReg.pool_of 0).get_entities = [⟨0, 1⟩, ⟨0, 0⟩, ⟨0, 1⟩] ∧
      dupReg.view [0, 1] = some ([0, 1].foldl Registry.get_pool dupReg, [⟨0, 1⟩, ⟨0, 1⟩]) ∧
      ¬ ([⟨0, 1⟩, ⟨0, 1⟩] : List Entity).Nodup ∧
      MultiView.size [⟨0, 1⟩, ⟨0, 1⟩] = 2 := by
  refine ⟨by rfl, by decide, by decide, by decide, by decide, by rfl⟩

/-- C22, amended: in every registry state `view<T1..Tn>()` for `n >= 2`
returns the entries of the dense array of the driver pool (the pool at the
position `set_smallest` chose) that are valid and contained in every other
listed pool: a subsequence of that array, taken at ascending dense slots,
without holes, and `size()` is its length. In every state of a run on a
fresh registry that uses live handles only and keeps all sizes representable,
the list moreover has no duplicates and its members are exactly the valid
entities every listed pool contains. -/
theorem C22_view_subsequence_of_driver {V : Type} (ops : List (Op V)) (w : World V)
    (hrun : World.run ops = some w)
    (hok : World.alongRun Registry.sizesOk World.new ops = true)
    (idxs : List Nat) (hn : 2 ≤ idxs.length) :
    (∀ r : Registry V, ∃ (l : List Entity) (k j : Nat),
      r.view idxs = some (idxs.foldl Registry.get_pool r, l) ∧
      r.view_driver idxs = some k ∧ idxs[k]? = some j ∧
      l = (r.pool_of j).get_entities.filter (fun e =>
          e.isValid &&
            (tplu.apply_without k (idxs.map r.pool_of)).all fun p => p.contains e) ∧
      l.Sublist (r.pool_of j).get_entities ∧
      (∃ ds : List Nat, ds.Pairwise (fun a b => a < b) ∧
        (∀ d ∈ ds, d < (r.pool_of j).get_entities.length) ∧
        l = ds.map (fun d => (r.pool_of j).get_entities.getD d Entity.null)) ∧
      (∀ e ∈ l, e.isValid = true) ∧
      MultiView.size l = l.length) ∧
    (∃ l : List Entity, w.reg.view idxs = some (idxs.foldl Registry.get_pool w.reg, l) ∧
      l.Nodup ∧
      (∀ e, e ∈ l ↔
        e.isValid = true ∧ ∀ i ∈ idxs, (w.reg.pool_of i).contains e = true)) := by
  have hne : idxs ≠ [] := by
    intro h; rw [h] at hn; simp at hn
  constructor
  · intro r
    obtain ⟨k, j, hdrv, hj, hview⟩ := view_shape r idxs hne
    refine ⟨_, k, j, hview, hdrv, hj, rfl, List.filter_sublist _, ?_, ?_, rfl⟩
    · refine ⟨_, List.Pairwise.filter _ (List.pairwise_lt_range _), ?_,
        filter_eq_map_positions _ _⟩
      intro d hd
      exact List.mem_range.mp (List.mem_filter.mp hd).1
    · intro e he
      have := (List.mem_filter.mp he).2
      simp only [Bool.and_eq_true] at this
      exact this.1
  · obtain ⟨_, hp, _⟩ := World.run_inv ops w hrun hok
    have hgood := World.PoolGood_pool_of w hp
    obtain ⟨k, j, hdrv, hj, hview⟩ := view_shape w.reg idxs hne
    have hk : k < (idxs.map w.reg.pool_of).length := by
      rw [List.length_map]
      by_contra hcon
      rw [List.getElem?_eq_none (by omega)] at hj
      exact absurd hj (by simp)
    refine ⟨_, hview, ?_, ?_⟩
    · exact tight_filter_nodup (w.reg.pool_of j) (hgood j).2.1 _ (fun e he => by
        simp only [Bool.and_eq_true] at he
        exact he.1)
    · intro e
      simp only [List.mem_filter, Bool.and_eq_true, List.all_eq_true]
      constructor
      · rintro ⟨hin, hval, hall⟩
        refine ⟨hval, fun i hi => ?_⟩
        obtain ⟨m, hm⟩ := List.mem_iff_getElem?.mp hi
        by_cases hmk : m = k
        · subst hmk
          rw [hj] at hm
          simp only [Option.some.injEq] at hm
          subst hm
          obtain ⟨d, hd⟩ := List.mem_iff_getElem?.mp hin
          exact (SparseSet.contains_iff _ _).mpr ⟨d, (hgood j).2.1 d e hd hval, hd⟩
        · exact hall _ ((tplu.mem_apply_without _ k hk _).mpr
            ⟨m, hmk, by rw [List.getElem?_map, hm]; rfl⟩)
      · rintro ⟨hval, hall⟩
        have hjmem : j ∈ idxs := List.getElem?_mem hj
        obtain ⟨d, _, hd⟩ := (SparseSet.contains_iff _ _).mp (hall j hjmem)
        refine ⟨List.getElem?_mem hd, hval, ?_⟩
        intro p hp'
        obtain ⟨m, _, hm⟩ := (tplu.mem_apply_without _ k hk _).mp hp'
        rw [List.getElem?_map] at hm
        cases hi : idxs[m]? with
        | none => rw [hi] at hm; simp at hm
        | some i =>
          rw [hi] at hm
          simp only [Option.map_some', Option.some.injEq] at hm
          rw [← hm]
          exact hall i (List.getElem?_mem hi)

set_option maxRecDepth 100000 in
/-- Witness of C22: in `holesWorld` the driver of `view<0, 1>` is the pool of
component 1, and the view holds the three entities both pools contain. -/
theorem C22_view_subsequence_of_driver_witness :
    World.run holesOps = some holesWorld ∧
      World.alongRun Registry.sizesOk World.new holesOps = true ∧
      holesWorld.reg.view [0, 1]
        = some ([0, 1].foldl Registry.get_pool holesWorld.reg, [⟨2, 0⟩, ⟨3, 0⟩, ⟨4, 0⟩]) ∧
      ((∀ r : Registry Nat, ∃ (l : List Entity) (k j : Nat),
        r.view [0, 1] = some ([0, 1].foldl Registry.get_pool r, l) ∧
        r.view_driver [0, 1] = some k ∧ [0, 1][k]? = some j ∧
        l = (r.pool_of j).get_entities.filter (fun e =>
            e.isValid &&
              (tplu.apply_without k ([0, 1].map r.pool_of)).all fun p => p.contains e) ∧
        l.Sublist (r.pool_of j).get_entities ∧
        (∃ ds : List Nat, ds.Pairwise (fun a b => a < b) ∧
          (∀ d ∈ ds, d < (r.pool_of j).get_entities.length) ∧
          l = ds.map (fun d => (r.pool_of j).get_entities.getD d Entity.null)) ∧
        (∀ e ∈ l, e.isValid = true) ∧
        MultiView.size l = l.length) ∧
      (∃ l : List Entity,
        holesWorld.reg.view [0, 1] = some ([0, 1].foldl Registry.get_pool holesWorld.reg, l) ∧
        l.Nodup ∧
        (∀ e, e ∈ l ↔
          e.isValid = true ∧
            ∀ i ∈ [0, 1], (holesWorld.reg.pool_of i).contains e = true))) :=
  ⟨by rfl, by decide, by decide,
    C22_view_subsequence_of_driver holesOps holesWorld (by rfl) (by decide) [0, 1] (by decide)⟩

/-! ## `size()` of the two kinds of view -/

set_option maxRecDepth 100000 in
/-- C26, as stated, fails for a pool that holds an entity whose version is
the sentinel: after `insert(1, (5, SIZE_MAX))` the pool has one live
component by `entities_count()` and no freed slot (the free list is empty),
`size()` of the view is 1, and the iterator of the view yields nothing; the
only dense entry is not a valid entity. -/
theorem C26_invalid_member_counted :
    runPool invalidMemberOps = some invalidMemberPool ∧
      invalidMemberPool.contains ⟨5, SIZE_MAX⟩ = true ∧
      invalidMemberPool.entities_count = 1 ∧
      invalidMemberPool.destroyed_ = SIZE_MAX ∧
      SingleView.size invalidMemberPool.get_entities = 1 ∧
      SingleView.iterate invalidMemberPool.get_entities = some [] ∧
      (invalidMemberPool.get_entities.filter (fun e => !e.isValid)).length = 1 := by
  refine ⟨by rfl, by decide, by decide, by decide, by decide, by decide, by decide⟩

/-- C26, amended: in every pool state reached from a fresh pool by insert and remove
calls that insert valid entities only (dense array representable), with `n`
the count of live components and `k` the number of holes of the dense array,
`SingleView::size()` over the pool is `n + k`, the iterator of the view yields
`n` entities, and so `size()` exceeds the number of yielded entities exactly
when `k > 0`; for every dense array `size()` is the number of yielded
entities plus the number of holes; and `MultiView::size()` is the number of
entities the `MultiView` yields, for every entity list. -/
theorem C26_single_view_size_counts_holes {T : Type} (ops : List (PoolOp T))
    (s : SparseSet T) (hreach : runPool ops = some s)
    (hvalid : alongPool PoolOp.validEntity SparseSet.new ops = true)
    (hle : s.denseEntities_.length ≤ SIZE_MAX) :
    (∃ es, SingleView.iterate s.get_entities = some es ∧
      es.length = s.entities_count ∧
      SingleView.size s.get_entities
        = s.entities_count + (s.get_entities.filter (fun e => !e.isValid)).length ∧
      (es.length < SingleView.size s.get_entities ↔
        0 < (s.get_entities.filter (fun e => !e.isValid)).length)) ∧
    (∀ ents : List Entity, ∃ es, SingleView.iterate ents = some es ∧
      SingleView.size ents = es.length + (ents.filter (fun e => !e.isValid)).length) ∧
    (∀ l : List Entity, MultiView.size l = (MultiView.iterate l).length) := by
  have hit : ∀ ents : List Entity,
      SingleView.iterate ents = some (ents.filter Entity.isValid) := by
    intro ents
    rw [SingleView.iterate, SingleView.positions_eq,
      SingleView.mapM_getElem?_of_lt ents _
        (by intro i hi; simpa using (List.mem_filter.mp hi).1),
      SingleView.filter_valid_eq]
  obtain ⟨chain, hinv, hiff⟩ := SparseSet.runPool_validDense ops s hreach hvalid hle
  obtain ⟨_, _, _, _, hchain, hnd, _, hcount⟩ := hinv
  have hlen := SparseSet.length_filter_valid s.denseEntities_ chain hnd
    (FreeChain_lt _ _ _ hchain) hiff
  have hsplit := List.length_eq_length_filter_add (l := s.denseEntities_) Entity.isValid
  refine ⟨⟨_, hit _, ?_, ?_, ?_⟩, fun ents => ⟨_, hit _, ?_⟩, fun _ => rfl⟩
  · simp only [SparseSet.get_entities, SparseSet.entities_count]; omega
  · simp only [SingleView.size, SparseSet.get_entities, SparseSet.entities_count]; omega
  · simp only [SingleView.size, SparseSet.get_entities]; omega
  · simp only [SingleView.size]
    exact List.length_eq_length_filter_add (l := ents) Entity.isValid

set_option maxRecDepth 100000 in
/-- Witness of C26: `demoPool` has one live component and one hole; the view
has size 2 and yields one entity. -/
theorem C26_single_view_size_counts_holes_witness :
    runPool demoPoolOps = some demoPool ∧
      alongPool PoolOp.validEntity SparseSet.new demoPoolOps = true ∧
      SingleView.size demoPool.get_entities = 2 ∧
      SingleView.iterate demoPool.get_entities = some [⟨1, 0⟩] ∧
      ((∃ es, SingleView.iterate demoPool.get_entities = some es ∧
        es.length = demoPool.entities_count ∧
        SingleView.size demoPool.get_entities
          = demoPool.entities_count
            + (demoPool.get_entities.filter (fun e => !e.isValid)).length ∧
        (es.length < SingleView.size demoPool.get_entities ↔
          0 < (demoPool.get_entities.filter (fun e => !e.isValid)).length)) ∧
      (∀ ents : List Entity, ∃ es, SingleView.iterate ents = some es ∧
        SingleView.size ents = es.length + (ents.filter (fun e => !e.isValid)).length) ∧
      (∀ l : List Entity, MultiView.size l = (MultiView.iterate l).length)) :=
  ⟨by rfl, by decide, by decide, by decide,
    C26_single_view_size_counts_holes demoPoolOps demoPool (by rfl) (by decide) (by decide)⟩

/-! ## `PagedVector` with an arbitrary page size -/

namespace PagedVector

variable {T : Type}

theorem mul_step (P p q : Nat) (h : p < q) : p * P + P ≤ q * P := by
  have h1 := Nat.mul_le_mul_right P (Nat.succ_le_of_lt h)
  rw [Nat.succ_mul] at h1
  exact h1

theorem Stores_new (P : Nat) : Stores P (PagedVector.new : PagedVector T) [] := by
  refine ⟨rfl, fun p => ?_⟩
  simp [PagedVector.new]

/-- The number of pages of a vector that stores `data`. -/
theorem Stores_pages (P : Nat) (hP : 1 ≤ P) (pv : PagedVector T) (data : List T)
    (h : Stores P pv data) :
    (data.length % P = 0 → pv.storage_.length = data.length / P) ∧
    (data.length % P ≠ 0 → pv.storage_.length = data.length / P + 1) := by
  obtain ⟨_, hst⟩ := h
  have hdm := Nat.div_add_mod' data.length P
  have hml := Nat.mod_lt data.length (show P > 0 by omega)
  have hlow : ∀ p, p * P < data.length → p < pv.storage_.length := by
    intro p hp
    by_contra hcon
    have h1 := hst p
    rw [if_pos hp, List.getElem?_eq_none (by omega)] at h1
    exact absurd h1 (by simp)
  have hhigh : ∀ p, ¬ p * P < data.length → pv.storage_.length ≤ p := by
    intro p hp
    have h1 := hst p
    rw [if_neg hp] at h1
    exact List.getElem?_eq_none_iff.mp h1
  constructor
  · intro hr
    have h1 := hhigh (data.length / P) (by omega)
    by_cases hq : data.length / P = 0
    · omega
    · have h2 := hlow (data.length / P - 1) (by
        have := mul_step P (data.length / P - 1) (data.length / P) (by omega)
        omega)
      omega
  · intro hr
    have h1 := hlow (data.length / P) (by omega)
    have h2 := hhigh (data.length / P + 1) (by
      have := mul_step P (data.length / P) (data.length / P + 1) (by omega)
      omega)
    omega

/-- Reading a vector that stores `data`. -/
theorem Stores_get (P : Nat) (hP : 1 ≤ P) (pv : PagedVector T) (data : List T)
    (h : Stores P pv data) (i : Nat) (hi : i < data.length) :
    ∃ page : List T, pv.storage_[i / P]? = some (some page) ∧ page[i % P]? = data[i]? ∧
      pv.get P i = data[i]? := by
  obtain ⟨_, hst⟩ := h
  have hdm := Nat.div_add_mod' i P
  have hml := Nat.mod_lt i (show P > 0 by omega)
  have h1 := hst (i / P)
  rw [if_pos (by omega)] at h1
  have h2 : ((data.drop (i / P * P)).take P)[i % P]? = data[i]? := by
    rw [List.getElem?_take_of_lt hml, List.getElem?_drop, hdm]
  refine ⟨_, h1, h2, ?_⟩
  simp only [PagedVector.get, h1, h2]

/-- One `push_back` on a vector that stores `data`: it returns, the vector
then stores `data` followed by the new element, and a page is added exactly
when the length of `data` is a multiple of the page size. -/
theorem Stores_push_back (P : Nat) (hP : 1 ≤ P) (pv : PagedVector T) (data : List T)
    (h : Stores P pv data) (x : T) :
    ∃ pv', pv.push_back P x = some pv' ∧ Stores P pv' (data ++ [x]) ∧
      (data.length % P = 0 → pv'.storage_.length = pv.storage_.length + 1) ∧
      (data.length % P ≠ 0 → pv'.storage_.length = pv.storage_.length) := by
  obtain ⟨hp0, hp1⟩ := Stores_pages P hP pv data h
  obtain ⟨hsz, hst⟩ := h
  have hdm := Nat.div_add_mod' data.length P
  have hml := Nat.mod_lt data.length (show P > 0 by omega)
  -- the pages below the last one are full and stay as they are
  have hfullpage : ∀ p, p * P + P ≤ data.length →
      ((data ++ [x]).drop (p * P)).take P = (data.drop (p * P)).take P := by
    intro p hp
    rw [List.drop_append_of_le_length (by omega),
      List.take_append_of_le_length (by rw [List.length_drop]; omega)]
  by_cases hr : data.length % P = 0
  · have hq := hp0 hr
    have hfull : pv.size_ / P ≥ pv.storage_.length := by rw [hsz]; omega
    have hvl : (vresize pv.storage_ (pv.size_ / P + 1)).length = pv.size_ / P + 1 :=
      length_vresize _ _ (by omega)
    refine ⟨⟨((vresize pv.storage_ (pv.size_ / P + 1)).set (pv.size_ / P) (some [])).set
      (pv.size_ / P) (some ([] ++ [x])), pv.size_ + 1⟩, ?_, ⟨?_, ?_⟩, ?_, ?_⟩
    · simp [PagedVector.push_back, hfull, hvl]
    · simp [hsz]
    · intro p
      simp only [List.length_append, List.length_singleton]
      by_cases hpe : pv.size_ / P = p
      · subst hpe
        rw [List.getElem?_set_self (by simp [hvl]), hsz, if_pos (by omega)]
        have e1 : data.length / P * P = data.length := by omega
        rw [e1, List.drop_left]
        cases P with
        | zero => omega
        | succ k => simp
      · rw [List.getElem?_set_ne hpe, List.getElem?_set_ne hpe,
          getElem?_vresize _ _ _ (by omega)]
        rw [hsz] at hpe
        by_cases hlt : p < data.length / P
        · have := mul_step P p (data.length / P) hlt
          rw [if_pos (by omega), hst p, if_pos (by omega), if_pos (by omega),
            hfullpage p (by omega)]
        · have := mul_step P (data.length / P) p (by omega)
          rw [if_neg (by omega), if_neg (by rw [hsz]; omega), if_neg (by omega)]
    · intro _
      simp only [List.length_set, hvl]
      rw [hsz]; omega
    · intro hc; exact absurd hr hc
  · have hq := hp1 hr
    have hfull : ¬ pv.storage_.length ≤ data.length / P := by omega
    have hpage := hst (data.length / P)
    rw [if_pos (by omega)] at hpage
    refine ⟨⟨pv.storage_.set (pv.size_ / P)
      (some ((data.drop (data.length / P * P)).take P ++ [x])), pv.size_ + 1⟩,
      ?_, ⟨?_, ?_⟩, ?_, ?_⟩
    · simp [PagedVector.push_back, hfull, hsz, hpage]
    · simp [hsz]
    · intro p
      simp only [List.length_append, List.length_singleton]
      by_cases hpe : pv.size_ / P = p
      · subst hpe
        rw [List.getElem?_set_self (by rw [hsz]; omega), hsz, if_pos (by omega)]
        rw [List.drop_append_of_le_length (by omega),
          List.take_of_length_le (l := List.drop (data.length / P * P) data)
            (by rw [List.length_drop]; omega),
          List.take_of_length_le (by simp; omega)]
      · rw [List.getElem?_set_ne hpe, hst p]
        rw [hsz] at hpe
        by_cases hlt : p < data.length / P
        · have := mul_step P p (data.length / P) hlt
          rw [if_pos (by omega), if_pos (by omega), hfullpage p (by omega)]
        · have := mul_step P (data.length / P) p (by omega)
          rw [if_neg (by omega), if_neg (by omega)]
    · intro hc; exact absurd hc hr
    · intro _
      simp only [List.length_set]

/-- A sequence of `push_back` calls on a vector that stores `data`. -/
theorem Stores_push_all (P : Nat) (hP : 1 ≤ P) :
    ∀ (xs : List T) (pv : PagedVector T) (data : List T), Stores P pv data →
      ∃ pv', push_all P pv xs = some pv' ∧ Stores P pv' (data ++ xs) := by
  intro xs
  induction xs with
  | nil => intro pv data h; exact ⟨pv, rfl, by rw [List.append_nil]; exact h⟩
  | cons x xs ih =>
    intro pv data h
    obtain ⟨pv1, h1, h2, _⟩ := Stores_push_back P hP pv data h x
    obtain ⟨pv', h3, h4⟩ := ih pv1 (data ++ [x]) h2
    refine ⟨pv', ?_, ?_⟩
    · rw [push_all, h1]
      exact h3
    · rw [List.append_assoc] at h4
      exact h4

end PagedVector

/-- C25: for every page size `P >= 1` and every sequence of `n` values, the
`n` calls of `push_back` on an empty paged vector all return; afterwards
`size()` is `n`; `operator[](i)` for `i < n` returns the `i`-th pushed value,
which is stored in page `i / P` at offset `i % P`; no page holds more than
`P` elements and no page pointer is null; the vector has `n / P` pages when
`n` is a multiple of `P` and `n / P + 1` pages otherwise; and a further
`push_back` returns and allocates a page exactly when `n` is a multiple of
`P`. -/
theorem C25_paged_vector_push_back {T : Type} (P : Nat) (hP : 1 ≤ P) (xs : List T) :
    ∃ pv, PagedVector.push_all P PagedVector.new xs = some pv ∧
      pv.size = xs.length ∧
      (∀ i, i < xs.length →
        pv.get P i = xs[i]? ∧
          ∃ page : List T, pv.storage_[i / P]? = some (some page) ∧ page[i % P]? = xs[i]?) ∧
      (∀ (p : Nat) (page : List T), pv.storage_[p]? = some (some page) → page.length ≤ P) ∧
      (∀ p, p < pv.pages → ∃ page : List T, pv.storage_[p]? = some (some page)) ∧
      (xs.length % P = 0 → pv.pages = xs.length / P) ∧
      (xs.length % P ≠ 0 → pv.pages = xs.length / P + 1) ∧
      ∀ x, ∃ pv', pv.push_back P x = some pv' ∧
        (xs.length % P = 0 → pv'.pages = pv.pages + 1) ∧
        (xs.length % P ≠ 0 → pv'.pages = pv.pages) := by
  obtain ⟨pv, h1, h2⟩ := PagedVector.Stores_push_all P hP xs PagedVector.new []
    (PagedVector.Stores_new P)
  rw [List.nil_append] at h2
  obtain ⟨hp0, hp1⟩ := PagedVector.Stores_pages P hP pv xs h2
  have hst := h2.2
  refine ⟨pv, h1, h2.1, ?_, ?_, ?_, hp0, hp1, ?_⟩
  · intro i hi
    obtain ⟨page, ha, hb, hc⟩ := PagedVector.Stores_get P hP pv xs h2 i hi
    exact ⟨hc, page, ha, hb⟩
  · intro p page hpg
    have h3 := hst p
    rw [hpg] at h3
    by_cases hlt : p * P < xs.length
    · rw [if_pos hlt] at h3
      simp only [Option.some.injEq] at h3
      rw [h3]
      exact List.length_take_le _ _
    · rw [if_neg hlt] at h3
      exact absurd h3 (by simp)
  · intro p hp
    have h3 := hst p
    by_cases hlt : p * P < xs.length
    · rw [if_pos hlt] at h3
      exact ⟨_, h3⟩
    · rw [if_neg hlt] at h3
      have := List.getElem?_eq_none_iff.mp h3
      simp only [PagedVector.pages] at hp
      omega
  · intro x
    obtain ⟨pv', ha, _, hb, hc⟩ := PagedVector.Stores_push_back P hP pv xs h2 x
    exact ⟨pv', ha, hb, hc⟩

/-- Witness of C25: seven values pushed with page size 3. -/
theorem C25_paged_vector_push_back_witness :
    PagedVector.push_all 3 PagedVector.new [10, 11, 12, 13, 14, 15, 16]
        = some ⟨[some [10, 11, 12], some [13, 14, 15], some [16]], 7⟩ ∧
      ∃ pv, PagedVector.push_all 3 PagedVector.new [10, 11, 12, 13, 14, 15, 16] = some pv ∧
        pv.size = [10, 11, 12, 13, 14, 15, 16].length ∧
        (∀ i, i < [10, 11, 12, 13, 14, 15, 16].length →
          pv.get 3 i = [10, 11, 12, 13, 14, 15, 16][i]? ∧
            ∃ page : List Nat, pv.storage_[i / 3]? = some (some page) ∧
              page[i % 3]? = [10, 11, 12, 13, 14, 15, 16][i]?) ∧
        (∀ (p : Nat) (page : List Nat), pv.storage_[p]? = some (some page) → page.length ≤ 3) ∧
        (∀ p, p < pv.pages → ∃ page : List Nat, pv.storage_[p]? = some (some page)) ∧
        ([10, 11, 12, 13, 14, 15, 16].length % 3 = 0 →
          pv.pages = [10, 11, 12, 13, 14, 15, 16].length / 3) ∧
        ([10, 11, 12, 13, 14, 15, 16].length % 3 ≠ 0 →
          pv.pages = [10, 11, 12, 13, 14, 15, 16].length / 3 + 1) ∧
        ∀ x, ∃ pv', pv.push_back 3 x = some pv' ∧
          ([10, 11, 12, 13, 14, 15, 16].length % 3 = 0 → pv'.pages = pv.pages + 1) ∧
          ([10, 11, 12, 13, 14, 15, 16].length % 3 ≠ 0 → pv'.pages = pv.pages) :=
  ⟨by rfl, C25_paged_vector_push_back 3 (by decide) [10, 11, 12, 13, 14, 15, 16]⟩

end aecs
